import Mathlib

/-!
Blocked-cell Connect Four: bitboard position and solver.

A shallow embedding of `src/nega_v2/Position.hpp`, `MoveSorter.hpp`,
`TranspositionTable.hpp` and `Solver.cpp`, followed by theorems about the
embedded functions.

Conventions of the embedding.

* `position_t` (`uint64_t`) values are natural numbers below `2 ^ 64`.  The
  only operation of the source that can leave that range is `<<`; it is
  embedded as `shl64`, which reduces modulo `2 ^ 64`.  `&`, `|`, `^` and `>>`
  are the exact operations on naturals.
* `int` values are integers.  `unsigned int moves_` is a natural number that
  wraps modulo `2 ^ 32`; `nbMoves()` converts it to `int` (two's complement).
* A call that trips an `assert` yields `Except.error`, carrying the state of
  the object at the moment the assertion fired.
-/

namespace Connect4

/-! ## Machine arithmetic -/

/-- The `<<` of `uint64_t`: bits shifted past position 63 are lost. -/
def shl64 (x k : Nat) : Nat := (x <<< k) % 2 ^ 64

/-- Conversion `unsigned int -> int` as done by `nbMoves()`. -/
def toInt32 (u : Nat) : Int :=
  if u % 2 ^ 32 < 2 ^ 31 then ((u % 2 ^ 32 : Nat) : Int) else ((u % 2 ^ 32 : Nat) : Int) - 2 ^ 32

/-! ## Position.hpp -/

/-- Constant `Position::WIDTH`. -/
def WIDTH : Nat := 7
/-- Constant `Position::HEIGHT`. -/
def HEIGHT : Nat := 6

/-- Data members of `class Position`. -/
structure Position where
  current_position : Nat
  mask : Nat
  blocked_cells : Nat
  moves_ : Nat
deriving DecidableEq

/-- Constant `Position::bottom_mask`, the literal of the source. -/
def bottom_mask : Nat := 0x41041041041041

/-- Constant `Position::actual_board_cells_mask`
    `= bottom_mask * ((position_t(1) << HEIGHT) - 1)`. -/
def actual_board_cells_mask : Nat := (bottom_mask * (shl64 1 HEIGHT - 1)) % 2 ^ 64

/-- The test `col >= 0 && col < Eff_WIDTH && row >= 0 && row < Eff_HEIGHT` of the
    four-argument constructor. -/
def cellInRange (row col : Int) : Bool :=
  decide (col ≥ 0) && decide (col < 7) && decide (row ≥ 0) && decide (row < 6)

/-- Default constructor `Position::Position()`. -/
def Position.new0 : Position := ⟨0, 0, 0, 0⟩

/-- Constructor `Position::Position(int row1, int col1, int row2, int col2)`. -/
def Position.new4 (row1_arg col1_arg row2_arg col2_arg : Int) : Position :=
  let blocked0 : Nat := 0
  let blocked1 : Nat :=
    if cellInRange row1_arg col1_arg then
      let bitboard_row1 : Int := 6 - 1 - row1_arg
      let bit_index1 : Int := col1_arg * (6 + 1) + bitboard_row1
      blocked0 ||| shl64 1 bit_index1.toNat
    else blocked0
  let blocked2 : Nat :=
    if cellInRange row2_arg col2_arg then
      let bitboard_row2 : Int := 6 - 1 - row2_arg
      let bit_index2 : Int := col2_arg * (6 + 1) + bitboard_row2
      let cell1_was_valid_and_is_identical_to_cell2 : Bool :=
        decide (row1_arg = row2_arg) && decide (col1_arg = col2_arg) &&
          cellInRange row1_arg col1_arg
      if !cell1_was_valid_and_is_identical_to_cell2 then
        blocked1 ||| shl64 1 bit_index2.toNat
      else blocked1
    else blocked1
  { current_position := 0, mask := 0, blocked_cells := blocked2, moves_ := 0 }

/-- Accessor `Position::nbMoves()`. -/
def Position.nbMoves (P : Position) : Int := toInt32 P.moves_

/-- The `for` loop of `getLowestAvailableBitIndex`, entered at `row_board` with
    `fuel = HEIGHT - row_board` iterations left. -/
def Position.scanColumn (P : Position) (col : Int) : Nat → Nat → Int
  | 0, _ => -1
  | fuel + 1, row_board =>
    let bit_idx : Int := col * (6 + 1) + (row_board : Int)
    if P.blocked_cells &&& shl64 1 bit_idx.toNat = 0 then
      if P.mask &&& shl64 1 bit_idx.toNat = 0 then bit_idx
      else P.scanColumn col fuel (row_board + 1)
    else P.scanColumn col fuel (row_board + 1)

/-- Method `Position::getLowestAvailableBitIndex`. -/
def Position.getLowestAvailableBitIndex (P : Position) (col : Int) : Int :=
  if col < 0 ∨ col ≥ 7 then -1 else P.scanColumn col HEIGHT 0

/-- Method `Position::canPlay`. -/
def Position.canPlay (P : Position) (col : Int) : Bool :=
  decide (P.getLowestAvailableBitIndex col ≠ -1)

/-- Method `Position::play`. -/
def Position.play (P : Position) (move_mask : Nat) : Position :=
  { current_position := P.current_position ^^^ P.mask
    mask := P.mask ||| move_mask
    blocked_cells := P.blocked_cells
    moves_ := (P.moves_ + 1) % 2 ^ 32 }

/-- Method `Position::playCol`.  `Except.error P` is the failed
    `assert(drop_bit_idx != -1)`; it fires before any member is written. -/
def Position.playCol (P : Position) (col : Int) : Except Position Position :=
  let drop_bit_idx := P.getLowestAvailableBitIndex col
  if drop_bit_idx ≠ -1 then
    let move_mask := shl64 1 drop_bit_idx.toNat
    Except.ok (P.play move_mask)
  else Except.error P

/-- Static method `Position::compute_winning_position`. -/
def compute_winning_position (P M : Nat) : Nat :=
  let H : Nat := HEIGHT
  let H1 : Nat := H + 1
  let H_diag_fwd : Nat := H
  let H_diag_bwd : Nat := H + 2
  let r : Nat := 0
  -- vertical
  let r := r ||| (shl64 P 1 &&& shl64 P 2 &&& shl64 P 3)
  let r := r ||| ((P >>> 1) &&& shl64 P 1 &&& shl64 P 2)
  let r := r ||| ((P >>> 2) &&& (P >>> 1) &&& shl64 P 1)
  let r := r ||| ((P >>> 3) &&& (P >>> 2) &&& (P >>> 1))
  -- horizontal
  let p_temp := shl64 P H1 &&& shl64 P (2 * H1)
  let r := r ||| (p_temp &&& shl64 P (3 * H1))
  let r := r ||| (p_temp &&& (P >>> H1))
  let p_temp := (P >>> H1) &&& (P >>> (2 * H1))
  let r := r ||| (p_temp &&& shl64 P H1)
  let r := r ||| (p_temp &&& (P >>> (3 * H1)))
  -- diagonal /
  let p_temp := shl64 P H_diag_fwd &&& shl64 P (2 * H_diag_fwd)
  let r := r ||| (p_temp &&& shl64 P (3 * H_diag_fwd))
  let r := r ||| (p_temp &&& (P >>> H_diag_fwd))
  let p_temp := (P >>> H_diag_fwd) &&& (P >>> (2 * H_diag_fwd))
  let r := r ||| (p_temp &&& shl64 P H_diag_fwd)
  let r := r ||| (p_temp &&& (P >>> (3 * H_diag_fwd)))
  -- diagonal \
  let p_temp := shl64 P H_diag_bwd &&& shl64 P (2 * H_diag_bwd)
  let r := r ||| (p_temp &&& shl64 P (3 * H_diag_bwd))
  let r := r ||| (p_temp &&& (P >>> H_diag_bwd))
  let p_temp := (P >>> H_diag_bwd) &&& (P >>> (2 * H_diag_bwd))
  let r := r ||| (p_temp &&& shl64 P H_diag_bwd)
  let r := r ||| (p_temp &&& (P >>> (3 * H_diag_bwd)))
  r &&& (actual_board_cells_mask ^^^ M)

/-- Method `Position::winning_position`. -/
def Position.winning_position (P : Position) : Nat :=
  compute_winning_position P.current_position P.mask

/-- Method `Position::opponent_winning_position`. -/
def Position.opponent_winning_position (P : Position) : Nat :=
  compute_winning_position (P.current_position ^^^ P.mask) P.mask

/-- Method `Position::isWinningMove`. -/
def Position.isWinningMove (P : Position) (col : Int) : Bool :=
  if !P.canPlay col then false
  else
    let drop_bit_idx := P.getLowestAvailableBitIndex col
    if drop_bit_idx = -1 then false
    else
      let move_landing_mask := shl64 1 drop_bit_idx.toNat
      let current_player_winning_spots :=
        compute_winning_position P.current_position P.mask
      decide (current_player_winning_spots &&& move_landing_mask ≠ 0)

/-- The `for` loop of `canWinNext`, from column `col` on, with `fuel = WIDTH - col`
    iterations left; returns the final `possible_moves_mask`. -/
def Position.possibleMovesLoop (P : Position) : Nat → Nat → Nat → Nat
  | 0, _, possible_moves_mask => possible_moves_mask
  | fuel + 1, col, possible_moves_mask =>
    let drop_bit_idx := P.getLowestAvailableBitIndex (col : Int)
    if drop_bit_idx ≠ -1 then
      P.possibleMovesLoop fuel (col + 1) (possible_moves_mask ||| shl64 1 drop_bit_idx.toNat)
    else P.possibleMovesLoop fuel (col + 1) possible_moves_mask

/-- Method `Position::canWinNext`. -/
def Position.canWinNext (P : Position) : Bool :=
  let winning_spots := P.winning_position
  let possible_moves_mask := P.possibleMovesLoop WIDTH 0 0
  decide (winning_spots &&& possible_moves_mask ≠ 0)

/-- Method `Position::key`. -/
def Position.key (P : Position) : Nat :=
  P.current_position ^^^ P.mask ^^^ P.blocked_cells

/-- Number of set bits among the bits `0 .. n-1` of `m`. -/
def popcountBelow (m : Nat) : Nat → Nat
  | 0 => 0
  | n + 1 => popcountBelow m n + (if m.testBit n then 1 else 0)

/-- Static method `Position::popcount` (`__builtin_popcountll` on a 64-bit word). -/
def popcount (m : Nat) : Nat := popcountBelow m 64

/-! ## GamePlayer.cpp -/

/-- Function `check_player_has_won` of `GamePlayer.cpp`. -/
def check_player_has_won (player_board : Nat) : Bool :=
  let H : Nat := HEIGHT
  let H1 : Nat := H + 1
  let H_diag_fwd : Nat := H
  let H_diag_bwd : Nat := H + 2
  let y := player_board &&& (player_board >>> 1)
  let y := y &&& (y >>> 2)
  if y ≠ 0 then true else
  let y := player_board &&& (player_board >>> H1)
  let y := y &&& (y >>> (2 * H1))
  if y ≠ 0 then true else
  let y := player_board &&& (player_board >>> H_diag_fwd)
  let y := y &&& (y >>> (2 * H_diag_fwd))
  if y ≠ 0 then true else
  let y := player_board &&& (player_board >>> H_diag_bwd)
  let y := y &&& (y >>> (2 * H_diag_bwd))
  if y ≠ 0 then true else false


/-- Method `Position::getNonLosingPlayableCols`, the `for` loop from column `col` on
    with `fuel = WIDTH - col` iterations left; returns
    `(non_losing_cols, all_playable_cols)`. -/
def Position.nonLosingLoop (P : Position) : Nat → Nat → List Int → List Int → List Int × List Int
  | 0, _, non_losing_cols, all_playable_cols => (non_losing_cols, all_playable_cols)
  | fuel + 1, col, non_losing_cols, all_playable_cols =>
    if P.canPlay (col : Int) then
      match P.playCol (col : Int) with
      | Except.ok P2_after_move =>
        if !P2_after_move.canWinNext then
          P.nonLosingLoop fuel (col + 1) (non_losing_cols ++ [(col : Int)])
            (all_playable_cols ++ [(col : Int)])
        else
          P.nonLosingLoop fuel (col + 1) non_losing_cols (all_playable_cols ++ [(col : Int)])
      | Except.error _ =>
        P.nonLosingLoop fuel (col + 1) non_losing_cols (all_playable_cols ++ [(col : Int)])
    else P.nonLosingLoop fuel (col + 1) non_losing_cols all_playable_cols

/-- Method `Position::getNonLosingPlayableCols`. -/
def Position.getNonLosingPlayableCols (P : Position) : List Int :=
  let r := P.nonLosingLoop WIDTH 0 [] []
  if r.1.isEmpty && !r.2.isEmpty then r.2 else r.1

/-- Index of the lowest set bit of a non-zero 64-bit word (`__builtin_ctzll`), searched
    from bit `k` with `fuel` bits left. -/
def ctzLoop (m : Nat) : Nat → Nat → Nat
  | 0, _ => 0
  | fuel + 1, k => if (m >>> k) &&& 1 ≠ 0 then k else ctzLoop m fuel (k + 1)

/-- Method `Position::moveScore`. -/
def Position.moveScore (P : Position) (move_landing_mask : Nat) : Int :=
  if move_landing_mask = 0 then -100000
  else
    let bit_pos_for_col : Nat := ctzLoop move_landing_mask 64 0
    let landing_col : Int :=
      if ¬ (shl64 1 bit_pos_for_col = move_landing_mask) then -1
      else ((bit_pos_for_col / (HEIGHT + 1) : Nat) : Int)
    let my_winning_spots_now := compute_winning_position P.current_position P.mask
    if my_winning_spots_now &&& move_landing_mask ≠ 0 then 20000
    else
      let P_after_my_move := P.play move_landing_mask
      if P_after_my_move.canWinNext then -19000
      else
        let opponent_board_before_my_move := P.current_position ^^^ P.mask
        let opponent_winning_spots_before_my_move :=
          compute_winning_position opponent_board_before_my_move P.mask
        let tactical_score0 : Int :=
          if opponent_winning_spots_before_my_move &&& move_landing_mask ≠ 0 then 18000 else 0
        let my_board_after_my_move := P_after_my_move.mask ^^^ P_after_my_move.current_position
        let my_threat_spots_for_next_turn :=
          compute_winning_position my_board_after_my_move P_after_my_move.mask
        let num_my_threats := popcount my_threat_spots_for_next_turn
        let tactical_score : Int :=
          if num_my_threats ≥ 2 then tactical_score0 + 1500
          else if num_my_threats = 1 then tactical_score0 + 500
          else tactical_score0
        let positional_score : Int :=
          if landing_col ≠ -1 then
            let centrality_value : Int :=
              (7 : Int).tdiv 2 - ((landing_col - (7 : Int).tdiv 2).natAbs : Int)
            centrality_value * 5
          else 0
        tactical_score + positional_score

/-! ## MoveSorter.hpp -/

/-- The live part of `MoveSorter::entries`, last slot first: the head of the list is
    `entries[size-1]` and `size` is its length.  Pairs are `(move, score)`. -/
structure MoveSorter where
  entries : List (Nat × Int)

/-- Constructor `MoveSorter::MoveSorter`. -/
def MoveSorter.empty : MoveSorter := ⟨[]⟩

/-- The insertion loop of `MoveSorter::add`, walking down from the last slot: entries
    with a larger score move one slot up. -/
def MoveSorter.insert (move : Nat) (score : Int) : List (Nat × Int) → List (Nat × Int)
  | [] => [(move, score)]
  | e :: rest =>
    if e.2 > score then e :: MoveSorter.insert move score rest
    else (move, score) :: e :: rest

/-- Method `MoveSorter::add`. -/
def MoveSorter.add (M : MoveSorter) (move : Nat) (score : Int) : MoveSorter :=
  ⟨MoveSorter.insert move score M.entries⟩

/-- Method `MoveSorter::getNext`: the returned move and the sorter left behind. -/
def MoveSorter.getNext (M : MoveSorter) : Nat × MoveSorter :=
  match M.entries with
  | [] => (0, M)
  | e :: rest => (e.1, ⟨rest⟩)

/-! ## TranspositionTable.hpp -/

/-- The table's `size`, the value of `next_prime(1 << 24)`. -/
def tableSize : Nat := 16777259

/-- The arrays `K` (partial keys, `uint32_t`) and `V` (values, `uint8_t`) of
    `TranspositionTable`, as functions of the slot index. -/
structure TranspositionTable where
  K : Nat → Nat
  V : Nat → Nat

/-- Method `TranspositionTable::index`. -/
def TranspositionTable.index (key : Nat) : Nat := key % tableSize

/-- Method `TranspositionTable::reset`: both arrays zeroed. -/
def TranspositionTable.reset : TranspositionTable := ⟨fun _ => 0, fun _ => 0⟩

/-- Method `TranspositionTable::put`; `value` is the `int` the caller passes, stored
    as `uint8_t`, and the key is stored truncated to `uint32_t`. -/
def TranspositionTable.put (T : TranspositionTable) (key : Nat) (value : Int) :
    TranspositionTable :=
  let pos := TranspositionTable.index key
  { K := fun i => if i = pos then key % 2 ^ 32 else T.K i
    V := fun i => if i = pos then (value % 256).toNat else T.V i }

/-- Method `TranspositionTable::get`. -/
def TranspositionTable.get (T : TranspositionTable) (key : Nat) : Nat :=
  let pos := TranspositionTable.index key
  if T.K pos = key % 2 ^ 32 then T.V pos else 0

/-! ## Solver.hpp, Solver.cpp -/

/-- Constant `Position::MIN_SCORE`. -/
def MIN_SCORE : Int := (-(7 * 6 : Int)).tdiv 2 + 3
/-- Constant `Position::MAX_SCORE`. -/
def MAX_SCORE : Int := ((7 * 6 + 1 : Int)).tdiv 2 - 3

/-- `std::numeric_limits<int>::min()`. -/
def INT_MIN : Int := -2147483648

/-- Data members of `class Solver`. -/
structure Solver where
  transTable : TranspositionTable
  nodeCount : Nat
  columnOrder : List Int

/-- Constructor `Solver::Solver`: `columnOrder[i] = WIDTH/2 + (1 - 2*(i%2))*(i+1)/2`
    with the truncating division of C++; the table is reset by its own constructor. -/
def Solver.new : Solver :=
  { transTable := TranspositionTable.reset
    nodeCount := 0
    columnOrder := (List.range WIDTH).map fun i =>
      (7 : Int).tdiv 2 + ((1 - 2 * ((i : Int).tmod 2)) * ((i : Int) + 1)).tdiv 2 }

/-- Method `Solver::reset`. -/
def Solver.reset (S : Solver) : Solver :=
  { S with nodeCount := 0, transTable := TranspositionTable.reset }

/-- Method `Solver::getColumnOrderAt`. -/
def Solver.getColumnOrderAt (S : Solver) (index : Int) : Int :=
  if index ≥ 0 ∧ index < 7 then S.columnOrder.getD index.toNat 0 else -1

/-- Ways a call of the engine can stop without a value. -/
inductive Abort where
  /-- A failed `assert`. -/
  | assertion
  /-- The recursion budget of the embedding ran out. -/
  | outOfFuel
deriving DecidableEq

/-- The first `for` loop of `negamax`: the columns of `columnOrder`, in order, that
    occur in `potential_cols` and have a landing bit are added to the sorter. -/
def fillSorter (P_current : Position) (potential_cols : List Int) :
    List Int → MoveSorter → MoveSorter
  | [], moves => moves
  | ordered_col :: order, moves =>
    let is_potential := potential_cols.any fun p_col => decide (p_col = ordered_col)
    if is_potential then
      let drop_bit_idx := P_current.getLowestAvailableBitIndex ordered_col
      if drop_bit_idx ≠ -1 then
        let move_landing_mask := shl64 1 drop_bit_idx.toNat
        let heuristic_score := P_current.moveScore move_landing_mask
        fillSorter P_current potential_cols order (moves.add move_landing_mask heuristic_score)
      else fillSorter P_current potential_cols order moves
    else fillSorter P_current potential_cols order moves

/-- The `while` loop of `negamax` together with the code after it.  `recurse` is the
    recursive call of `negamax`; the list is the sorter (its head is what `getNext`
    returns next); `alpha`, `best_value_found` and `found_moves_count` are the loop
    variables. -/
def expandMoves (recurse : Solver → Position → Int → Int → Except Abort (Int × Solver))
    (P_current : Position) (key : Nat) (beta : Int) (min_score_possible_at_depth : Int) :
    List (Nat × Int) → Solver → Int → Int → Int → Except Abort (Int × Solver)
  | [], S, _, best_value_found, found_moves_count =>
    if found_moves_count = 0 then Except.ok (min_score_possible_at_depth, S)
    else
      Except.ok (best_value_found,
        { S with transTable := S.transTable.put key (best_value_found - MIN_SCORE + 1) })
  | (next_move_landing_mask, _) :: rest, S, alpha, best_value_found, found_moves_count =>
    if next_move_landing_mask = 0 then
      if found_moves_count = 0 then Except.ok (min_score_possible_at_depth, S)
      else
        Except.ok (best_value_found,
          { S with transTable := S.transTable.put key (best_value_found - MIN_SCORE + 1) })
    else
      let P2_next_state := P_current.play next_move_landing_mask
      let evaluated : Except Abort (Int × Solver) :=
        if P2_next_state.canWinNext then
          Except.ok (-((7 * 6 - 2 + 1 - P2_next_state.nbMoves).tdiv 2), S)
        else
          match recurse S P2_next_state (-beta) (-alpha) with
          | Except.ok (v, S2) => Except.ok (-v, S2)
          | Except.error e => Except.error e
      match evaluated with
      | Except.error e => Except.error e
      | Except.ok (score_eval_for_move, S2) =>
        let best_value_found :=
          if best_value_found = INT_MIN ∨ score_eval_for_move > best_value_found then
            score_eval_for_move
          else best_value_found
        if score_eval_for_move ≥ beta then
          Except.ok (best_value_found,
            { S2 with transTable :=
                S2.transTable.put key (best_value_found + MAX_SCORE - 2 * MIN_SCORE + 2) })
        else
          let alpha := if score_eval_for_move > alpha then score_eval_for_move else alpha
          expandMoves recurse P_current key beta min_score_possible_at_depth
            rest S2 alpha best_value_found (found_moves_count + 1)

/-- The part of `negamax` from the table probe on, entered with the window left by the
    depth bounds. -/
def negamaxProbe (recurse : Solver → Position → Int → Int → Except Abort (Int × Solver))
    (S : Solver) (P_current : Position) (key : Nat) (min_score_possible_at_depth : Int)
    (alpha beta : Int) : Except Abort (Int × Solver) :=
  let search := fun (alpha beta : Int) =>
    let potential_cols := P_current.getNonLosingPlayableCols
    let moves := fillSorter P_current potential_cols S.columnOrder MoveSorter.empty
    expandMoves recurse P_current key beta min_score_possible_at_depth
      moves.entries S alpha INT_MIN 0
  let val : Int := (S.transTable.get key : Nat)
  if val ≠ 0 then
    if val > MAX_SCORE - MIN_SCORE + 1 then
      let tt_min_bound := val + 2 * MIN_SCORE - MAX_SCORE - 2
      if alpha < tt_min_bound then
        if tt_min_bound ≥ beta then Except.ok (tt_min_bound, S) else search tt_min_bound beta
      else search alpha beta
    else
      let tt_max_bound := val + MIN_SCORE - 1
      if beta > tt_max_bound then
        if alpha ≥ tt_max_bound then Except.ok (tt_max_bound, S) else search alpha tt_max_bound
      else search alpha beta
  else search alpha beta

/-- Method `Solver::negamax`, with a budget for the depth of the recursion. -/
def Solver.negamax : Nat → Solver → Position → Int → Int → Except Abort (Int × Solver)
  | 0, _, _, _, _ => Except.error Abort.outOfFuel
  | fuel + 1, S, P_current, alpha, beta =>
    if ¬ (alpha < beta) then Except.error Abort.assertion
    else if P_current.canWinNext then Except.error Abort.assertion
    else
      let S := { S with nodeCount := (S.nodeCount + 1) % 2 ^ 64 }
      let key := P_current.key
      if P_current.nbMoves ≥ 7 * 6 - 2 then Except.ok (0, S)
      else
        let min_score_possible_at_depth : Int := (-(7 * 6 - 2 - P_current.nbMoves)).tdiv 2
        let max_score_possible_at_depth : Int := (7 * 6 - 2 + 1 - P_current.nbMoves).tdiv 2
        let clampBeta := fun (alpha beta : Int) =>
          if beta > max_score_possible_at_depth then
            if alpha ≥ max_score_possible_at_depth then
              Except.ok (max_score_possible_at_depth, S)
            else
              negamaxProbe (Solver.negamax fuel) S P_current key min_score_possible_at_depth
                alpha max_score_possible_at_depth
          else
            negamaxProbe (Solver.negamax fuel) S P_current key min_score_possible_at_depth
              alpha beta
        if alpha < min_score_possible_at_depth then
          if min_score_possible_at_depth ≥ beta then
            Except.ok (min_score_possible_at_depth, S)
          else clampBeta min_score_possible_at_depth beta
        else clampBeta alpha beta

/-- Depth budget that `negamax` needs on `P`: one call per token still to be placed
    before `nbMoves` reaches 40, and the call that sees 40. -/
def negamaxFuel (P : Position) : Nat := (7 * 6 - 2 - P.nbMoves).toNat + 1

/-- The midpoint `med` that one iteration of the loop of `solve` probes. -/
def solveMed (current_alpha current_beta : Int) : Int :=
  let med := current_alpha + (current_beta - current_alpha).tdiv 2
  let med :=
    if med ≤ 0 then
      let med :=
        if med > current_alpha.tdiv 2 ∧ current_alpha ≠ 0 ∧ current_alpha ≠ -1 then
          current_alpha.tdiv 2
        else med
      if med = current_alpha then med + 1 else med
    else
      let med :=
        if med < current_beta.tdiv 2 ∧ current_beta ≠ 0 ∧ current_beta ≠ 1 then
          current_beta.tdiv 2
        else med
      if med = current_beta then med - 1 else med
  let med := if med ≤ current_alpha then current_alpha + 1 else med
  if med ≥ current_beta then current_beta - 1 else med

/-- The `while` loop of `solve`, with a budget of iterations. -/
def solveLoop (P : Position) : Nat → Solver → Int → Int → Except Abort (Int × Solver)
  | 0, S, current_alpha, current_beta =>
    if current_alpha < current_beta then Except.error Abort.outOfFuel
    else Except.ok (current_alpha, S)
  | fuel + 1, S, current_alpha, current_beta =>
    if current_alpha < current_beta then
      let med := solveMed current_alpha current_beta
      if current_alpha ≥ current_beta ∨ med ≥ current_beta then Except.ok (current_alpha, S)
      else
        match Solver.negamax (negamaxFuel P) S P med (med + 1) with
        | Except.error e => Except.error e
        | Except.ok (r, S2) =>
          if r ≤ med then solveLoop P fuel S2 current_alpha r
          else solveLoop P fuel S2 r current_beta
    else Except.ok (current_alpha, S)

/-- Method `Solver::solve`.  Every iteration of the loop narrows the window by at
    least one, which bounds the number of iterations by its initial width. -/
def Solver.solve (S : Solver) (P : Position) (weak : Bool) : Except Abort (Int × Solver) :=
  if P.canWinNext then Except.ok ((7 * 6 - 2 + 1 - P.nbMoves).tdiv 2, S)
  else
    let max_s : Int := if weak then 1 else (7 * 6 - 2 + 1 - P.nbMoves).tdiv 2
    let min_s : Int := if weak then -1 else (-(7 * 6 - 2 - P.nbMoves)).tdiv 2
    solveLoop P (max_s - min_s).toNat S min_s max_s

/-! ## Vocabulary of the statements -/

/-- A run of `playCol` calls, stopped by the first failed assertion. -/
def Position.playCols (P : Position) : List Int → Except Position Position
  | [] => Except.ok P
  | col :: cols =>
    match P.playCol col with
    | Except.ok Q => Q.playCols cols
    | Except.error S => Except.error S

/-- Bit index `i` is one of the 42 cells `c*7+r` with `c < 7` and `r < 6`. -/
def isCell (i : Nat) : Prop := ∃ c, c < 7 ∧ ∃ r, r < 6 ∧ i = c * 7 + r

instance isCell.decidable (i : Nat) : Decidable (isCell i) := by
  unfold isCell; infer_instance

/-- Every set bit of the bitboard `m` is one of the 42 cells. -/
def onBoard (m : Nat) : Prop := ∀ i, m.testBit i = true → isCell i

/-- The pairs among `(row1, col1)`, `(row2, col2)` that name a cell of the grid,
    as a set (identical pairs count once). -/
def validPairs (row1 col1 row2 col2 : Int) : Finset (Int × Int) :=
  ({(row1, col1), (row2, col2)} : Finset (Int × Int)).filter
    (fun p => 0 ≤ p.1 ∧ p.1 < 6 ∧ 0 ≤ p.2 ∧ p.2 < 7)

/-- Data-model invariants of a position: no blocked cell is occupied, the counter is the
    number of tokens, the mover's tokens are tokens, and the three bitboards only use the
    42 cells. -/
def Position.Inv (P : Position) : Prop :=
  P.mask &&& P.blocked_cells = 0 ∧ P.moves_ = popcount P.mask ∧
  P.current_position &&& P.mask = P.current_position ∧
  onBoard P.current_position ∧ onBoard P.mask ∧ onBoard P.blocked_cells

/-- The bitboard `B` holds four tokens on consecutive cells of one column, one row, or
    one of the two diagonals of the 7x6 grid; `(c, r)` is the cell of the line in the
    leftmost column (the lowest one for a column line). -/
def fourAligned (B : Nat) : Prop :=
  ∃ c, c < 7 ∧ ∃ r, r < 6 ∧
    ((r + 3 < 6 ∧ ∀ k, k < 4 → B.testBit (c * 7 + (r + k)) = true) ∨
     (c + 3 < 7 ∧ ∀ k, k < 4 → B.testBit ((c + k) * 7 + r) = true) ∨
     (c + 3 < 7 ∧ r + 3 < 6 ∧ ∀ k, k < 4 → B.testBit ((c + k) * 7 + (r + k)) = true) ∨
     (c + 3 < 7 ∧ 3 ≤ r ∧ ∀ k, k < 4 → B.testBit ((c + k) * 7 + (r - k)) = true))

instance fourAligned.decidable (B : Nat) : Decidable (fourAligned B) := by
  unfold fourAligned; infer_instance

/-- The side to move of `P` can complete four in a row with one token: some playable
    column leaves the mover's board `mask XOR current_position` with four aligned. -/
def Position.canCompleteFour (P : Position) : Bool :=
  (List.range 7).any fun c =>
    match P.playCol (c : Int) with
    | Except.ok Q => decide (fourAligned (Q.mask ^^^ Q.current_position))
    | Except.error _ => false

/-- The negamax value of a position in the words of the specification: a position
    whose side to move can complete four in a row with one token is worth
    `(41 - nbMoves)/2`; a position with 40 tokens and no such win is worth 0; any other
    position is worth the maximum over its legal columns of minus the value of the
    position after playing that column.  `none` when the budget runs out or a position
    that is neither won nor full has no legal column. -/
def gameValue : Nat → Position → Option Int
  | 0, _ => none
  | fuel + 1, P =>
    if P.canCompleteFour then some ((41 - P.nbMoves) / 2)
    else if P.nbMoves = 40 then some 0
    else
      let children : List (Option Int) :=
        (List.range 7).filterMap fun c =>
          match P.playCol (c : Int) with
          | Except.ok Q => some (gameValue fuel Q)
          | Except.error _ => none
      match children with
      | [] => none
      | first :: others =>
        others.foldl
          (fun best child =>
            match best, child with
            | some b, some v => some (max b (-v))
            | _, _ => none)
          (first.map fun v => -v)

/-- Four set bits of `B` spaced `s` apart, starting at bit `a`. -/
def lineAt (B a s : Nat) : Prop := ∀ k, k < 4 → B.testBit (a + k * s) = true

/-- Bit `b` and three set bits of `B` form a run of four bits spaced `s` apart in which
    `b` is the `k`-th one. -/
def completesLine (B b s : Nat) : Prop :=
  ∃ k, k < 4 ∧ k * s ≤ b ∧ ∀ j, j < 4 → j ≠ k → B.testBit (b - k * s + j * s) = true

/-! ## Reconstruction from a grid (Position.hpp, GamePlayer.cpp) and `analyze` -/

/-- The read `board_gui[r][c]` of a `std::vector<std::vector<int>>`.  The source reads
    rows `0..5` and columns `0..6` only, which a 6x7 grid has. -/
def gridCell (board_gui : List (List Int)) (r c : Nat) : Int :=
  (board_gui.getD r []).getD c 0

/-- A grid of `HEIGHT` rows of `WIDTH` entries. -/
def isGrid (board_gui : List (List Int)) : Prop :=
  board_gui.length = 6 ∧ ∀ row, row ∈ board_gui → row.length = 7

instance isGrid.decidable (board_gui : List (List Int)) : Decidable (isGrid board_gui) := by
  unfold isGrid; infer_instance

/-- Loop variables of `reconstructBoardState`. -/
structure ReconState where
  current_position : Nat
  mask : Nat
  piece_count : Int

/-- Body of the inner loop of `reconstructBoardState` for the cell `(r_gui, c_gui)`. -/
def reconstructCell (board_gui : List (List Int)) (player_id_whose_turn_it_is : Int)
    (r_gui c_gui : Nat) (st : ReconState) : ReconState :=
  let piece_in_cell := gridCell board_gui r_gui c_gui
  if piece_in_cell = 1 ∨ piece_in_cell = 2 then
    let bitboard_row : Int := (6 - 1) - (r_gui : Int)
    let stone_mask := shl64 1 ((c_gui : Int) * (6 + 1) + bitboard_row).toNat
    { piece_count := st.piece_count + 1
      mask := st.mask ||| stone_mask
      current_position :=
        if piece_in_cell = player_id_whose_turn_it_is then st.current_position ||| stone_mask
        else st.current_position }
  else st

/-- The inner `for` loop of `reconstructBoardState` (columns), entered at `c_gui` with
    `fuel = WIDTH - c_gui` iterations left. -/
def reconstructRow (board_gui : List (List Int)) (player_id_whose_turn_it_is : Int)
    (r_gui : Nat) : Nat → Nat → ReconState → ReconState
  | 0, _, st => st
  | fuel + 1, c_gui, st =>
    reconstructRow board_gui player_id_whose_turn_it_is r_gui fuel (c_gui + 1)
      (reconstructCell board_gui player_id_whose_turn_it_is r_gui c_gui st)

/-- The outer `for` loop of `reconstructBoardState` (rows), entered at `r_gui` with
    `fuel = HEIGHT - r_gui` iterations left. -/
def reconstructRows (board_gui : List (List Int)) (player_id_whose_turn_it_is : Int) :
    Nat → Nat → ReconState → ReconState
  | 0, _, st => st
  | fuel + 1, r_gui, st =>
    reconstructRows board_gui player_id_whose_turn_it_is fuel (r_gui + 1)
      (reconstructRow board_gui player_id_whose_turn_it_is r_gui WIDTH 0 st)

/-- Method `Position::reconstructBoardState`.  The parity check at its end only prints
    a warning. -/
def Position.reconstructBoardState (P : Position) (board_gui : List (List Int))
    (player_id_whose_turn_it_is : Int) : Position :=
  let st := reconstructRows board_gui player_id_whose_turn_it_is HEIGHT 0 ⟨0, 0, 0⟩
  { current_position := st.current_position
    mask := st.mask
    blocked_cells := P.blocked_cells
    moves_ := (st.piece_count % 2 ^ 32).toNat }

/-- Function `positionToVector` of `GamePlayer.cpp`. -/
def positionToVector (pos : Position) : List (List Int) :=
  let current_pos_board := pos.current_position
  let mask_board := pos.mask
  let blocked_board := pos.blocked_cells
  let p1_board := if pos.nbMoves.tmod 2 = 0 then current_pos_board
    else mask_board ^^^ current_pos_board
  let p2_board := if pos.nbMoves.tmod 2 = 0 then mask_board ^^^ current_pos_board
    else current_pos_board
  (List.range HEIGHT).map fun (r : Nat) =>
    (List.range WIDTH).map fun (c : Nat) =>
      let bitboard_row : Int := 6 - 1 - (r : Int)
      let bit_index : Int := (c : Int) * (6 + 1) + bitboard_row
      let cell_mask := shl64 1 bit_index.toNat
      if blocked_board &&& cell_mask ≠ 0 then (-1 : Int)
      else if p1_board &&& cell_mask ≠ 0 then 1
      else if p2_board &&& cell_mask ≠ 0 then 2
      else 0

/-- Constant `Solver::INVALID_MOVE`. -/
def INVALID_MOVE : Int := -1000

/-- The `for` loop of `Solver::analyze` over the columns of the list, threading the
    solver (table and node count) and the `scores` vector. -/
def analyzeCols (P : Position) (weak : Bool) :
    List Nat → Solver → List Int → Except Abort (List Int × Solver)
  | [], S, scores => Except.ok (scores, S)
  | col :: cols, S, scores =>
    if P.canPlay (col : Int) then
      if P.isWinningMove (col : Int) then
        analyzeCols P weak cols S (scores.set col ((7 * 6 - 2 + 1 - P.nbMoves).tdiv 2))
      else
        match P.playCol (col : Int) with
        | Except.error _ => Except.error Abort.assertion
        | Except.ok P2 =>
          match S.solve P2 weak with
          | Except.error e => Except.error e
          | Except.ok (v, S2) => analyzeCols P weak cols S2 (scores.set col (-v))
    else analyzeCols P weak cols S scores

/-- Method `Solver::analyze`. -/
def Solver.analyze (S : Solver) (P : Position) (weak : Bool) :
    Except Abort (List Int × Solver) :=
  analyzeCols P weak (List.range WIDTH) S (List.replicate WIDTH INVALID_MOVE)


/-- Cell number `j` of the row-by-row enumeration, `(j / 7, j % 7)`, holds a token. -/
def tokenAt (board_gui : List (List Int)) (j : Nat) : Prop :=
  gridCell board_gui (j / 7) (j % 7) = 1 ∨ gridCell board_gui (j / 7) (j % 7) = 2

instance tokenAt.decidable (board_gui : List (List Int)) (j : Nat) :
    Decidable (tokenAt board_gui j) := by
  unfold tokenAt; infer_instance

/-- The number of cells among the first `n` of the row-by-row enumeration that hold a
    token; `tokensBefore board_gui 42` counts the tokens of the grid. -/
def tokensBefore (board_gui : List (List Int)) (n : Nat) : Nat :=
  ((Finset.range n).filter fun k => tokenAt board_gui k).card

/-- What the loops of `reconstructBoardState` have built once the first `k` cells of the
    row-by-row enumeration are processed. -/
def ReconInv (board_gui : List (List Int)) (player : Int) (k : Nat) (st : ReconState) : Prop :=
  (∀ i, st.mask.testBit i = true ↔
    ∃ j, j < k ∧ i = (j % 7) * 7 + (5 - j / 7) ∧ tokenAt board_gui j) ∧
  (∀ i, st.current_position.testBit i = true ↔
    ∃ j, j < k ∧ i = (j % 7) * 7 + (5 - j / 7) ∧ tokenAt board_gui j ∧
      gridCell board_gui (j / 7) (j % 7) = player) ∧
  st.piece_count = (tokensBefore board_gui k : Int) ∧
  popcount st.mask = tokensBefore board_gui k

/-- Every entry of the value array is a byte, as its type `uint8_t` demands. -/
def TranspositionTable.bytes (T : TranspositionTable) : Prop := ∀ i, T.V i < 256

/-! ## Histories of the transposition table -/

/-- The table reached from `reset()` by a sequence of `put(key, value)` calls, listed
    most recent first. -/
def TranspositionTable.afterPuts : List (Nat × Int) → TranspositionTable
  | [] => TranspositionTable.reset
  | p :: older => (TranspositionTable.afterPuts older).put p.1 p.2

/-- The most recent call of the sequence (most recent first) whose key falls into slot
    `pos`. -/
def lastPutInto (pos : Nat) : List (Nat × Int) → Option (Nat × Int)
  | [] => none
  | p :: older => if TranspositionTable.index p.1 = pos then some p else lastPutInto pos older

/-! ## Sequences of calls on a MoveSorter -/

/-- Method `MoveSorter::reset`: `size = 0`, no entry is live. -/
def MoveSorter.reset (_M : MoveSorter) : MoveSorter := ⟨[]⟩

/-- The sorter after the calls `add(move, score)` of a list, made in order on a freshly
    constructed sorter. -/
def MoveSorter.addAll (adds : List (Nat × Int)) : MoveSorter :=
  adds.foldl (fun M a => M.add a.1 a.2) MoveSorter.empty

/-- The value returned by the last of `k + 1` consecutive `getNext` calls. -/
def MoveSorter.nthNext : Nat → MoveSorter → Nat
  | 0, M => M.getNext.1
  | k + 1, M => MoveSorter.nthNext k M.getNext.2

/-- The landing mask `position_t(1) << getLowestAvailableBitIndex(col)` that `playCol`
    and `negamax` build for a playable column. -/
def Position.landingMask (P : Position) (col : Int) : Nat :=
  shl64 1 (P.getLowestAvailableBitIndex col).toNat

/-! ## TranspositionTable.hpp: the size of the table -/

/-- Ways an evaluation of `has_factor` or `next_prime` can stop without a value: a
    division by zero in `n % min`, or the budget for the depth of recursion used up. -/
inductive Fault where
  | divisionByZero
  | outOfFuel
deriving DecidableEq

/-- Function `med`, on `uint64_t`: the sum wraps modulo `2^64`. -/
def med (min max : Nat) : Nat := ((min + max) % 2 ^ 64) / 2

/-- Function `has_factor`, on `uint64_t`, with a budget for the depth of the recursion.
    The right operand of `||` is evaluated only when the left one is false. -/
def has_factor : Nat → Nat → Nat → Nat → Except Fault Bool
  | 0, _, _, _ => Except.error Fault.outOfFuel
  | fuel + 1, n, min, max =>
    if (min * min) % 2 ^ 64 > n then Except.ok false
    else if (min + 1) % 2 ^ 64 ≥ max then
      if min = 0 then Except.error Fault.divisionByZero else Except.ok (decide (n % min = 0))
    else
      match has_factor fuel n min (med min max) with
      | Except.ok true => Except.ok true
      | Except.ok false => has_factor fuel n (med min max) max
      | Except.error e => Except.error e

/-- Function `next_prime`, on `uint64_t`, with a budget for the depth of the recursion
    (its own calls and the calls of `has_factor` below them). -/
def next_prime : Nat → Nat → Except Fault Nat
  | 0, _ => Except.error Fault.outOfFuel
  | fuel + 1, n =>
    match has_factor fuel n 2 n with
    | Except.ok true => next_prime fuel ((n + 1) % 2 ^ 64)
    | Except.ok false => Except.ok n
    | Except.error e => Except.error e

/-! ## The candidate moves of a node -/

/-- The calls `moves.add(move_landing_mask, heuristic_score)` that the first loop of
    `negamax` makes, in the order in which it makes them: one for each column of
    `columnOrder` that occurs in `potential_cols` and has a landing bit. -/
def candidateMoves (P_current : Position) (potential_cols : List Int) (order : List Int) :
    List (Nat × Int) :=
  order.filterMap fun ordered_col =>
    if (potential_cols.any fun p_col => decide (p_col = ordered_col)) = true ∧
        P_current.getLowestAvailableBitIndex ordered_col ≠ -1 then
      some (P_current.landingMask ordered_col,
        P_current.moveScore (P_current.landingMask ordered_col))
    else none

/-! ## Playable and safe columns -/

/-- The playable columns, in ascending order. -/
def Position.playableCols (P : Position) : List Int :=
  ((List.range 7).filter fun (c : Nat) => P.canPlay (c : Int)).map fun (c : Nat) => (c : Int)

/-- The position after `playCol(col)` has no immediate win for the side then to move. -/
def Position.safeAfter (P : Position) (col : Int) : Bool :=
  match P.playCol col with
  | Except.ok Q => !Q.canWinNext
  | Except.error _ => false

/-- The playable columns after which the opponent has no immediate win, in ascending
    order. -/
def Position.safeCols (P : Position) : List Int :=
  P.playableCols.filter fun c => P.safeAfter c

/-- The bitboard of the 42 cells `c*7+r` (`c < 7`, `r < 6`): `63 << 7c` summed over the
    columns. -/
def cellsMask : Nat := 279258638311359

/-- A position with one free cell: `Position(2, 1, 4, 2)` after 39 moves (columns
    2,1,3,5,0,0,6,4,0,2,4,0,4,1,0,0,4,4,1,2,1,5,4,1,2,3,2,6,6,5,3,6,3,3,5,5,3,5,6), no
    four aligned; only column 6 is playable. -/
def Position.oneCellLeft : Position := ⟨45874852073898, 138521149922239, 33792, 39⟩

/-- Solver states met while solving `Position.oneCellLeft`: the column order of the
    constructor, and for the key of the position either no table entry or the entry
    "upper bound 0". -/
def probeState (S : Solver) : Prop :=
  S.columnOrder = [3, 2, 4, 1, 5, 0, 6] ∧
  (S.transTable.get Position.oneCellLeft.key = 0 ∨
    S.transTable.get Position.oneCellLeft.key = 19)
/-! ## Bit-level lemmas -/

theorem shl64_one (k : Nat) (hk : k < 64) : shl64 1 k = 2 ^ k := by
  unfold shl64
  rw [Nat.one_shiftLeft]
  exact Nat.mod_eq_of_lt (Nat.pow_lt_pow_right (by norm_num) hk)

theorem testBit_shl64 (x k i : Nat) :
    (shl64 x k).testBit i = (decide (i < 64) && (decide (k ≤ i) && x.testBit (i - k))) := by
  unfold shl64
  rw [Nat.testBit_mod_two_pow, Nat.testBit_shiftLeft]

theorem and_two_pow_eq_zero_iff (m k : Nat) : m &&& 2 ^ k = 0 ↔ m.testBit k = false := by
  constructor
  · intro h
    have := congrArg (fun x => x.testBit k) h
    simpa [Nat.testBit_and, Nat.testBit_two_pow_self] using this
  · intro h
    apply Nat.eq_of_testBit_eq
    intro i
    rw [Nat.testBit_and, Nat.testBit_two_pow]
    by_cases hik : k = i
    · subst hik; simp [h]
    · simp [hik]

theorem and_shl64_one_eq_zero_iff (m k : Nat) (hk : k < 64) :
    m &&& shl64 1 k = 0 ↔ m.testBit k = false := by
  rw [shl64_one k hk]; exact and_two_pow_eq_zero_iff m k

theorem popcountBelow_or_two_pow (m b : Nat) (hb : m.testBit b = false) (n : Nat) :
    popcountBelow (m ||| 2 ^ b) n = popcountBelow m n + (if b < n then 1 else 0) := by
  induction n with
  | zero => simp [popcountBelow]
  | succ n ih =>
    simp only [popcountBelow, ih, Nat.testBit_or, Nat.testBit_two_pow]
    by_cases h1 : b = n
    · subst h1; simp [hb]
    · by_cases h2 : b < n
      · have : b < n + 1 := by omega
        simp [h1, h2, this]; omega
      · have : ¬ b < n + 1 := by omega
        simp [h1, h2, this]

theorem popcount_or_two_pow (m b : Nat) (hb : m.testBit b = false) (hb64 : b < 64) :
    popcount (m ||| 2 ^ b) = popcount m + 1 := by
  unfold popcount
  rw [popcountBelow_or_two_pow m b hb 64]; simp [hb64]


/-! ## Column scan -/

theorem scanColumn_spec (P : Position) (c : Nat) (hc : c < 7) :
    ∀ (fuel row : Nat), row + fuel = 6 →
      ((∀ r, row ≤ r → r < 6 →
          (P.mask.testBit (c * 7 + r) = true ∨ P.blocked_cells.testBit (c * 7 + r) = true)) ∧
        P.scanColumn (c : Int) fuel row = -1) ∨
      (∃ r, row ≤ r ∧ r < 6 ∧
        P.mask.testBit (c * 7 + r) = false ∧ P.blocked_cells.testBit (c * 7 + r) = false ∧
        (∀ q, row ≤ q → q < r →
          (P.mask.testBit (c * 7 + q) = true ∨ P.blocked_cells.testBit (c * 7 + q) = true)) ∧
        P.scanColumn (c : Int) fuel row = ((c * 7 + r : Nat) : Int)) := by
  intro fuel
  induction fuel with
  | zero =>
    intro row hrow
    left
    exact ⟨fun r h1 h2 => by omega, rfl⟩
  | succ fuel ih =>
    intro row hrow
    have hidx : ((c : Int) * (6 + 1) + (row : Int)).toNat = c * 7 + row := by omega
    have h64 : c * 7 + row < 64 := by omega
    have hrec := ih (row + 1) (by omega)
    simp only [Position.scanColumn, hidx, and_shl64_one_eq_zero_iff _ _ h64]
    by_cases hb : P.blocked_cells.testBit (c * 7 + row) = false
    · by_cases hm : P.mask.testBit (c * 7 + row) = false
      · right
        refine ⟨row, le_refl _, by omega, hm, hb, fun q h1 h2 => by omega, ?_⟩
        simp only [hb, hm, if_true]
        push_cast; ring
      · simp only [hb, hm, if_true, if_false]
        have hm1 : P.mask.testBit (c * 7 + row) = true := by simpa using hm
        rcases hrec with ⟨hall, hres⟩ | ⟨r, h1, h2, h3, h4, h5, h6⟩
        · left
          refine ⟨fun r h1 h2 => ?_, hres⟩
          rcases Nat.eq_or_lt_of_le h1 with h | h
          · subst h; exact Or.inl hm1
          · exact hall r h h2
        · right
          refine ⟨r, by omega, h2, h3, h4, fun q hq1 hq2 => ?_, h6⟩
          rcases Nat.eq_or_lt_of_le hq1 with h | h
          · subst h; exact Or.inl hm1
          · exact h5 q h hq2
    · simp only [hb, if_false]
      have hb1 : P.blocked_cells.testBit (c * 7 + row) = true := by simpa using hb
      rcases hrec with ⟨hall, hres⟩ | ⟨r, h1, h2, h3, h4, h5, h6⟩
      · left
        refine ⟨fun r h1 h2 => ?_, hres⟩
        rcases Nat.eq_or_lt_of_le h1 with h | h
        · subst h; exact Or.inr hb1
        · exact hall r h h2
      · right
        refine ⟨r, by omega, h2, h3, h4, fun q hq1 hq2 => ?_, h6⟩
        rcases Nat.eq_or_lt_of_le hq1 with h | h
        · subst h; exact Or.inr hb1
        · exact h5 q h hq2

/-- Outside the columns `0 .. 6` the scan is not entered. -/
theorem getLowest_out_of_range (P : Position) (col : Int) (h : col < 0 ∨ 7 ≤ col) :
    P.getLowestAvailableBitIndex col = -1 := by
  unfold Position.getLowestAvailableBitIndex
  rw [if_pos (by omega)]

/-- The two outcomes of `getLowestAvailableBitIndex` on a column `c < 7`. -/
theorem getLowest_cases (P : Position) (c : Nat) (hc : c < 7) :
    ((∀ r, r < 6 →
          (P.mask.testBit (c * 7 + r) = true ∨ P.blocked_cells.testBit (c * 7 + r) = true)) ∧
        P.getLowestAvailableBitIndex (c : Int) = -1) ∨
      (∃ r, r < 6 ∧
        P.mask.testBit (c * 7 + r) = false ∧ P.blocked_cells.testBit (c * 7 + r) = false ∧
        (∀ q, q < r →
          (P.mask.testBit (c * 7 + q) = true ∨ P.blocked_cells.testBit (c * 7 + q) = true)) ∧
        P.getLowestAvailableBitIndex (c : Int) = ((c * 7 + r : Nat) : Int)) := by
  have hif : ¬ ((c : Int) < 0 ∨ (c : Int) ≥ 7) := by omega
  unfold Position.getLowestAvailableBitIndex
  rw [if_neg hif]
  rcases scanColumn_spec P c hc HEIGHT 0 (by simp [HEIGHT]) with ⟨h1, h2⟩ | ⟨r, _, h2, h3, h4, h5, h6⟩
  · exact Or.inl ⟨fun r hr => h1 r (Nat.zero_le _) hr, h2⟩
  · exact Or.inr ⟨r, h2, h3, h4, fun q hq => h5 q (Nat.zero_le _) hq, h6⟩

/-- A playable column is one of `0 .. 6` and its landing bit is a free cell of it. -/
theorem canPlay_landing (P : Position) (col : Int) (h : P.canPlay col = true) :
    ∃ c r : Nat, c < 7 ∧ r < 6 ∧ col = (c : Int) ∧
      P.getLowestAvailableBitIndex col = ((c * 7 + r : Nat) : Int) ∧
      P.mask.testBit (c * 7 + r) = false ∧ P.blocked_cells.testBit (c * 7 + r) = false ∧
      (∀ q, q < r →
          (P.mask.testBit (c * 7 + q) = true ∨ P.blocked_cells.testBit (c * 7 + q) = true)) := by
  unfold Position.canPlay at h
  have hne : P.getLowestAvailableBitIndex col ≠ -1 := by simpa using h
  have hrange : ¬ (col < 0 ∨ 7 ≤ col) := fun hr => hne (getLowest_out_of_range P col hr)
  obtain ⟨c, hc⟩ : ∃ c : Nat, col = (c : Int) := ⟨col.toNat, by omega⟩
  subst hc
  have hc7 : c < 7 := by omega
  rcases getLowest_cases P c hc7 with ⟨_, h2⟩ | ⟨r, h2, h3, h4, h5, h6⟩
  · exact absurd h2 hne
  · exact ⟨c, r, hc7, h2, rfl, h6, h3, h4, h5⟩

/-- A column is unplayable exactly when it is out of range or has no free cell. -/
theorem canPlay_false_iff (P : Position) (col : Int) :
    P.canPlay col = false ↔
      (col < 0 ∨ 7 ≤ col ∨ ∀ r : Nat, r < 6 →
          (P.mask.testBit (col.toNat * 7 + r) = true ∨
            P.blocked_cells.testBit (col.toNat * 7 + r) = true)) := by
  unfold Position.canPlay
  simp only [ne_eq, decide_not, Bool.not_eq_false', decide_eq_true_eq]
  by_cases hr : col < 0 ∨ 7 ≤ col
  · constructor
    · intro _
      rcases hr with h | h
      · exact Or.inl h
      · exact Or.inr (Or.inl h)
    · intro _
      exact getLowest_out_of_range P col hr
  · obtain ⟨c, hc⟩ : ∃ c : Nat, col = (c : Int) := ⟨col.toNat, by omega⟩
    subst hc
    simp only [Int.toNat_ofNat]
    rcases getLowest_cases P c (by omega) with ⟨g1, g2⟩ | ⟨r, g2, g3, g4, _, g6⟩
    · exact ⟨fun _ => Or.inr (Or.inr g1), fun _ => g2⟩
    · constructor
      · intro h
        rw [g6] at h
        omega
      · rintro (h | h | h)
        · omega
        · omega
        · have := h r g2
          rw [g3, g4] at this
          simp at this

/-- The assertion of `playCol` fires exactly on unplayable columns. -/
theorem playCol_error_iff (P : Position) (col : Int) :
    (∃ S, P.playCol col = Except.error S) ↔ P.canPlay col = false := by
  unfold Position.playCol Position.canPlay
  by_cases h : P.getLowestAvailableBitIndex col = -1
  · simp [h]
  · simp [h]

/-- C7: `getLowestAvailableBitIndex(col)` is `-1` when `col` is outside `0..6` or every
    cell `col*7+r`, `r` in `0..5`, is in `mask` or `blocked_cells`; otherwise it is
    `col*7+r` for the smallest `r` in `0..5` whose bit is in neither (blocked cells are
    skipped); and `canPlay(col)` holds exactly when the result is not `-1`. -/
theorem getLowestAvailableBitIndex_spec (P : Position) (col : Int) :
    ((col < 0 ∨ 7 ≤ col ∨ ∀ r : Nat, r < 6 →
          (P.mask.testBit (col.toNat * 7 + r) = true ∨
            P.blocked_cells.testBit (col.toNat * 7 + r) = true)) →
        P.getLowestAvailableBitIndex col = -1) ∧
    (¬ (col < 0 ∨ 7 ≤ col ∨ ∀ r : Nat, r < 6 →
          (P.mask.testBit (col.toNat * 7 + r) = true ∨
            P.blocked_cells.testBit (col.toNat * 7 + r) = true)) →
        ∃ r : Nat, r < 6 ∧ P.getLowestAvailableBitIndex col = col * 7 + (r : Int) ∧
          P.mask.testBit (col.toNat * 7 + r) = false ∧
          P.blocked_cells.testBit (col.toNat * 7 + r) = false ∧
          ∀ q : Nat, q < r →
            (P.mask.testBit (col.toNat * 7 + q) = true ∨
              P.blocked_cells.testBit (col.toNat * 7 + q) = true)) ∧
    (P.canPlay col = true ↔ P.getLowestAvailableBitIndex col ≠ -1) := by
  refine ⟨?_, ?_, ?_⟩
  · rintro (h | h | h)
    · exact getLowest_out_of_range P col (Or.inl h)
    · exact getLowest_out_of_range P col (Or.inr h)
    · by_cases hr : col < 0 ∨ 7 ≤ col
      · exact getLowest_out_of_range P col hr
      · obtain ⟨c, hc⟩ : ∃ c : Nat, col = (c : Int) := ⟨col.toNat, by omega⟩
        subst hc
        rcases getLowest_cases P c (by omega) with ⟨_, h2⟩ | ⟨r, h2, h3, h4, _, _⟩
        · exact h2
        · have := h r h2
          simp only [Int.toNat_ofNat] at this
          rw [h3, h4] at this
          simp at this
  · intro hn
    have h1 : ¬ col < 0 := fun h => hn (Or.inl h)
    have h2 : ¬ 7 ≤ col := fun h => hn (Or.inr (Or.inl h))
    have h3 : ¬ ∀ r : Nat, r < 6 →
          (P.mask.testBit (col.toNat * 7 + r) = true ∨
            P.blocked_cells.testBit (col.toNat * 7 + r) = true) :=
      fun h => hn (Or.inr (Or.inr h))
    obtain ⟨c, hc⟩ : ∃ c : Nat, col = (c : Int) := ⟨col.toNat, by omega⟩
    subst hc
    simp only [Int.toNat_ofNat] at h3 ⊢
    rcases getLowest_cases P c (by omega) with ⟨g1, _⟩ | ⟨r, g2, g3, g4, g5, g6⟩
    · exact absurd g1 h3
    · refine ⟨r, g2, ?_, g3, g4, g5⟩
      rw [g6]; push_cast; ring
  · unfold Position.canPlay
    simp

theorem or_two_pow_eq_add (m b : Nat) (h : m.testBit b = false) : m ||| 2 ^ b = m + 2 ^ b := by
  have hbit : m / 2 ^ b % 2 = 0 := by
    rw [Nat.testBit_to_div_mod] at h
    have : ¬ m / 2 ^ b % 2 = 1 := by simpa using h
    omega
  have hr : m % 2 ^ (b + 1) = m % 2 ^ b := by
    rw [Nat.mod_pow_succ, hbit]; simp
  have hrlt : m % 2 ^ b < 2 ^ b := Nat.mod_lt _ (Nat.pos_pow_of_pos b (by norm_num))
  have hm : m = 2 ^ (b + 1) * (m / 2 ^ (b + 1)) + m % 2 ^ b := by
    rw [← hr]; exact (Nat.div_add_mod m (2 ^ (b + 1))).symm
  have h1 : 2 ^ b + m % 2 ^ b < 2 ^ (b + 1) := by rw [pow_succ]; omega
  have h2 : (m % 2 ^ b) ||| 2 ^ b = 2 ^ b + m % 2 ^ b := by
    have := Nat.mul_add_lt_is_or hrlt 1
    rw [Nat.mul_one] at this
    rw [this, Nat.or_comm]
  calc m ||| 2 ^ b
      = (2 ^ (b + 1) * (m / 2 ^ (b + 1)) + m % 2 ^ b) ||| 2 ^ b := by rw [← hm]
    _ = (2 ^ (b + 1) * (m / 2 ^ (b + 1)) ||| m % 2 ^ b) ||| 2 ^ b := by
        rw [Nat.mul_add_lt_is_or (by rw [pow_succ]; omega)]
    _ = 2 ^ (b + 1) * (m / 2 ^ (b + 1)) ||| (2 ^ b + m % 2 ^ b) := by
        rw [Nat.or_assoc, h2]
    _ = 2 ^ (b + 1) * (m / 2 ^ (b + 1)) + (2 ^ b + m % 2 ^ b) := by
        rw [Nat.mul_add_lt_is_or h1]
    _ = m + 2 ^ b := by omega

/-! ## Playing a column -/

/-- C8: `playCol(col)` trips its assertion exactly when `canPlay(col)` is false, that is
    when `col` is out of range or the column has no cell that is neither occupied nor
    blocked; the position it leaves behind is then the unmodified one. -/
theorem playCol_fails_iff (P : Position) (col : Int) :
    ((∃ S, P.playCol col = Except.error S) ↔ P.canPlay col = false) ∧
    (P.canPlay col = false ↔
      (col < 0 ∨ 7 ≤ col ∨ ∀ r : Nat, r < 6 →
          (P.mask.testBit (col.toNat * 7 + r) = true ∨
            P.blocked_cells.testBit (col.toNat * 7 + r) = true))) ∧
    (∀ S, P.playCol col = Except.error S → S = P) := by
  refine ⟨playCol_error_iff P col, canPlay_false_iff P col, ?_⟩
  intro S hS
  unfold Position.playCol at hS
  by_cases h : P.getLowestAvailableBitIndex col = -1
  · simp [h] at hS
    exact hS.symm
  · simp [h] at hS

/-- C6: on a playable column `playCol` adds one to `nbMoves`, adds to `mask` exactly the
    bit `getLowestAvailableBitIndex(c)` of the old position (not set before, in column
    `c`), replaces `current_position` by its XOR with the old `mask`, and leaves
    `blocked_cells` alone.  The counter is assumed not to sit at `INT_MAX`, where
    `nbMoves()` cannot grow. -/
theorem playCol_effect (P : Position) (c : Int) (hplay : P.canPlay c = true)
    (hcount : P.moves_ % 2 ^ 32 ≠ 2 ^ 31 - 1) :
    ∃ (Q : Position) (b : Nat),
      P.playCol c = Except.ok Q ∧
      P.getLowestAvailableBitIndex c = (b : Int) ∧
      Q.nbMoves = P.nbMoves + 1 ∧
      Q.mask = P.mask + 2 ^ b ∧
      (∀ i, Q.mask.testBit i = (P.mask.testBit i || decide (i = b))) ∧
      P.mask.testBit b = false ∧
      (∃ r : Nat, r < 6 ∧ (b : Int) = c * 7 + r) ∧ 0 ≤ c ∧ c < 7 ∧
      Q.current_position = P.current_position ^^^ P.mask ∧
      Q.blocked_cells = P.blocked_cells := by
  obtain ⟨cn, r, hc, hr, hcol, hidx, hm, _, _⟩ := canPlay_landing P c hplay
  have h64 : cn * 7 + r < 64 := by omega
  have hne : P.getLowestAvailableBitIndex c ≠ -1 := by rw [hidx]; omega
  refine ⟨P.play (2 ^ (cn * 7 + r)), cn * 7 + r, ?_, hidx, ?_, ?_, ?_, hm, ?_, ?_, ?_, rfl, rfl⟩
  · unfold Position.playCol
    simp only [ne_eq, hidx, Int.toNat_ofNat, shl64_one _ h64]
    rw [if_pos (by omega)]
  · simp only [Position.nbMoves, Position.play, toInt32]
    have h1 : P.moves_ % 2 ^ 32 < 2 ^ 32 := Nat.mod_lt _ (by norm_num)
    by_cases h2 : P.moves_ % 2 ^ 32 = 2 ^ 32 - 1
    · have h3 : (P.moves_ + 1) % 2 ^ 32 % 2 ^ 32 = 0 := by omega
      rw [h3, h2]; norm_num
    · have h3 : (P.moves_ + 1) % 2 ^ 32 % 2 ^ 32 = P.moves_ % 2 ^ 32 + 1 := by omega
      rw [h3]
      by_cases h4 : P.moves_ % 2 ^ 32 < 2 ^ 31
      · have h5 : P.moves_ % 2 ^ 32 + 1 < 2 ^ 31 := by omega
        rw [if_pos h4, if_pos h5]; push_cast; ring
      · have h5 : ¬ P.moves_ % 2 ^ 32 + 1 < 2 ^ 31 := by omega
        rw [if_neg h4, if_neg h5]; push_cast; ring
  · simp only [Position.play]
    exact or_two_pow_eq_add _ _ hm
  · intro i
    simp only [Position.play, Nat.testBit_or, Nat.testBit_two_pow]
    by_cases hi : i = cn * 7 + r
    · simp [hi]
    · have : ¬ cn * 7 + r = i := fun h => hi h.symm
      simp [hi, this]
  · exact ⟨r, hr, by rw [hcol]; push_cast; ring⟩
  · omega
  · omega

/-- Witness for `playCol_effect`: column 3 of the empty board without blocked cells. -/
theorem playCol_effect_witness :
    ∃ (Q : Position) (b : Nat),
      Position.new0.playCol 3 = Except.ok Q ∧
      Position.new0.getLowestAvailableBitIndex 3 = (b : Int) ∧
      Q.nbMoves = Position.new0.nbMoves + 1 ∧
      Q.mask = Position.new0.mask + 2 ^ b ∧
      (∀ i, Q.mask.testBit i = (Position.new0.mask.testBit i || decide (i = b))) ∧
      Position.new0.mask.testBit b = false ∧
      (∃ r : Nat, r < 6 ∧ (b : Int) = 3 * 7 + r) ∧ (0 : Int) ≤ 3 ∧ (3 : Int) < 7 ∧
      Q.current_position = Position.new0.current_position ^^^ Position.new0.mask ∧
      Q.blocked_cells = Position.new0.blocked_cells :=
  playCol_effect Position.new0 3 (by decide) (by decide)

/-! ## Bitboards as sets of cells -/

theorem isCell_iff (i : Nat) : isCell i ↔ i < 49 ∧ i % 7 < 6 := by
  unfold isCell
  constructor
  · rintro ⟨c, hc, r, hr, rfl⟩
    omega
  · rintro ⟨h1, h2⟩
    exact ⟨i / 7, by omega, i % 7, h2, by omega⟩

theorem isCell_lt_64 {i : Nat} (h : isCell i) : i < 64 := by
  have := (isCell_iff i).1 h; omega

theorem and_eq_zero_iff_testBit (a b : Nat) :
    a &&& b = 0 ↔ ∀ i, ¬ (a.testBit i = true ∧ b.testBit i = true) := by
  constructor
  · intro h i
    have := congrArg (fun x => x.testBit i) h
    simpa [Nat.testBit_and] using this
  · intro h
    apply Nat.eq_of_testBit_eq
    intro i
    have := h i
    rw [Nat.testBit_and, Nat.zero_testBit]
    cases h1 : a.testBit i <;> cases h2 : b.testBit i <;> simp_all

theorem and_eq_left_iff_testBit (a b : Nat) :
    a &&& b = a ↔ ∀ i, a.testBit i = true → b.testBit i = true := by
  constructor
  · intro h i hi
    have := congrArg (fun x => x.testBit i) h
    simp only [Nat.testBit_and, hi, Bool.true_and] at this
    exact this
  · intro h
    apply Nat.eq_of_testBit_eq
    intro i
    rw [Nat.testBit_and]
    cases h1 : a.testBit i
    · simp
    · simp [h i h1]

theorem onBoard_zero : onBoard 0 := by
  intro i hi
  simp at hi

theorem onBoard_two_pow {b : Nat} (hb : isCell b) : onBoard (2 ^ b) := by
  intro i hi
  rw [Nat.testBit_two_pow] at hi
  have : b = i := by simpa using hi
  exact this ▸ hb

theorem onBoard_or {a b : Nat} (ha : onBoard a) (hb : onBoard b) : onBoard (a ||| b) := by
  intro i hi
  rw [Nat.testBit_or] at hi
  rcases Bool.or_eq_true _ _ ▸ hi with h | h
  · exact ha i h
  · exact hb i h

theorem onBoard_of_subset {a b : Nat} (hb : onBoard b)
    (h : ∀ i, a.testBit i = true → b.testBit i = true) : onBoard a :=
  fun i hi => hb i (h i hi)

theorem popcountBelow_le (m n : Nat) : popcountBelow m n ≤ n := by
  induction n with
  | zero => simp [popcountBelow]
  | succ n ih =>
    simp only [popcountBelow]
    split <;> omega

theorem popcount_zero : popcount 0 = 0 := by decide

/-! ## The four-argument constructor -/

theorem cellInRange_iff (row col : Int) :
    cellInRange row col = true ↔ 0 ≤ row ∧ row < 6 ∧ 0 ≤ col ∧ col < 7 := by
  simp only [cellInRange, Bool.and_eq_true, decide_eq_true_eq, ge_iff_le]
  constructor
  · rintro ⟨⟨⟨a, b⟩, c⟩, d⟩; exact ⟨c, d, a, b⟩
  · rintro ⟨c, d, a, b⟩; exact ⟨⟨⟨a, b⟩, c⟩, d⟩

/-- Closed form of the `blocked_cells` word the constructor builds. -/
theorem new4_blocked (row1 col1 row2 col2 : Int) :
    (Position.new4 row1 col1 row2 col2).blocked_cells =
      (if cellInRange row1 col1 = true then 2 ^ (col1 * 7 + (5 - row1)).toNat else 0) |||
      (if cellInRange row2 col2 = true then 2 ^ (col2 * 7 + (5 - row2)).toNat else 0) := by
  have e1 : col1 * (6 + 1) + (6 - 1 - row1) = col1 * 7 + (5 - row1) := by ring
  have e2 : col2 * (6 + 1) + (6 - 1 - row2) = col2 * 7 + (5 - row2) := by ring
  simp only [Position.new4, e1, e2]
  by_cases h1 : cellInRange row1 col1 = true
  · have r1 := (cellInRange_iff _ _).1 h1
    have k1 : (col1 * 7 + (5 - row1)).toNat < 64 := by omega
    by_cases h2 : cellInRange row2 col2 = true
    · have r2 := (cellInRange_iff _ _).1 h2
      have k2 : (col2 * 7 + (5 - row2)).toNat < 64 := by omega
      by_cases heq : row1 = row2 ∧ col1 = col2
      · obtain ⟨ha, hb⟩ := heq
        subst ha; subst hb
        simp [h1, shl64_one _ k1]
      · have : (decide (row1 = row2) && decide (col1 = col2)) = false := by
          simp only [Bool.and_eq_false_imp, decide_eq_true_eq, decide_eq_false_iff_not]
          intro h; exact fun h' => heq ⟨h, h'⟩
        simp [h1, h2, this, shl64_one _ k1, shl64_one _ k2]
    · simp [h1, h2, shl64_one _ k1]
  · by_cases h2 : cellInRange row2 col2 = true
    · have r2 := (cellInRange_iff _ _).1 h2
      have k2 : (col2 * 7 + (5 - row2)).toNat < 64 := by omega
      simp [h1, h2, shl64_one _ k2]
    · simp [h1, h2]

theorem new4_blocked_testBit (row1 col1 row2 col2 : Int) (i : Nat) :
    (Position.new4 row1 col1 row2 col2).blocked_cells.testBit i = true ↔
      ((0 ≤ row1 ∧ row1 < 6 ∧ 0 ≤ col1 ∧ col1 < 7 ∧ (i : Int) = col1 * 7 + (5 - row1)) ∨
       (0 ≤ row2 ∧ row2 < 6 ∧ 0 ≤ col2 ∧ col2 < 7 ∧ (i : Int) = col2 * 7 + (5 - row2))) := by
  rw [new4_blocked, Nat.testBit_or, Bool.or_eq_true]
  have key : ∀ row col : Int,
      ((if cellInRange row col = true then 2 ^ (col * 7 + (5 - row)).toNat else 0).testBit i = true ↔
        (0 ≤ row ∧ row < 6 ∧ 0 ≤ col ∧ col < 7 ∧ (i : Int) = col * 7 + (5 - row))) := by
    intro row col
    by_cases h : cellInRange row col = true
    · have r := (cellInRange_iff _ _).1 h
      rw [if_pos h, Nat.testBit_two_pow, decide_eq_true_eq]
      constructor
      · intro hi; exact ⟨r.1, r.2.1, r.2.2.1, r.2.2.2, by omega⟩
      · rintro ⟨_, _, _, _, hi⟩; omega
    · rw [if_neg h]
      simp only [Nat.zero_testBit, Bool.false_eq_true, false_iff]
      rintro ⟨a, b, c, d, _⟩
      exact h ((cellInRange_iff _ _).2 ⟨a, b, c, d⟩)
  rw [key, key]

theorem popcount_two_pow (b : Nat) (hb : b < 64) : popcount (2 ^ b) = 1 := by
  have := popcount_or_two_pow 0 b (by simp) hb
  rw [Nat.zero_or, popcount_zero] at this
  exact this

theorem new4_popcount (row1 col1 row2 col2 : Int) :
    popcount (Position.new4 row1 col1 row2 col2).blocked_cells =
      (validPairs row1 col1 row2 col2).card := by
  rw [new4_blocked]
  unfold validPairs
  by_cases h1 : cellInRange row1 col1 = true
  · have r1 := (cellInRange_iff _ _).1 h1
    have k1 : (col1 * 7 + (5 - row1)).toNat < 64 := by omega
    by_cases h2 : cellInRange row2 col2 = true
    · have r2 := (cellInRange_iff _ _).1 h2
      have k2 : (col2 * 7 + (5 - row2)).toNat < 64 := by omega
      rw [if_pos h1, if_pos h2]
      by_cases heq : (row1, col1) = (row2, col2)
      · have ha : row1 = row2 := congrArg Prod.fst heq
        have hb : col1 = col2 := congrArg Prod.snd heq
        subst ha; subst hb
        rw [Nat.or_self, popcount_two_pow _ k1]
        simp [Finset.filter_singleton, r1]
      · have hne : (col1 * 7 + (5 - row1)).toNat ≠ (col2 * 7 + (5 - row2)).toNat := by
          intro h
          apply heq
          have : row1 = row2 ∧ col1 = col2 := by omega
          rw [this.1, this.2]
        rw [popcount_or_two_pow _ _ (by rw [Nat.testBit_two_pow]; simpa using hne) k2,
          popcount_two_pow _ k1]
        rw [Finset.filter_true_of_mem, Finset.card_pair heq]
        intro p hp
        simp only [Finset.mem_insert, Finset.mem_singleton] at hp
        rcases hp with rfl | rfl
        · exact r1
        · exact r2
    · have n2 : ¬ (0 ≤ row2 ∧ row2 < 6 ∧ 0 ≤ col2 ∧ col2 < 7) :=
        fun h => h2 ((cellInRange_iff _ _).2 h)
      rw [if_pos h1, if_neg h2, Nat.or_zero, popcount_two_pow _ k1]
      rw [Finset.filter_insert, if_pos r1, Finset.filter_singleton, if_neg n2]
      simp
  · have n1 : ¬ (0 ≤ row1 ∧ row1 < 6 ∧ 0 ≤ col1 ∧ col1 < 7) :=
      fun h => h1 ((cellInRange_iff _ _).2 h)
    by_cases h2 : cellInRange row2 col2 = true
    · have r2 := (cellInRange_iff _ _).1 h2
      have k2 : (col2 * 7 + (5 - row2)).toNat < 64 := by omega
      rw [if_neg h1, if_pos h2, Nat.zero_or, popcount_two_pow _ k2]
      rw [Finset.filter_insert, if_neg n1, Finset.filter_singleton, if_pos r2]
      simp
    · have n2 : ¬ (0 ≤ row2 ∧ row2 < 6 ∧ 0 ≤ col2 ∧ col2 < 7) :=
        fun h => h2 ((cellInRange_iff _ _).2 h)
      rw [if_neg h1, if_neg h2, Nat.zero_or, popcount_zero]
      rw [Finset.filter_insert, if_neg n1, Finset.filter_singleton, if_neg n2]
      simp

/-- C9: `Position(row1, col1, row2, col2)` has `current_position == 0`, `mask == 0`,
    `nbMoves() == 0`, and `blocked_cells` is exactly the set of bits `col*7 + (5 - row)`
    of those of the two pairs that lie in the grid; an out-of-range pair contributes
    nothing, identical valid pairs a single bit, so `popcount(blocked_cells)` is the
    number of distinct valid pairs, at most 2. -/
theorem new4_spec (row1 col1 row2 col2 : Int) :
    (Position.new4 row1 col1 row2 col2).current_position = 0 ∧
    (Position.new4 row1 col1 row2 col2).mask = 0 ∧
    (Position.new4 row1 col1 row2 col2).nbMoves = 0 ∧
    (∀ i : Nat, (Position.new4 row1 col1 row2 col2).blocked_cells.testBit i = true ↔
      ((0 ≤ row1 ∧ row1 < 6 ∧ 0 ≤ col1 ∧ col1 < 7 ∧ (i : Int) = col1 * 7 + (5 - row1)) ∨
       (0 ≤ row2 ∧ row2 < 6 ∧ 0 ≤ col2 ∧ col2 < 7 ∧ (i : Int) = col2 * 7 + (5 - row2)))) ∧
    popcount (Position.new4 row1 col1 row2 col2).blocked_cells =
      (validPairs row1 col1 row2 col2).card ∧
    (validPairs row1 col1 row2 col2).card ≤ 2 := by
  refine ⟨rfl, rfl, rfl, new4_blocked_testBit row1 col1 row2 col2, new4_popcount _ _ _ _, ?_⟩
  unfold validPairs
  exact le_trans (Finset.card_filter_le _ _) Finset.card_le_two

/-! ## Invariants along a game -/

/-- What a successful `playCol` did. -/
theorem playCol_ok {P Q : Position} {col : Int} (h : P.playCol col = Except.ok Q) :
    ∃ c r : Nat, c < 7 ∧ r < 6 ∧ col = (c : Int) ∧
      P.getLowestAvailableBitIndex col = ((c * 7 + r : Nat) : Int) ∧
      Q = P.play (2 ^ (c * 7 + r)) ∧
      P.mask.testBit (c * 7 + r) = false ∧ P.blocked_cells.testBit (c * 7 + r) = false ∧
      (∀ q, q < r →
          (P.mask.testBit (c * 7 + q) = true ∨ P.blocked_cells.testBit (c * 7 + q) = true)) := by
  have hcan : P.canPlay col = true := by
    by_contra hn
    have hf : P.canPlay col = false := by simpa using hn
    obtain ⟨S, hS⟩ := (playCol_error_iff P col).2 hf
    rw [hS] at h
    exact Except.noConfusion h
  obtain ⟨c, r, hc, hr, hcol, hidx, hm, hb, hlow⟩ := canPlay_landing P col hcan
  refine ⟨c, r, hc, hr, hcol, hidx, ?_, hm, hb, hlow⟩
  have h64 : c * 7 + r < 64 := by omega
  unfold Position.playCol at h
  simp only [ne_eq, hidx, Int.toNat_ofNat, shl64_one _ h64] at h
  rw [if_pos (by omega)] at h
  exact (Except.ok.inj h).symm

theorem inv_new4 (row1 col1 row2 col2 : Int) : (Position.new4 row1 col1 row2 col2).Inv := by
  refine ⟨?_, ?_, ?_, onBoard_zero, onBoard_zero, ?_⟩
  · show (0 : Nat) &&& _ = 0
    exact Nat.zero_and _
  · show (0 : Nat) = popcount 0
    exact popcount_zero.symm
  · show (0 : Nat) &&& 0 = 0
    rfl
  · intro i hi
    rw [new4_blocked_testBit] at hi
    rcases hi with ⟨a, b, c, d, e⟩ | ⟨a, b, c, d, e⟩
    · exact ⟨col1.toNat, by omega, (5 - row1).toNat, by omega, by omega⟩
    · exact ⟨col2.toNat, by omega, (5 - row2).toNat, by omega, by omega⟩

theorem inv_play {P : Position} (hP : P.Inv) {b : Nat} (hcell : isCell b)
    (hm : P.mask.testBit b = false) (hb : P.blocked_cells.testBit b = false) :
    (P.play (2 ^ b)).Inv := by
  obtain ⟨h1, h2, h3, h4, h5, h6⟩ := hP
  have hsub := (and_eq_left_iff_testBit _ _).1 h3
  have hdis := (and_eq_zero_iff_testBit _ _).1 h1
  refine ⟨?_, ?_, ?_, ?_, ?_, h6⟩
  · rw [and_eq_zero_iff_testBit]
    rintro i ⟨hi1, hi2⟩
    simp only [Position.play, Nat.testBit_or, Nat.testBit_two_pow, Bool.or_eq_true,
      decide_eq_true_eq] at hi1 hi2
    rcases hi1 with hi1 | hi1
    · exact hdis i ⟨hi1, hi2⟩
    · subst hi1; rw [hb] at hi2; exact Bool.noConfusion hi2
  · simp only [Position.play]
    rw [popcount_or_two_pow _ _ hm (isCell_lt_64 hcell), h2]
    have : popcount P.mask ≤ 64 := popcountBelow_le _ _
    omega
  · rw [and_eq_left_iff_testBit]
    intro i hi
    simp only [Position.play, Nat.testBit_xor, Nat.testBit_or] at hi ⊢
    cases hM : P.mask.testBit i
    · cases hC : P.current_position.testBit i
      · rw [hM, hC] at hi; simp at hi
      · have := hsub i hC; rw [hM] at this; exact Bool.noConfusion this
    · simp
  · apply onBoard_of_subset h5
    intro i hi
    simp only [Position.play, Nat.testBit_xor] at hi
    cases hM : P.mask.testBit i
    · cases hC : P.current_position.testBit i
      · rw [hM, hC] at hi; simp at hi
      · have := hsub i hC; rw [hM] at this; exact Bool.noConfusion this
    · rfl
  · exact onBoard_or h5 (onBoard_two_pow hcell)

theorem inv_playCol {P Q : Position} {col : Int} (hP : P.Inv)
    (h : P.playCol col = Except.ok Q) : Q.Inv := by
  obtain ⟨c, r, hc, hr, _, _, hQ, hm, hb, _⟩ := playCol_ok h
  rw [hQ]
  exact inv_play hP ⟨c, hc, r, hr, rfl⟩ hm hb

theorem inv_playCols (cols : List Int) :
    ∀ {P Q : Position}, P.Inv → P.playCols cols = Except.ok Q → Q.Inv := by
  induction cols with
  | nil =>
    intro P Q hP h
    simp only [Position.playCols] at h
    exact (Except.ok.inj h) ▸ hP
  | cons col cols ih =>
    intro P Q hP h
    simp only [Position.playCols] at h
    cases hstep : P.playCol col with
    | error S => rw [hstep] at h; exact Except.noConfusion h
    | ok R =>
      rw [hstep] at h
      exact ih (inv_playCol hP hstep) h

theorem onBoard_sentinel {m : Nat} (h : onBoard m) (c : Nat) : m.testBit (c * 7 + 6) = false := by
  by_contra hn
  have ht : m.testBit (c * 7 + 6) = true := by simpa using hn
  have := (isCell_iff _).1 (h _ ht)
  omega

theorem onBoard_high {m : Nat} (h : onBoard m) (i : Nat) (hi : 49 ≤ i) : m.testBit i = false := by
  by_contra hn
  have ht : m.testBit i = true := by simpa using hn
  have := (isCell_iff _).1 (h _ ht)
  omega

theorem nbMoves_of_small {P : Position} (h : P.moves_ < 2 ^ 31) : P.nbMoves = (P.moves_ : Int) := by
  unfold Position.nbMoves toInt32
  have : P.moves_ % 2 ^ 32 = P.moves_ := Nat.mod_eq_of_lt (by omega)
  rw [this, if_pos h]

/-- C5: every position reached from `Position(row1, col1, row2, col2)` by successful
    `playCol` calls has `mask & blocked_cells == 0`, `popcount(mask) == nbMoves()`,
    `current_position` a subset of `mask`, and no bit of the three bitboards outside the
    42 cells: every sentinel bit `c*7+6` and every bit `>= 49` is zero. -/
theorem reachable_invariants (row1 col1 row2 col2 : Int) (cols : List Int) (P : Position)
    (h : (Position.new4 row1 col1 row2 col2).playCols cols = Except.ok P) :
    P.mask &&& P.blocked_cells = 0 ∧
    (popcount P.mask : Int) = P.nbMoves ∧
    P.current_position &&& P.mask = P.current_position ∧
    (onBoard P.current_position ∧ onBoard P.mask ∧ onBoard P.blocked_cells) ∧
    (∀ c : Nat, P.current_position.testBit (c * 7 + 6) = false ∧
      P.mask.testBit (c * 7 + 6) = false ∧ P.blocked_cells.testBit (c * 7 + 6) = false) ∧
    (∀ i : Nat, 49 ≤ i → P.current_position.testBit i = false ∧
      P.mask.testBit i = false ∧ P.blocked_cells.testBit i = false) := by
  obtain ⟨h1, h2, h3, h4, h5, h6⟩ := inv_playCols cols (inv_new4 row1 col1 row2 col2) h
  refine ⟨h1, ?_, h3, ⟨h4, h5, h6⟩, ?_, ?_⟩
  · have hle : popcount P.mask ≤ 64 := popcountBelow_le _ _
    rw [nbMoves_of_small (by omega), h2]
  · exact fun c => ⟨onBoard_sentinel h4 c, onBoard_sentinel h5 c, onBoard_sentinel h6 c⟩
  · exact fun i hi => ⟨onBoard_high h4 i hi, onBoard_high h5 i hi, onBoard_high h6 i hi⟩

/-- Witness for `reachable_invariants`: three moves on the board with holes at
    (row 2, col 2) and (row 3, col 4). -/
theorem reachable_invariants_witness :
    (Position.new4 2 2 3 4).playCols [3, 2, 3] = Except.ok ⟨16384, 6307840, 1073872896, 3⟩ ∧
    (6307840 &&& 1073872896 = 0 ∧ (popcount 6307840 : Int) = (3 : Int) ∧
      16384 &&& 6307840 = 16384) :=
  ⟨rfl,
    have h := reachable_invariants 2 2 3 4 [3, 2, 3] ⟨16384, 6307840, 1073872896, 3⟩ rfl
    ⟨h.1, h.2.1, h.2.2.1⟩⟩

/-! ## The hole of column 2 -/

/-- C10, as stated, fails: on `Position(2, 2, 3, 4)` it is not the case that `canPlay(2)`
    holds before each of six consecutive `playCol(2)` calls. -/
theorem six_plays_in_column2_fail :
    ¬ (∀ k, k < 6 → ∃ Q, (Position.new4 2 2 3 4).playCols (List.replicate k 2) = Except.ok Q ∧
        Q.canPlay 2 = true) := by
  intro h
  obtain ⟨Q, hQ, hcan⟩ := h 5 (by norm_num)
  have hrun : (Position.new4 2 2 3 4).playCols (List.replicate 5 2) =
      Except.ok ⟨294912, 901120, 1073872896, 5⟩ := rfl
  rw [hrun] at hQ
  have hQ2 := Except.ok.inj hQ
  subst hQ2
  revert hcan
  decide

/-- C10, amended: on `Position(2, 2, 3, 4)` the blocked word has two bits, one of them
    bit 17 of column 2; `playCol(2)` succeeds five times in a row (`canPlay(2)` holds
    before each of them), after which column 2 is not playable and a further `playCol(2)`
    trips the assertion; bit 17 is never set in `mask`. -/
theorem column2_fills_around_hole :
    popcount (Position.new4 2 2 3 4).blocked_cells = 2 ∧
    (Position.new4 2 2 3 4).blocked_cells.testBit 17 = true ∧
    (∀ k, k < 5 → ∃ Q, (Position.new4 2 2 3 4).playCols (List.replicate k 2) = Except.ok Q ∧
        Q.canPlay 2 = true ∧ Q.mask.testBit 17 = false) ∧
    (∃ Q, (Position.new4 2 2 3 4).playCols (List.replicate 5 2) = Except.ok Q ∧
        Q.canPlay 2 = false ∧ Q.mask.testBit 17 = false ∧ Q.playCol 2 = Except.error Q ∧
        (Position.new4 2 2 3 4).playCols (List.replicate 6 2) = Except.error Q) := by
  refine ⟨by decide, by decide, ?_, ?_⟩
  · intro k hk
    interval_cases k
    · exact ⟨_, rfl, by decide, by decide⟩
    · exact ⟨_, rfl, by decide, by decide⟩
    · exact ⟨_, rfl, by decide, by decide⟩
    · exact ⟨_, rfl, by decide, by decide⟩
    · exact ⟨_, rfl, by decide, by decide⟩
  · exact ⟨⟨294912, 901120, 1073872896, 5⟩, rfl, by decide, by decide, rfl, rfl⟩

/-! ## Immediate wins -/

theorem and_or_ne_zero (w a b : Nat) : w &&& (a ||| b) ≠ 0 ↔ (w &&& a ≠ 0 ∨ w &&& b ≠ 0) := by
  rw [Nat.and_or_distrib_left]
  constructor
  · intro h
    by_contra hn
    push_neg at hn
    apply h
    rw [hn.1, hn.2]; rfl
  · intro h hz
    have h1 : w &&& a = 0 := by
      apply Nat.eq_of_testBit_eq; intro i
      have := congrArg (fun x => x.testBit i) hz
      simp only [Nat.testBit_or, Nat.zero_testBit, Bool.or_eq_false_iff] at this
      rw [this.1, Nat.zero_testBit]
    have h2 : w &&& b = 0 := by
      apply Nat.eq_of_testBit_eq; intro i
      have := congrArg (fun x => x.testBit i) hz
      simp only [Nat.testBit_or, Nat.zero_testBit, Bool.or_eq_false_iff] at this
      rw [this.2, Nat.zero_testBit]
    rcases h with h | h
    · exact h h1
    · exact h h2

theorem possibleMovesLoop_spec (P : Position) (w : Nat) :
    ∀ (fuel col acc : Nat),
      (w &&& P.possibleMovesLoop fuel col acc ≠ 0 ↔
        (w &&& acc ≠ 0 ∨ ∃ c : Nat, col ≤ c ∧ c < col + fuel ∧
          P.getLowestAvailableBitIndex (c : Int) ≠ -1 ∧
          w &&& shl64 1 (P.getLowestAvailableBitIndex (c : Int)).toNat ≠ 0)) := by
  intro fuel
  induction fuel with
  | zero =>
    intro col acc
    simp only [Position.possibleMovesLoop]
    constructor
    · exact fun h => Or.inl h
    · rintro (h | ⟨c, h1, h2, _⟩)
      · exact h
      · omega
  | succ fuel ih =>
    intro col acc
    simp only [Position.possibleMovesLoop]
    by_cases hidx : P.getLowestAvailableBitIndex (col : Int) = -1
    · rw [if_neg (by simpa using hidx)]
      have hcast : ((col + 1 : Nat) : Int) = (col : Int) + 1 := by push_cast; rfl
      rw [ih (col + 1) acc]
      constructor
      · rintro (h | ⟨c, h1, h2, h3, h4⟩)
        · exact Or.inl h
        · exact Or.inr ⟨c, by omega, by omega, h3, h4⟩
      · rintro (h | ⟨c, h1, h2, h3, h4⟩)
        · exact Or.inl h
        · rcases Nat.eq_or_lt_of_le h1 with he | hl
          · subst he; exact absurd hidx h3
          · exact Or.inr ⟨c, hl, by omega, h3, h4⟩
    · rw [if_pos hidx, ih (col + 1), and_or_ne_zero]
      constructor
      · rintro ((h | h) | ⟨c, h1, h2, h3, h4⟩)
        · exact Or.inl h
        · exact Or.inr ⟨col, le_refl _, by omega, hidx, h⟩
        · exact Or.inr ⟨c, by omega, by omega, h3, h4⟩
      · rintro (h | ⟨c, h1, h2, h3, h4⟩)
        · exact Or.inl (Or.inl h)
        · rcases Nat.eq_or_lt_of_le h1 with he | hl
          · subst he; exact Or.inl (Or.inr h4)
          · exact Or.inr ⟨c, hl, by omega, h3, h4⟩

theorem isWinningMove_iff (P : Position) (col : Int) :
    P.isWinningMove col = true ↔
      (P.getLowestAvailableBitIndex col ≠ -1 ∧
        compute_winning_position P.current_position P.mask &&&
          shl64 1 (P.getLowestAvailableBitIndex col).toNat ≠ 0) := by
  unfold Position.isWinningMove Position.canPlay
  by_cases h : P.getLowestAvailableBitIndex col = -1
  · simp [h]
  · simp [h]

/-- C4: for every position, `canWinNext()` is true if and only if some column `c` in
    `0..6` has `canPlay(c)` and `isWinningMove(c)`. -/
theorem canWinNext_iff_exists_winning_column (P : Position) :
    P.canWinNext = true ↔
      ∃ c : Int, 0 ≤ c ∧ c ≤ 6 ∧ P.canPlay c = true ∧ P.isWinningMove c = true := by
  unfold Position.canWinNext
  simp only [decide_eq_true_eq]
  rw [possibleMovesLoop_spec P P.winning_position WIDTH 0 0]
  constructor
  · rintro (h | ⟨c, _, h2, h3, h4⟩)
    · exact absurd (Nat.and_zero _) h
    · refine ⟨(c : Int), by omega, ?_, ?_, ?_⟩
      · simp only [WIDTH] at h2; omega
      · unfold Position.canPlay; simpa using h3
      · exact (isWinningMove_iff P c).2 ⟨h3, h4⟩
  · rintro ⟨c, h1, h2, _, h4⟩
    obtain ⟨n, hn⟩ : ∃ n : Nat, c = (n : Int) := ⟨c.toNat, by omega⟩
    subst hn
    have := (isWinningMove_iff P n).1 h4
    exact Or.inr ⟨n, Nat.zero_le _, by simp only [WIDTH]; omega, this.1, this.2⟩

/-! ## Winning spots -/

theorem actual_board_cells_mask_eq : actual_board_cells_mask = 2 ^ 60 - 1 := by decide

theorem actual_board_cells_mask_testBit (b : Nat) :
    actual_board_cells_mask.testBit b = decide (b < 60) := by
  rw [actual_board_cells_mask_eq, Nat.testBit_two_pow_sub_one]

/-- The three shapes in which the horizontal and diagonal parts of
    `compute_winning_position` test bit `b`, read as a run of four through `b`. -/
theorem shifted_patterns_iff (P b s : Nat) (h64 : b < 64) :
    (((((b < 64 ∧ s ≤ b ∧ P.testBit (b - s) = true) ∧
            b < 64 ∧ 2 * s ≤ b ∧ P.testBit (b - 2 * s) = true) ∧
          b < 64 ∧ 3 * s ≤ b ∧ P.testBit (b - 3 * s) = true) ∨
        (((b < 64 ∧ s ≤ b ∧ P.testBit (b - s) = true) ∧
            b < 64 ∧ 2 * s ≤ b ∧ P.testBit (b - 2 * s) = true) ∧
          P.testBit (s + b) = true) ∨
        ((P.testBit (s + b) = true ∧ P.testBit (2 * s + b) = true) ∧
          b < 64 ∧ s ≤ b ∧ P.testBit (b - s) = true) ∨
        ((P.testBit (s + b) = true ∧ P.testBit (2 * s + b) = true) ∧
          P.testBit (3 * s + b) = true)) ↔
      completesLine P b s) := by
  constructor
  · rintro (⟨⟨⟨_, h1, p1⟩, _, h2, p2⟩, _, h3, p3⟩ | ⟨⟨⟨_, h1, p1⟩, _, h2, p2⟩, q1⟩ |
      ⟨⟨q1, q2⟩, _, h1, p1⟩ | ⟨⟨q1, q2⟩, q3⟩)
    · refine ⟨3, by norm_num, by omega, fun j hj hne => ?_⟩
      interval_cases j
      · convert p3 using 2; omega
      · convert p2 using 2; omega
      · convert p1 using 2; omega
      · exact absurd rfl hne
    · refine ⟨2, by norm_num, by omega, fun j hj hne => ?_⟩
      interval_cases j
      · convert p2 using 2; omega
      · convert p1 using 2; omega
      · exact absurd rfl hne
      · convert q1 using 2; omega
    · refine ⟨1, by norm_num, by omega, fun j hj hne => ?_⟩
      interval_cases j
      · convert p1 using 2; omega
      · exact absurd rfl hne
      · convert q1 using 2; omega
      · convert q2 using 2; omega
    · refine ⟨0, by norm_num, by omega, fun j hj hne => ?_⟩
      interval_cases j
      · exact absurd rfl hne
      · convert q1 using 2; omega
      · convert q2 using 2; omega
      · convert q3 using 2; omega
  · rintro ⟨k, hk, hks, h⟩
    · interval_cases k
      · have a1 := h 1 (by norm_num) (by norm_num)
        have a2 := h 2 (by norm_num) (by norm_num)
        have a3 := h 3 (by norm_num) (by norm_num)
        refine Or.inr (Or.inr (Or.inr ⟨⟨?_, ?_⟩, ?_⟩))
        · convert a1 using 2; omega
        · convert a2 using 2; omega
        · convert a3 using 2; omega
      · have a0 := h 0 (by norm_num) (by norm_num)
        have a2 := h 2 (by norm_num) (by norm_num)
        have a3 := h 3 (by norm_num) (by norm_num)
        refine Or.inr (Or.inr (Or.inl ⟨⟨?_, ?_⟩, h64, by omega, ?_⟩))
        · convert a2 using 2; omega
        · convert a3 using 2; omega
        · convert a0 using 2; omega
      · have a0 := h 0 (by norm_num) (by norm_num)
        have a1 := h 1 (by norm_num) (by norm_num)
        have a3 := h 3 (by norm_num) (by norm_num)
        refine Or.inr (Or.inl ⟨⟨⟨h64, by omega, ?_⟩, h64, by omega, ?_⟩, ?_⟩)
        · convert a1 using 2; omega
        · convert a0 using 2; omega
        · convert a3 using 2; omega
      · have a0 := h 0 (by norm_num) (by norm_num)
        have a1 := h 1 (by norm_num) (by norm_num)
        have a2 := h 2 (by norm_num) (by norm_num)
        refine Or.inl ⟨⟨⟨h64, by omega, ?_⟩, h64, by omega, ?_⟩, h64, by omega, ?_⟩
        · convert a2 using 2; omega
        · convert a1 using 2; omega
        · convert a0 using 2; omega

/-- The shape in which the vertical part of `compute_winning_position` tests bit `b`. -/
theorem vertical_patterns_iff (P b : Nat) (h64 : b < 64) :
    (((((b < 64 ∧ 1 ≤ b ∧ P.testBit (b - 1) = true) ∧
            b < 64 ∧ 2 ≤ b ∧ P.testBit (b - 2) = true) ∧
          b < 64 ∧ 3 ≤ b ∧ P.testBit (b - 3) = true) ∨
        ((P.testBit (1 + b) = true ∧ b < 64 ∧ 1 ≤ b ∧ P.testBit (b - 1) = true) ∧
          b < 64 ∧ 2 ≤ b ∧ P.testBit (b - 2) = true) ∨
        ((P.testBit (2 + b) = true ∧ P.testBit (1 + b) = true) ∧
          b < 64 ∧ 1 ≤ b ∧ P.testBit (b - 1) = true) ∨
        ((P.testBit (3 + b) = true ∧ P.testBit (2 + b) = true) ∧
          P.testBit (1 + b) = true)) ↔
      completesLine P b 1) := by
  constructor
  · rintro (⟨⟨⟨_, h1, p1⟩, _, h2, p2⟩, _, h3, p3⟩ | ⟨⟨q1, _, h1, p1⟩, _, h2, p2⟩ |
      ⟨⟨q2, q1⟩, _, h1, p1⟩ | ⟨⟨q3, q2⟩, q1⟩)
    · refine ⟨3, by norm_num, by omega, fun j hj hne => ?_⟩
      interval_cases j
      · convert p3 using 2
      · convert p2 using 2; omega
      · convert p1 using 2; omega
      · exact absurd rfl hne
    · refine ⟨2, by norm_num, by omega, fun j hj hne => ?_⟩
      interval_cases j
      · convert p2 using 2
      · convert p1 using 2; omega
      · exact absurd rfl hne
      · convert q1 using 2; omega
    · refine ⟨1, by norm_num, by omega, fun j hj hne => ?_⟩
      interval_cases j
      · convert p1 using 2
      · exact absurd rfl hne
      · convert q1 using 2; omega
      · convert q2 using 2; omega
    · refine ⟨0, by norm_num, by omega, fun j hj hne => ?_⟩
      interval_cases j
      · exact absurd rfl hne
      · convert q1 using 2; omega
      · convert q2 using 2; omega
      · convert q3 using 2; omega
  · rintro ⟨k, hk, hks, h⟩
    interval_cases k
    · have a1 := h 1 (by norm_num) (by norm_num)
      have a2 := h 2 (by norm_num) (by norm_num)
      have a3 := h 3 (by norm_num) (by norm_num)
      refine Or.inr (Or.inr (Or.inr ⟨⟨?_, ?_⟩, ?_⟩))
      · convert a3 using 2; omega
      · convert a2 using 2; omega
      · convert a1 using 2; omega
    · have a0 := h 0 (by norm_num) (by norm_num)
      have a2 := h 2 (by norm_num) (by norm_num)
      have a3 := h 3 (by norm_num) (by norm_num)
      refine Or.inr (Or.inr (Or.inl ⟨⟨?_, ?_⟩, h64, by omega, ?_⟩))
      · convert a3 using 2; omega
      · convert a2 using 2; omega
      · exact a0
    · have a0 := h 0 (by norm_num) (by norm_num)
      have a1 := h 1 (by norm_num) (by norm_num)
      have a3 := h 3 (by norm_num) (by norm_num)
      refine Or.inr (Or.inl ⟨⟨?_, h64, by omega, ?_⟩, h64, by omega, ?_⟩)
      · convert a3 using 2; omega
      · convert a1 using 2; omega
      · exact a0
    · have a0 := h 0 (by norm_num) (by norm_num)
      have a1 := h 1 (by norm_num) (by norm_num)
      have a2 := h 2 (by norm_num) (by norm_num)
      refine Or.inl ⟨⟨⟨h64, by omega, ?_⟩, h64, by omega, ?_⟩, h64, by omega, ?_⟩
      · convert a2 using 2; omega
      · convert a1 using 2; omega
      · exact a0

/-- Bit `b` of `compute_winning_position(P, M)`, for an empty cell `b`: some direction
    has three tokens of `P` that make a run of four together with `b`. -/
theorem compute_winning_position_testBit (P M b : Nat) (hb : b < 60)
    (hM : M.testBit b = false) :
    (compute_winning_position P M).testBit b = true ↔
      (completesLine P b 1 ∨ completesLine P b 7 ∨ completesLine P b 6 ∨
        completesLine P b 8) := by
  have h64 : b < 64 := by omega
  have hmask : (actual_board_cells_mask.testBit b ^^ M.testBit b) = true := by
    rw [actual_board_cells_mask_testBit, hM]; simp [hb]
  have e7 : completesLine P b 7 = completesLine P b (6 + 1) := rfl
  have e8 : completesLine P b 8 = completesLine P b (6 + 2) := rfl
  rw [e7, e8, ← vertical_patterns_iff P b h64, ← shifted_patterns_iff P b (6 + 1) h64,
    ← shifted_patterns_iff P b 6 h64, ← shifted_patterns_iff P b (6 + 2) h64]
  simp only [compute_winning_position, HEIGHT, Nat.testBit_or, Nat.testBit_and, testBit_shl64,
    Nat.testBit_shiftRight, Nat.testBit_xor, Bool.or_eq_true, Bool.and_eq_true,
    decide_eq_true_eq, Nat.zero_testBit, Bool.false_eq_true, false_or, hmask, and_true,
    or_assoc]

/-! ## Four in a row -/

/-- On a bitboard confined to the 42 cells, four aligned tokens are four set bits spaced
    1 (column), 7 (row), 8 or 6 (diagonals) apart: the empty sentinel row stops a run
    from wrapping into the next column. -/
theorem fourAligned_iff_lineAt (B : Nat) (hB : onBoard B) :
    fourAligned B ↔ ∃ a, lineAt B a 1 ∨ lineAt B a 7 ∨ lineAt B a 6 ∨ lineAt B a 8 := by
  constructor
  · rintro ⟨c, hc, r, hr, h | h | h | h⟩
    · obtain ⟨_, h⟩ := h
      refine ⟨c * 7 + r, Or.inl fun k hk => ?_⟩
      convert h k hk using 2; omega
    · obtain ⟨_, h⟩ := h
      refine ⟨c * 7 + r, Or.inr (Or.inl fun k hk => ?_)⟩
      convert h k hk using 2; ring
    · obtain ⟨_, _, h⟩ := h
      refine ⟨c * 7 + r, Or.inr (Or.inr (Or.inr fun k hk => ?_))⟩
      convert h k hk using 2; ring
    · obtain ⟨_, h3, h⟩ := h
      refine ⟨c * 7 + r, Or.inr (Or.inr (Or.inl fun k hk => ?_))⟩
      convert h k hk using 2
      interval_cases k <;> omega
  · rintro ⟨a, h | h | h | h⟩
    · have c0 := (isCell_iff _).1 (hB _ (h 0 (by norm_num)))
      have c1 := (isCell_iff _).1 (hB _ (h 1 (by norm_num)))
      have c2 := (isCell_iff _).1 (hB _ (h 2 (by norm_num)))
      have c3 := (isCell_iff _).1 (hB _ (h 3 (by norm_num)))
      refine ⟨a / 7, by omega, a % 7, by omega, Or.inl ⟨by omega, fun k hk => ?_⟩⟩
      convert h k hk using 2; omega
    · have c0 := (isCell_iff _).1 (hB _ (h 0 (by norm_num)))
      have c3 := (isCell_iff _).1 (hB _ (h 3 (by norm_num)))
      refine ⟨a / 7, by omega, a % 7, by omega, Or.inr (Or.inl ⟨by omega, fun k hk => ?_⟩)⟩
      convert h k hk using 2; omega
    · have c0 := (isCell_iff _).1 (hB _ (h 0 (by norm_num)))
      have c1 := (isCell_iff _).1 (hB _ (h 1 (by norm_num)))
      have c2 := (isCell_iff _).1 (hB _ (h 2 (by norm_num)))
      have c3 := (isCell_iff _).1 (hB _ (h 3 (by norm_num)))
      refine ⟨a / 7, by omega, a % 7, by omega,
        Or.inr (Or.inr (Or.inr ⟨by omega, by omega, fun k hk => ?_⟩))⟩
      convert h k hk using 2
      interval_cases k <;> omega
    · have c0 := (isCell_iff _).1 (hB _ (h 0 (by norm_num)))
      have c1 := (isCell_iff _).1 (hB _ (h 1 (by norm_num)))
      have c2 := (isCell_iff _).1 (hB _ (h 2 (by norm_num)))
      have c3 := (isCell_iff _).1 (hB _ (h 3 (by norm_num)))
      refine ⟨a / 7, by omega, a % 7, by omega,
        Or.inr (Or.inr (Or.inl ⟨by omega, by omega, fun k hk => ?_⟩))⟩
      convert h k hk using 2; omega

/-- With `b` a new bit, a run of four through `b` completed by `B` is a run of four in
    `B` plus `b`; conversely, when `B` alone holds no run of step `s`, every run of the
    enlarged board passes through `b`. -/
theorem completesLine_iff_lineAt (B B2 b s : Nat) (hs : 0 < s)
    (hB2 : ∀ i, B2.testBit i = (B.testBit i || decide (i = b)))
    (hnone : ¬ ∃ a, lineAt B a s) :
    completesLine B b s ↔ ∃ a, lineAt B2 a s := by
  constructor
  · rintro ⟨k, hk, hks, h⟩
    refine ⟨b - k * s, fun j hj => ?_⟩
    rw [hB2]
    by_cases hjk : j = k
    · subst hjk
      have : b - j * s + j * s = b := by omega
      simp [this]
    · simp [h j hj hjk]
  · rintro ⟨a, h⟩
    by_cases hall : ∀ j, j < 4 → a + j * s ≠ b
    · exfalso
      apply hnone
      refine ⟨a, fun j hj => ?_⟩
      have := h j hj
      rw [hB2] at this
      simpa [hall j hj] using this
    · push_neg at hall
      obtain ⟨k, hk, hkb⟩ := hall
      refine ⟨k, hk, by omega, fun j hj hjk => ?_⟩
      have hidx : b - k * s + j * s = a + j * s := by omega
      have hne : a + j * s ≠ b := by
        intro he
        have : j * s = k * s := by omega
        exact hjk (Nat.eq_of_mul_eq_mul_right hs this)
      have := h j hj
      rw [hB2] at this
      rw [hidx]
      simpa [hne] using this

theorem and_two_pow_ne_zero_iff (x b : Nat) : x &&& 2 ^ b ≠ 0 ↔ x.testBit b = true := by
  rw [Ne, and_two_pow_eq_zero_iff]
  cases x.testBit b <;> simp

/-- A decidable test for `onBoard`. -/
theorem onBoard_of_bounded (m : Nat) (h : m < 2 ^ 49)
    (hbits : ∀ i, i < 49 → m.testBit i = true → isCell i) : onBoard m := by
  intro i hi
  by_cases h49 : i < 49
  · exact hbits i h49 hi
  · have : m < 2 ^ i :=
      lt_of_lt_of_le h (Nat.pow_le_pow_right (by norm_num) (by omega))
    rw [Nat.testBit_lt_two_pow this] at hi
    exact Bool.noConfusion hi

/-- The board of the player who just moved, after `play` of a free cell `b`: the old
    mover's tokens and `b`. -/
theorem mover_board_after_play (P : Position) (b : Nat)
    (hsub : P.current_position &&& P.mask = P.current_position)
    (hfree : P.mask.testBit b = false) (i : Nat) :
    ((P.play (2 ^ b)).mask ^^^ (P.play (2 ^ b)).current_position).testBit i =
      (P.current_position.testBit i || decide (i = b)) := by
  have hs := (and_eq_left_iff_testBit _ _).1 hsub i
  simp only [Position.play, Nat.testBit_xor, Nat.testBit_or, Nat.testBit_two_pow]
  by_cases hib : i = b
  · subst hib
    have hc : P.current_position.testBit i = false := by
      cases hC : P.current_position.testBit i
      · rfl
      · have := hs hC; rw [hfree] at this; exact Bool.noConfusion this
    simp [hfree, hc]
  · have hbi : ¬ b = i := fun h => hib h.symm
    cases hC : P.current_position.testBit i
    · cases hM : P.mask.testBit i <;> simp [hib, hbi]
    · simp [hs hC, hib, hbi]

theorem ne_zero_iff_exists_testBit (x : Nat) : x ≠ 0 ↔ ∃ i, x.testBit i = true := by
  constructor
  · intro h
    by_contra hn
    push_neg at hn
    apply h
    apply Nat.eq_of_testBit_eq
    intro i
    rw [Nat.zero_testBit]
    simpa using hn i
  · rintro ⟨i, hi⟩ h0
    rw [h0, Nat.zero_testBit] at hi
    exact Bool.noConfusion hi

/-- One direction of `check_player_has_won`: the folded word is non-zero exactly when
    the board has four set bits spaced `s` apart. -/
theorem folded_ne_zero_iff (B s : Nat) :
    (B &&& (B >>> s)) &&& ((B &&& (B >>> s)) >>> (2 * s)) ≠ 0 ↔ ∃ a, lineAt B a s := by
  rw [ne_zero_iff_exists_testBit]
  constructor
  · rintro ⟨a, ha⟩
    simp only [Nat.testBit_and, Nat.testBit_shiftRight, Bool.and_eq_true] at ha
    obtain ⟨⟨h0, h1⟩, h2, h3⟩ := ha
    refine ⟨a, fun k hk => ?_⟩
    interval_cases k
    · simpa using h0
    · convert h1 using 2; omega
    · convert h2 using 2; omega
    · convert h3 using 2; omega
  · rintro ⟨a, h⟩
    refine ⟨a, ?_⟩
    simp only [Nat.testBit_and, Nat.testBit_shiftRight, Bool.and_eq_true]
    have h0 := h 0 (by norm_num)
    have h1 := h 1 (by norm_num)
    have h2 := h 2 (by norm_num)
    have h3 := h 3 (by norm_num)
    refine ⟨⟨?_, ?_⟩, ?_, ?_⟩
    · simpa using h0
    · convert h1 using 2; omega
    · convert h2 using 2; omega
    · convert h3 using 2; omega

/-- The win test of `GamePlayer.cpp` in terms of runs of set bits. -/
theorem check_player_has_won_iff (B : Nat) :
    check_player_has_won B = true ↔
      ∃ a, lineAt B a 1 ∨ lineAt B a 7 ∨ lineAt B a 6 ∨ lineAt B a 8 := by
  have h1 := folded_ne_zero_iff B 1
  have h7 := folded_ne_zero_iff B (6 + 1)
  have h6 := folded_ne_zero_iff B 6
  have h8 := folded_ne_zero_iff B (6 + 2)
  simp only [check_player_has_won, HEIGHT]
  by_cases c1 : (B &&& (B >>> 1)) &&& ((B &&& (B >>> 1)) >>> 2) ≠ 0
  · rw [if_pos c1]
    obtain ⟨a, ha⟩ := h1.1 c1
    simp only [true_iff]
    exact ⟨a, Or.inl ha⟩
  · rw [if_neg c1]
    by_cases c7 : (B &&& (B >>> (6 + 1))) &&& ((B &&& (B >>> (6 + 1))) >>> (2 * (6 + 1))) ≠ 0
    · rw [if_pos c7]
      obtain ⟨a, ha⟩ := h7.1 c7
      simp only [true_iff]
      exact ⟨a, Or.inr (Or.inl ha)⟩
    · rw [if_neg c7]
      by_cases c6 : (B &&& (B >>> 6)) &&& ((B &&& (B >>> 6)) >>> (2 * 6)) ≠ 0
      · rw [if_pos c6]
        obtain ⟨a, ha⟩ := h6.1 c6
        simp only [true_iff]
        exact ⟨a, Or.inr (Or.inr (Or.inl ha))⟩
      · rw [if_neg c6]
        by_cases c8 : (B &&& (B >>> (6 + 2))) &&& ((B &&& (B >>> (6 + 2))) >>> (2 * (6 + 2))) ≠ 0
        · rw [if_pos c8]
          obtain ⟨a, ha⟩ := h8.1 c8
          simp only [true_iff]
          exact ⟨a, Or.inr (Or.inr (Or.inr ha))⟩
        · rw [if_neg c8]
          simp only [Bool.false_eq_true, false_iff]
          rintro ⟨a, ha | ha | ha | ha⟩
          · exact c1 (h1.2 ⟨a, ha⟩)
          · exact c7 (h7.2 ⟨a, ha⟩)
          · exact c6 (h6.2 ⟨a, ha⟩)
          · exact c8 (h8.2 ⟨a, ha⟩)

/-- On a bitboard confined to the 42 cells the geometric notion of four aligned tokens
    and the win test of `GamePlayer.cpp` agree. -/
theorem fourAligned_iff_check_player_has_won (B : Nat) (hB : onBoard B) :
    fourAligned B ↔ check_player_has_won B = true := by
  rw [fourAligned_iff_lineAt B hB, check_player_has_won_iff]

/-- C3: for a position whose mover's tokens are tokens of the board and lie on the 42
    cells, and whose mover does not already have four aligned, and for every playable
    column `c`: `isWinningMove(c)` is true if and only if, after `playCol(c)`, the board
    of the player who just moved (`mask XOR current_position`) has four tokens aligned in
    a column, a row or a diagonal of the grid, which is also what `check_player_has_won`
    of `GamePlayer.cpp` reports on that board.  (The other invariants of the data model
    are not needed.) -/
theorem isWinningMove_iff_fourAligned (P : Position) (c : Int)
    (hsub : P.current_position &&& P.mask = P.current_position)
    (hcur : onBoard P.current_position)
    (hnot : ¬ fourAligned P.current_position)
    (hplay : P.canPlay c = true) :
    ∃ Q, P.playCol c = Except.ok Q ∧
      (P.isWinningMove c = true ↔ fourAligned (Q.mask ^^^ Q.current_position)) ∧
      (P.isWinningMove c = true ↔
        check_player_has_won (Q.mask ^^^ Q.current_position) = true) := by
  obtain ⟨cn, r, hc, hr, hcol, hidx, hm, _, _⟩ := canPlay_landing P c hplay
  have hcell : isCell (cn * 7 + r) := ⟨cn, hc, r, hr, rfl⟩
  have h64 : cn * 7 + r < 64 := by omega
  have hne : P.getLowestAvailableBitIndex c ≠ -1 := by rw [hidx]; omega
  have hQ : P.playCol c = Except.ok (P.play (2 ^ (cn * 7 + r))) := by
    unfold Position.playCol
    simp only [ne_eq, hidx, Int.toNat_ofNat, shl64_one _ h64]
    rw [if_pos (by omega)]
  refine ⟨_, hQ, ?_⟩
  suffices hmain : P.isWinningMove c = true ↔
      fourAligned ((P.play (2 ^ (cn * 7 + r))).mask ^^^
        (P.play (2 ^ (cn * 7 + r))).current_position) by
    refine ⟨hmain, ?_⟩
    rw [hmain]
    apply fourAligned_iff_check_player_has_won
    intro i hi
    rw [mover_board_after_play P (cn * 7 + r) hsub hm, Bool.or_eq_true] at hi
    rcases hi with h | h
    · exact hcur i h
    · have : i = cn * 7 + r := by simpa using h
      rw [this]; exact hcell
  have hboard := mover_board_after_play P (cn * 7 + r) hsub hm
  have hon : onBoard ((P.play (2 ^ (cn * 7 + r))).mask ^^^
      (P.play (2 ^ (cn * 7 + r))).current_position) := by
    intro i hi
    rw [hboard, Bool.or_eq_true] at hi
    rcases hi with h | h
    · exact hcur i h
    · have : i = cn * 7 + r := by simpa using h
      rw [this]; exact hcell
  have hnone : ∀ s, (s = 1 ∨ s = 7 ∨ s = 6 ∨ s = 8) → ¬ ∃ a, lineAt P.current_position a s := by
    rintro s hs ⟨a, ha⟩
    apply hnot
    rw [fourAligned_iff_lineAt _ hcur]
    rcases hs with rfl | rfl | rfl | rfl
    · exact ⟨a, Or.inl ha⟩
    · exact ⟨a, Or.inr (Or.inl ha)⟩
    · exact ⟨a, Or.inr (Or.inr (Or.inl ha))⟩
    · exact ⟨a, Or.inr (Or.inr (Or.inr ha))⟩
  rw [isWinningMove_iff, hidx, Int.toNat_ofNat, shl64_one _ h64, and_two_pow_ne_zero_iff,
    compute_winning_position_testBit _ _ _ (by omega) hm, fourAligned_iff_lineAt _ hon,
    completesLine_iff_lineAt _ _ _ 1 (by norm_num) hboard (hnone 1 (by simp)),
    completesLine_iff_lineAt _ _ _ 7 (by norm_num) hboard (hnone 7 (by simp)),
    completesLine_iff_lineAt _ _ _ 6 (by norm_num) hboard (hnone 6 (by simp)),
    completesLine_iff_lineAt _ _ _ 8 (by norm_num) hboard (hnone 8 (by simp))]
  have hne2 : ((cn * 7 + r : Nat) : Int) ≠ -1 := by omega
  constructor
  · rintro ⟨_, ⟨a, h⟩ | ⟨a, h⟩ | ⟨a, h⟩ | ⟨a, h⟩⟩
    · exact ⟨a, Or.inl h⟩
    · exact ⟨a, Or.inr (Or.inl h)⟩
    · exact ⟨a, Or.inr (Or.inr (Or.inl h))⟩
    · exact ⟨a, Or.inr (Or.inr (Or.inr h))⟩
  · rintro ⟨a, h | h | h | h⟩
    · exact ⟨hne2, Or.inl ⟨a, h⟩⟩
    · exact ⟨hne2, Or.inr (Or.inl ⟨a, h⟩)⟩
    · exact ⟨hne2, Or.inr (Or.inr (Or.inl ⟨a, h⟩))⟩
    · exact ⟨hne2, Or.inr (Or.inr (Or.inr ⟨a, h⟩))⟩

/-- Witness for `isWinningMove_iff_fourAligned`: the mover holds the three lowest cells
    of column 3, the opponent those of column 2, and column 3 is played. -/
theorem isWinningMove_iff_fourAligned_witness :
    ∃ Q, (⟨14680064, 14794752, 1073872896, 6⟩ : Position).playCol 3 = Except.ok Q ∧
      ((⟨14680064, 14794752, 1073872896, 6⟩ : Position).isWinningMove 3 = true ↔
        fourAligned (Q.mask ^^^ Q.current_position)) ∧
      ((⟨14680064, 14794752, 1073872896, 6⟩ : Position).isWinningMove 3 = true ↔
        check_player_has_won (Q.mask ^^^ Q.current_position) = true) :=
  isWinningMove_iff_fourAligned ⟨14680064, 14794752, 1073872896, 6⟩ 3 (by decide)
    (onBoard_of_bounded _ (by decide) (by decide)) (by decide) (by decide)

/-! ## The transposition key -/

/-- What `key()` determines: between positions with the same `blocked_cells`, equal keys
    mean equal boards of the player who is not to move, and nothing more. -/
theorem key_eq_iff (P Q : Position) (hb : P.blocked_cells = Q.blocked_cells) :
    P.key = Q.key ↔ P.current_position ^^^ P.mask = Q.current_position ^^^ Q.mask := by
  unfold Position.key
  rw [hb]
  constructor
  · intro h
    have := congrArg (fun x => x ^^^ Q.blocked_cells) h
    simpa [Nat.xor_assoc] using this
  · intro h
    rw [h]

/-- C2 fails on the code: two positions reached from `Position(2, 2, 3, 4)` by three
    legal `playCol` calls each (columns 0, 1, 2 and columns 0, 3, 2) have the same
    `nbMoves` and the same `key`, but differ in `current_position` and in `mask`. -/
theorem key_collision :
    (Position.new4 2 2 3 4).playCols [0, 1, 2] = Except.ok ⟨128, 16513, 1073872896, 3⟩ ∧
    (Position.new4 2 2 3 4).playCols [0, 3, 2] = Except.ok ⟨2097152, 2113537, 1073872896, 3⟩ ∧
    (⟨128, 16513, 1073872896, 3⟩ : Position).nbMoves =
      (⟨2097152, 2113537, 1073872896, 3⟩ : Position).nbMoves ∧
    (⟨128, 16513, 1073872896, 3⟩ : Position).key =
      (⟨2097152, 2113537, 1073872896, 3⟩ : Position).key ∧
    (⟨128, 16513, 1073872896, 3⟩ : Position).current_position ≠
      (⟨2097152, 2113537, 1073872896, 3⟩ : Position).current_position ∧
    (⟨128, 16513, 1073872896, 3⟩ : Position).mask ≠
      (⟨2097152, 2113537, 1073872896, 3⟩ : Position).mask := by
  refine ⟨rfl, rfl, by decide, by decide, by decide, by decide⟩

/-! ## The value returned by `solve` -/

/-- C1 fails on the code.  The position reached from `Position(2, 1, 4, 2)` by the 36
    legal moves below has two blocked cells and no four aligned tokens for either player;
    its negamax value is `-1` (every move of the side to move lets the opponent complete
    four with the last token), but `solve(P, weak=false)` on a freshly reset solver
    returns `0`.  Inside that search the positions after the columns 3, 4 and after the
    columns 5, 4 are different positions with the same `key()`, of values `0` and `-1`:
    the bound stored for the first is read back for the second. -/
theorem solve_misses_game_value :
    (Position.new4 2 1 4 2).playCols
        [0, 4, 1, 3, 4, 6, 0, 1, 6, 0, 0, 1, 5, 6, 3, 0, 2, 3, 0, 4, 6, 5, 6, 1, 5, 1, 6, 5,
          2, 2, 3, 4, 2, 2, 5, 3] =
      Except.ok ⟨255808810336427, 278146174639039, 33792, 36⟩ ∧
    popcount (Position.new4 2 1 4 2).blocked_cells = 2 ∧
    ¬ fourAligned 255808810336427 ∧
    ¬ fourAligned (255808810336427 ^^^ 278146174639039) ∧
    gameValue 5 ⟨255808810336427, 278146174639039, 33792, 36⟩ = some (-1) ∧
    (match Solver.new.reset.solve ⟨255808810336427, 278146174639039, 33792, 36⟩ false with
      | Except.ok (v, _) => some v
      | Except.error _ => none) = some 0 ∧
    (⟨255808810336427, 278146174639039, 33792, 36⟩ : Position).playCols [3, 4] =
      Except.ok ⟨255808877445291, 278150536715199, 33792, 38⟩ ∧
    (⟨255808810336427, 278146174639039, 33792, 36⟩ : Position).playCols [5, 4] =
      Except.ok ⟨256908321964203, 279249981234111, 33792, 38⟩ ∧
    (⟨255808877445291, 278150536715199, 33792, 38⟩ : Position).key =
      (⟨256908321964203, 279249981234111, 33792, 38⟩ : Position).key ∧
    gameValue 3 ⟨255808877445291, 278150536715199, 33792, 38⟩ = some 0 ∧
    gameValue 3 ⟨256908321964203, 279249981234111, 33792, 38⟩ = some (-1) := by
  refine ⟨rfl, by decide, by decide!, by decide!, by decide!, by decide!, rfl, rfl,
    by decide, by decide!, by decide!⟩

/-! ## The transposition table -/

/-- C20: for every table state, key and 8-bit value `v`: right after `put(key, v)`,
    `get(key)` returns `v`; `put` writes slot `key mod size`, an index below `size`, with
    the truncated key and `v`, and leaves every other slot of both arrays unchanged. -/
theorem put_then_get (T : TranspositionTable) (key v : Nat) (hv : v < 256) :
    (T.put key (v : Int)).get key = v ∧
    TranspositionTable.index key = key % tableSize ∧
    TranspositionTable.index key < tableSize ∧
    (T.put key (v : Int)).K (TranspositionTable.index key) = key % 2 ^ 32 ∧
    (T.put key (v : Int)).V (TranspositionTable.index key) = v ∧
    (∀ i, i ≠ TranspositionTable.index key →
      (T.put key (v : Int)).K i = T.K i ∧ (T.put key (v : Int)).V i = T.V i) := by
  have hval : ((v : Int) % 256).toNat = v := by omega
  refine ⟨?_, rfl, Nat.mod_lt _ (by decide), ?_, ?_, ?_⟩
  · simp only [TranspositionTable.get, TranspositionTable.put, if_true, hval]
  · simp only [TranspositionTable.put, if_true]
  · simp only [TranspositionTable.put, if_true, hval]
  · intro i hi
    simp only [TranspositionTable.put, if_neg hi, and_self]

/-- Witness for `put_then_get`: key 22341659303700 and value 56 on the reset table. -/
theorem put_then_get_witness :
    (TranspositionTable.reset.put 22341659303700 ((56 : Nat) : Int)).get 22341659303700 = 56 :=
  (put_then_get TranspositionTable.reset 22341659303700 56 (by decide)).1

/-! ## `solve` on won and on full positions -/

/-- The immediate-win shortcut of `solve`. -/
theorem solve_immediate_win_eq (S : Solver) (P : Position) (weak : Bool)
    (hwin : P.canWinNext = true) :
    S.solve P weak = Except.ok ((41 - P.nbMoves).tdiv 2, S) := by
  unfold Solver.solve
  rw [if_pos hwin]
  norm_num

/-- C16: when `canWinNext()` holds, `solve(P, weak)` returns `(41 - nbMoves(P))/2`
    (truncating division) for both values of `weak`, and the solver it leaves behind is
    the one it was given: no `negamax` call, same node count, same table. -/
theorem solve_immediate_win (S : Solver) (P : Position) (weak : Bool)
    (hwin : P.canWinNext = true) :
    S.solve P weak = Except.ok ((41 - P.nbMoves).tdiv 2, S) :=
  solve_immediate_win_eq S P weak hwin

/-- Witness for `solve_immediate_win`: the mover holds the three lowest cells of column 3. -/
theorem solve_immediate_win_witness :
    Solver.new.solve ⟨14680064, 14794752, 1073872896, 6⟩ true =
      Except.ok ((41 - (⟨14680064, 14794752, 1073872896, 6⟩ : Position).nbMoves).tdiv 2,
        Solver.new) :=
  solve_immediate_win Solver.new ⟨14680064, 14794752, 1073872896, 6⟩ true (by decide)

/-- A call of `negamax` that passes its assertions on a position with 40 or more moves
    returns 0 and only counts the node. -/
theorem negamax_full (fuel : Nat) (S : Solver) (P : Position) (alpha beta : Int)
    (hab : alpha < beta) (hwin : P.canWinNext = false) (hn : 40 ≤ P.nbMoves) :
    Solver.negamax (fuel + 1) S P alpha beta =
      Except.ok (0, { S with nodeCount := (S.nodeCount + 1) % 2 ^ 64 }) := by
  unfold Solver.negamax
  have h1 : ¬ ¬ (alpha < beta) := by simpa using hab
  have h2 : P.nbMoves ≥ 7 * 6 - 2 := by norm_num; exact hn
  rw [if_neg h1]
  simp only [hwin, Bool.false_eq_true, if_false, if_pos h2]

/-- The last two adjustments of `med` in `solve` put it inside the window. -/
theorem clamp_in_window (m a b : Int) (hab : a < b) :
    a ≤ (if (if m ≤ a then a + 1 else m) ≥ b then b - 1 else (if m ≤ a then a + 1 else m)) ∧
    (if (if m ≤ a then a + 1 else m) ≥ b then b - 1 else (if m ≤ a then a + 1 else m)) < b := by
  split_ifs <;> omega

/-- The threshold probed by `solve` lies in `[current_alpha, current_beta - 1]`. -/
theorem solveMed_in_window (a b : Int) (hab : a < b) :
    a ≤ solveMed a b ∧ solveMed a b < b := by
  unfold solveMed
  exact clamp_in_window _ a b hab

/-- One iteration of the loop of `solve`. -/
theorem solveLoop_succ (P : Position) (fuel : Nat) (S : Solver) (a b : Int) (hab : a < b) :
    solveLoop P (fuel + 1) S a b =
      match Solver.negamax (negamaxFuel P) S P (solveMed a b) (solveMed a b + 1) with
      | Except.error e => Except.error e
      | Except.ok (r, S2) =>
        if r ≤ solveMed a b then solveLoop P fuel S2 a r else solveLoop P fuel S2 r b := by
  have hm := (solveMed_in_window a b hab).2
  have h1 : ¬ (a ≥ b ∨ solveMed a b ≥ b) := by omega
  simp only [solveLoop, if_pos hab, if_neg h1]

/-- The loop of `solve` stops as soon as the window is empty. -/
theorem solveLoop_done (P : Position) (fuel : Nat) (S : Solver) (a b : Int) (hab : ¬ a < b) :
    solveLoop P fuel S a b = Except.ok (a, S) := by
  cases fuel with
  | zero => simp only [solveLoop, if_neg hab]
  | succ n => simp only [solveLoop, if_neg hab]

/-- C17: for every position with `nbMoves() == 40`, both values of `weak` and every
    solver state (table included), `solve(P, weak)` returns 0. -/
theorem solve_full_board (S : Solver) (P : Position) (weak : Bool) (hn : P.nbMoves = 40) :
    ∃ S2, S.solve P weak = Except.ok (0, S2) := by
  by_cases hwin : P.canWinNext = true
  · refine ⟨S, ?_⟩
    unfold Solver.solve
    rw [if_pos hwin, hn]
    rfl
  · have hw : P.canWinNext = false := by simpa using hwin
    have hfuel : negamaxFuel P = 0 + 1 := by
      unfold negamaxFuel; rw [hn]; rfl
    unfold Solver.solve
    rw [if_neg hwin, hn]
    cases weak
    · refine ⟨S, ?_⟩
      exact solveLoop_done P _ S _ _ (by decide)
    · have m1 : solveMed (-1) 1 = 0 := by decide
      have m2 : solveMed (-1) 0 = -1 := by decide
      obtain ⟨S1, e1⟩ : ∃ S1, Solver.negamax (0 + 1) S P 0 (0 + 1) = Except.ok (0, S1) :=
        ⟨_, negamax_full 0 S P 0 (0 + 1) (by norm_num) hw (by omega)⟩
      obtain ⟨S2, e2⟩ : ∃ S2, Solver.negamax (0 + 1) S1 P (-1) (-1 + 1) = Except.ok (0, S2) :=
        ⟨_, negamax_full 0 S1 P (-1) (-1 + 1) (by norm_num) hw (by omega)⟩
      refine ⟨S2, ?_⟩
      show solveLoop P ((1 : Int) - (-1)).toNat S (-1) 1 = Except.ok (0, S2)
      have h2 : ((1 : Int) - (-1)).toNat = 1 + 1 := by decide
      rw [h2, solveLoop_succ P 1 S (-1) 1 (by decide), m1, hfuel, e1]
      show solveLoop P (0 + 1) S1 (-1) 0 = Except.ok (0, S2)
      rw [solveLoop_succ P 0 S1 (-1) 0 (by decide), m2, hfuel, e2]
      show solveLoop P 0 S2 0 0 = Except.ok (0, S2)
      exact solveLoop_done P 0 S2 0 0 (by decide)

/-- Witness for `solve_full_board`: a position whose counter is 40. -/
theorem solve_full_board_witness :
    ∃ S2, Solver.new.solve ⟨0, 0, 0, 40⟩ true = Except.ok (0, S2) :=
  solve_full_board Solver.new ⟨0, 0, 0, 40⟩ true (by decide)

/-! ## Reconstruction from a grid -/

theorem tokensBefore_succ (g : List (List Int)) (k : Nat) :
    tokensBefore g (k + 1) = tokensBefore g k + (if tokenAt g k then 1 else 0) := by
  unfold tokensBefore
  rw [Finset.range_succ, Finset.filter_insert]
  split_ifs with h
  · rw [Finset.card_insert_of_not_mem]
    intro hmem
    have := (Finset.mem_filter.1 hmem).1
    simp at this
  · rfl

theorem tokensBefore_le (g : List (List Int)) (k : Nat) : tokensBefore g k ≤ k := by
  unfold tokensBefore
  exact le_trans (Finset.card_filter_le _ _) (by simp)

theorem reconInv_zero (g : List (List Int)) (player : Int) : ReconInv g player 0 ⟨0, 0, 0⟩ := by
  refine ⟨fun i => ?_, fun i => ?_, ?_, ?_⟩
  · simp
  · simp
  · simp [tokensBefore]
  · simp [tokensBefore, popcount_zero]

theorem reconInv_step (g : List (List Int)) (player : Int) (r c : Nat) (hr : r < 6)
    (hc : c < 7) (st : ReconState) (h : ReconInv g player (r * 7 + c) st) :
    ReconInv g player (r * 7 + c + 1) (reconstructCell g player r c st) := by
  obtain ⟨hmask, hcur, hcount, hpop⟩ := h
  have hdiv : (r * 7 + c) / 7 = r := by omega
  have hmod : (r * 7 + c) % 7 = c := by omega
  have htok : tokenAt g (r * 7 + c) ↔ (gridCell g r c = 1 ∨ gridCell g r c = 2) := by
    unfold tokenAt; rw [hdiv, hmod]
  have hbit : ((c : Int) * (6 + 1) + ((6 - 1) - (r : Int))).toNat = c * 7 + (5 - r) := by omega
  have h64 : c * 7 + (5 - r) < 64 := by omega
  unfold reconstructCell
  by_cases ht : gridCell g r c = 1 ∨ gridCell g r c = 2
  · simp only [if_pos ht, hbit, shl64_one _ h64]
    have hnew : st.mask.testBit (c * 7 + (5 - r)) = false := by
      by_contra hn
      have hset : st.mask.testBit (c * 7 + (5 - r)) = true := by simpa using hn
      obtain ⟨j, hj, hji, _⟩ := (hmask _).1 hset
      omega
    refine ⟨fun i => ?_, fun i => ?_, ?_, ?_⟩
    · rw [Nat.testBit_or, Bool.or_eq_true, hmask, Nat.testBit_two_pow, decide_eq_true_eq]
      constructor
      · rintro (⟨j, hj, hji, hjt⟩ | hi)
        · exact ⟨j, by omega, hji, hjt⟩
        · exact ⟨r * 7 + c, by omega, by rw [hmod, hdiv]; exact hi.symm, htok.2 ht⟩
      · rintro ⟨j, hj, hji, hjt⟩
        by_cases hjk : j = r * 7 + c
        · right; rw [hji, hjk, hmod, hdiv]
        · left; exact ⟨j, by omega, hji, hjt⟩
    · by_cases hp : gridCell g r c = player
      · simp only [if_pos hp]
        rw [Nat.testBit_or, Bool.or_eq_true, hcur, Nat.testBit_two_pow, decide_eq_true_eq]
        constructor
        · rintro (⟨j, hj, hji, hjt, hjp⟩ | hi)
          · exact ⟨j, by omega, hji, hjt, hjp⟩
          · exact ⟨r * 7 + c, by omega, by rw [hmod, hdiv]; exact hi.symm, htok.2 ht,
              by rw [hdiv, hmod]; exact hp⟩
        · rintro ⟨j, hj, hji, hjt, hjp⟩
          by_cases hjk : j = r * 7 + c
          · right; rw [hji, hjk, hmod, hdiv]
          · left; exact ⟨j, by omega, hji, hjt, hjp⟩
      · simp only [if_neg hp]
        rw [hcur]
        constructor
        · rintro ⟨j, hj, hji, hjt, hjp⟩
          exact ⟨j, by omega, hji, hjt, hjp⟩
        · rintro ⟨j, hj, hji, hjt, hjp⟩
          by_cases hjk : j = r * 7 + c
          · rw [hjk, hdiv, hmod] at hjp; exact absurd hjp hp
          · exact ⟨j, by omega, hji, hjt, hjp⟩
    · rw [tokensBefore_succ, if_pos (htok.2 ht), hcount]; push_cast; ring
    · rw [tokensBefore_succ, if_pos (htok.2 ht), popcount_or_two_pow _ _ hnew h64, hpop]
  · simp only [if_neg ht]
    have hnt : ¬ tokenAt g (r * 7 + c) := fun h => ht (htok.1 h)
    refine ⟨fun i => ?_, fun i => ?_, ?_, ?_⟩
    · rw [hmask]
      constructor
      · rintro ⟨j, hj, hji, hjt⟩; exact ⟨j, by omega, hji, hjt⟩
      · rintro ⟨j, hj, hji, hjt⟩
        by_cases hjk : j = r * 7 + c
        · rw [hjk] at hjt; exact absurd hjt hnt
        · exact ⟨j, by omega, hji, hjt⟩
    · rw [hcur]
      constructor
      · rintro ⟨j, hj, hji, hjt, hjp⟩; exact ⟨j, by omega, hji, hjt, hjp⟩
      · rintro ⟨j, hj, hji, hjt, hjp⟩
        by_cases hjk : j = r * 7 + c
        · rw [hjk] at hjt; exact absurd hjt hnt
        · exact ⟨j, by omega, hji, hjt, hjp⟩
    · rw [tokensBefore_succ, if_neg hnt, hcount]; simp
    · rw [tokensBefore_succ, if_neg hnt, hpop]; simp

theorem reconInv_row (g : List (List Int)) (player : Int) (r : Nat) (hr : r < 6) :
    ∀ (fuel c : Nat) (st : ReconState), c + fuel = 7 → ReconInv g player (r * 7 + c) st →
      ReconInv g player (r * 7 + 7) (reconstructRow g player r fuel c st) := by
  intro fuel
  induction fuel with
  | zero =>
    intro c st hc h
    have : c = 7 := by omega
    subst this
    exact h
  | succ fuel ih =>
    intro c st hc h
    simp only [reconstructRow]
    exact ih (c + 1) _ (by omega) (reconInv_step g player r c hr (by omega) st h)

theorem reconInv_rows (g : List (List Int)) (player : Int) :
    ∀ (fuel r : Nat) (st : ReconState), r + fuel = 6 → ReconInv g player (r * 7) st →
      ReconInv g player 42 (reconstructRows g player fuel r st) := by
  intro fuel
  induction fuel with
  | zero =>
    intro r st hr h
    have : r = 6 := by omega
    subst this
    exact h
  | succ fuel ih =>
    intro r st hr h
    simp only [reconstructRows]
    have hrow := reconInv_row g player r (by omega) WIDTH 0 st (by simp [WIDTH])
      (by simpa using h)
    exact ih (r + 1) _ (by omega) (by
      have e : (r + 1) * 7 = r * 7 + 7 := by ring
      rw [e]; exact hrow)

/-- What `reconstructBoardState` leaves in the loop variables. -/
theorem reconInv_final (g : List (List Int)) (player : Int) :
    ReconInv g player 42 (reconstructRows g player HEIGHT 0 ⟨0, 0, 0⟩) :=
  reconInv_rows g player HEIGHT 0 _ (by simp [HEIGHT]) (by simpa using reconInv_zero g player)

/-- The cells of the row-by-row enumeration, by row and column. -/
theorem exists_cell_iff (X : Nat → Nat → Prop) (i : Nat) :
    (∃ j, j < 42 ∧ i = (j % 7) * 7 + (5 - j / 7) ∧ X (j / 7) (j % 7)) ↔
      ∃ r c, r < 6 ∧ c < 7 ∧ i = c * 7 + (5 - r) ∧ X r c := by
  constructor
  · rintro ⟨j, hj, hi, hX⟩
    exact ⟨j / 7, j % 7, by omega, by omega, hi, hX⟩
  · rintro ⟨r, c, hr, hc, hi, hX⟩
    have hdiv : (r * 7 + c) / 7 = r := by omega
    have hmod : (r * 7 + c) % 7 = c := by omega
    refine ⟨r * 7 + c, by omega, ?_, ?_⟩
    · rw [hdiv, hmod]; exact hi
    · rw [hdiv, hmod]; exact hX

theorem reconstruct_mask_testBit (P : Position) (g : List (List Int)) (side : Int) (i : Nat) :
    (P.reconstructBoardState g side).mask.testBit i = true ↔
      ∃ r c, r < 6 ∧ c < 7 ∧ i = c * 7 + (5 - r) ∧ (gridCell g r c = 1 ∨ gridCell g r c = 2) := by
  have h := (reconInv_final g side).1 i
  rw [← exists_cell_iff (fun r c => gridCell g r c = 1 ∨ gridCell g r c = 2)]
  exact h

theorem reconstruct_current_testBit (P : Position) (g : List (List Int)) (side : Int)
    (i : Nat) :
    (P.reconstructBoardState g side).current_position.testBit i = true ↔
      ∃ r c, r < 6 ∧ c < 7 ∧ i = c * 7 + (5 - r) ∧
        ((gridCell g r c = 1 ∨ gridCell g r c = 2) ∧ gridCell g r c = side) := by
  have h := (reconInv_final g side).2.1 i
  rw [← exists_cell_iff
    (fun r c => (gridCell g r c = 1 ∨ gridCell g r c = 2) ∧ gridCell g r c = side)]
  exact h

theorem reconstruct_moves (P : Position) (g : List (List Int)) (side : Int) :
    (P.reconstructBoardState g side).moves_ = tokensBefore g 42 ∧
    (P.reconstructBoardState g side).moves_ = popcount (P.reconstructBoardState g side).mask := by
  obtain ⟨_, _, hcount, hpop⟩ := reconInv_final g side
  have hle := tokensBefore_le g 42
  have hm : (P.reconstructBoardState g side).moves_ = tokensBefore g 42 := by
    show ((reconstructRows g side HEIGHT 0 ⟨0, 0, 0⟩).piece_count % 2 ^ 32).toNat = _
    rw [hcount]
    omega
  refine ⟨hm, ?_⟩
  rw [hm]
  exact hpop.symm

/-- C12: for every 6x7 grid and every side in {1, 2}, after
    `reconstructBoardState(grid, side)` the word `mask` is exactly the set of bits
    `c*7 + (5 - r)` of the cells `(r, c)` whose value is 1 or 2, `current_position` is
    exactly the subset of those whose value equals `side`, `nbMoves()` is the number of
    such cells and equals `popcount(mask)`, and `blocked_cells` is unchanged.  No parity
    condition relates `side` to the number of tokens: the designated side is used. -/
theorem reconstructBoardState_spec (P : Position) (g : List (List Int)) (side : Int)
    (_hgrid : isGrid g) (_hside : side = 1 ∨ side = 2) :
    (∀ i, (P.reconstructBoardState g side).mask.testBit i = true ↔
      ∃ r c, r < 6 ∧ c < 7 ∧ i = c * 7 + (5 - r) ∧
        (gridCell g r c = 1 ∨ gridCell g r c = 2)) ∧
    (∀ i, (P.reconstructBoardState g side).current_position.testBit i = true ↔
      ∃ r c, r < 6 ∧ c < 7 ∧ i = c * 7 + (5 - r) ∧
        ((gridCell g r c = 1 ∨ gridCell g r c = 2) ∧ gridCell g r c = side)) ∧
    (P.reconstructBoardState g side).nbMoves = (tokensBefore g 42 : Int) ∧
    (P.reconstructBoardState g side).nbMoves =
      (popcount (P.reconstructBoardState g side).mask : Int) ∧
    (P.reconstructBoardState g side).blocked_cells = P.blocked_cells := by
  obtain ⟨hm1, hm2⟩ := reconstruct_moves P g side
  have hle := tokensBefore_le g 42
  have hnb : (P.reconstructBoardState g side).nbMoves = (tokensBefore g 42 : Int) := by
    rw [nbMoves_of_small (by rw [hm1]; omega), hm1]
  refine ⟨reconstruct_mask_testBit P g side, reconstruct_current_testBit P g side, hnb, ?_,
    rfl⟩
  rw [hnb, ← hm2, hm1]

/-- Witness for `reconstructBoardState_spec`: one token of player 1 in the bottom row,
    player 1 designated although the count is odd. -/
theorem reconstructBoardState_spec_witness :
    ((Position.new4 2 2 3 4).reconstructBoardState
        [[0, 0, 0, 0, 0, 0, 0], [0, 0, 0, 0, 0, 0, 0], [0, 0, 0, 0, 0, 0, 0],
          [0, 0, 0, 0, 0, 0, 0], [0, 0, 0, 0, 0, 0, 0], [0, 0, 0, 1, 0, 0, 0]] 1).nbMoves =
      (tokensBefore
        [[0, 0, 0, 0, 0, 0, 0], [0, 0, 0, 0, 0, 0, 0], [0, 0, 0, 0, 0, 0, 0],
          [0, 0, 0, 0, 0, 0, 0], [0, 0, 0, 0, 0, 0, 0], [0, 0, 0, 1, 0, 0, 0]] 42 : Int) :=
  (reconstructBoardState_spec (Position.new4 2 2 3 4)
    [[0, 0, 0, 0, 0, 0, 0], [0, 0, 0, 0, 0, 0, 0], [0, 0, 0, 0, 0, 0, 0],
      [0, 0, 0, 0, 0, 0, 0], [0, 0, 0, 0, 0, 0, 0], [0, 0, 0, 1, 0, 0, 0]] 1
    (by decide) (by decide)).2.2.1

/-- C13, as stated, fails: on `Position(2, 2, 3, 4)` a grid over {0, 1, 2} with a token
    on the removed cell (row 2, column 2) is rebuilt with that blocked cell occupied. -/
theorem reconstruct_occupies_blocked_cell :
    ((Position.new4 2 2 3 4).reconstructBoardState
        [[0, 0, 0, 0, 0, 0, 0], [0, 0, 0, 0, 0, 0, 0], [0, 0, 1, 0, 0, 0, 0],
          [0, 0, 0, 0, 0, 0, 0], [0, 0, 0, 0, 0, 0, 0], [0, 0, 0, 0, 0, 0, 0]] 2).mask &&&
      ((Position.new4 2 2 3 4).reconstructBoardState
        [[0, 0, 0, 0, 0, 0, 0], [0, 0, 0, 0, 0, 0, 0], [0, 0, 1, 0, 0, 0, 0],
          [0, 0, 0, 0, 0, 0, 0], [0, 0, 0, 0, 0, 0, 0], [0, 0, 0, 0, 0, 0, 0]]
        2).blocked_cells ≠ 0 := by
  decide

/-- C13, amended: for a position built by `Position(row1, col1, row2, col2)` and then
    `reconstructBoardState(grid, side)` with a 6x7 grid over {0, 1, 2} and a side in
    {1, 2}, `mask & blocked_cells == 0` holds if and only if the grid has no 1 or 2 on a
    removed cell, i.e. on `(row1, col1)` or `(row2, col2)` when that pair lies in the
    grid. -/
theorem reconstruct_mask_blocked_iff (row1 col1 row2 col2 : Int) (g : List (List Int))
    (side : Int) (_hgrid : isGrid g)
    (_hvals : ∀ r c, r < 6 → c < 7 → gridCell g r c = 0 ∨ gridCell g r c = 1 ∨ gridCell g r c = 2)
    (_hside : side = 1 ∨ side = 2) :
    ((Position.new4 row1 col1 row2 col2).reconstructBoardState g side).mask &&&
        ((Position.new4 row1 col1 row2 col2).reconstructBoardState g side).blocked_cells = 0 ↔
      ((cellInRange row1 col1 = true →
          ¬ (gridCell g row1.toNat col1.toNat = 1 ∨ gridCell g row1.toNat col1.toNat = 2)) ∧
        (cellInRange row2 col2 = true →
          ¬ (gridCell g row2.toNat col2.toNat = 1 ∨ gridCell g row2.toNat col2.toNat = 2))) := by
  rw [and_eq_zero_iff_testBit]
  have hblk : ((Position.new4 row1 col1 row2 col2).reconstructBoardState g side).blocked_cells =
      (Position.new4 row1 col1 row2 col2).blocked_cells := rfl
  rw [hblk]
  constructor
  · intro h
    constructor
    · intro hv htok
      have r1 := (cellInRange_iff _ _).1 hv
      apply h (col1.toNat * 7 + (5 - row1.toNat))
      refine ⟨(reconstruct_mask_testBit _ g side _).2
        ⟨row1.toNat, col1.toNat, by omega, by omega, rfl, htok⟩, ?_⟩
      rw [new4_blocked_testBit]
      exact Or.inl ⟨r1.1, r1.2.1, r1.2.2.1, r1.2.2.2, by omega⟩
    · intro hv htok
      have r2 := (cellInRange_iff _ _).1 hv
      apply h (col2.toNat * 7 + (5 - row2.toNat))
      refine ⟨(reconstruct_mask_testBit _ g side _).2
        ⟨row2.toNat, col2.toNat, by omega, by omega, rfl, htok⟩, ?_⟩
      rw [new4_blocked_testBit]
      exact Or.inr ⟨r2.1, r2.2.1, r2.2.2.1, r2.2.2.2, by omega⟩
  · rintro ⟨h1, h2⟩ i ⟨hm, hb⟩
    obtain ⟨r, c, hr, hc, hi, htok⟩ := (reconstruct_mask_testBit _ g side i).1 hm
    rw [new4_blocked_testBit] at hb
    rcases hb with ⟨a1, a2, a3, a4, a5⟩ | ⟨a1, a2, a3, a4, a5⟩
    · have hrr : row1.toNat = r := by omega
      have hcc : col1.toNat = c := by omega
      apply h1 ((cellInRange_iff _ _).2 ⟨a1, a2, a3, a4⟩)
      rw [hrr, hcc]; exact htok
    · have hrr : row2.toNat = r := by omega
      have hcc : col2.toNat = c := by omega
      apply h2 ((cellInRange_iff _ _).2 ⟨a1, a2, a3, a4⟩)
      rw [hrr, hcc]; exact htok

/-- Witness for `reconstruct_mask_blocked_iff`: `Position(2, 2, 3, 4)` and a grid whose
    only token is in the bottom row. -/
theorem reconstruct_mask_blocked_iff_witness :
    ((Position.new4 2 2 3 4).reconstructBoardState
        [[0, 0, 0, 0, 0, 0, 0], [0, 0, 0, 0, 0, 0, 0], [0, 0, 0, 0, 0, 0, 0],
          [0, 0, 0, 0, 0, 0, 0], [0, 0, 0, 0, 0, 0, 0], [0, 0, 0, 1, 0, 0, 0]] 2).mask &&&
      ((Position.new4 2 2 3 4).reconstructBoardState
        [[0, 0, 0, 0, 0, 0, 0], [0, 0, 0, 0, 0, 0, 0], [0, 0, 0, 0, 0, 0, 0],
          [0, 0, 0, 0, 0, 0, 0], [0, 0, 0, 0, 0, 0, 0], [0, 0, 0, 1, 0, 0, 0]]
        2).blocked_cells = 0 :=
  (reconstruct_mask_blocked_iff 2 2 3 4
    [[0, 0, 0, 0, 0, 0, 0], [0, 0, 0, 0, 0, 0, 0], [0, 0, 0, 0, 0, 0, 0],
      [0, 0, 0, 0, 0, 0, 0], [0, 0, 0, 0, 0, 0, 0], [0, 0, 0, 1, 0, 0, 0]] 2
    (by decide)
    (by
      intro r c hr hc
      interval_cases r <;> interval_cases c <;> decide)
    (by decide)).2 (by decide)

theorem position_eq_of_fields {A B : Position}
    (h1 : A.current_position = B.current_position) (h2 : A.mask = B.mask)
    (h3 : A.blocked_cells = B.blocked_cells) (h4 : A.moves_ = B.moves_) : A = B := by
  cases A; cases B
  simp only [Position.mk.injEq]
  exact ⟨h1, h2, h3, h4⟩

/-- The entry that `positionToVector` writes for the cell `(r, c)` of the grid. -/
theorem positionToVector_cell (P : Position) (r c : Nat) (hr : r < 6) (hc : c < 7) :
    gridCell (positionToVector P) r c =
      if P.blocked_cells.testBit (c * 7 + (5 - r)) = true then -1
      else if (if P.nbMoves.tmod 2 = 0 then P.current_position
          else P.mask ^^^ P.current_position).testBit (c * 7 + (5 - r)) = true then 1
      else if (if P.nbMoves.tmod 2 = 0 then P.mask ^^^ P.current_position
          else P.current_position).testBit (c * 7 + (5 - r)) = true then 2
      else 0 := by
  have hbit : ((c : Int) * (6 + 1) + (6 - 1 - (r : Int))).toNat = c * 7 + (5 - r) := by omega
  have h64 : c * 7 + (5 - r) < 64 := by omega
  unfold gridCell positionToVector
  simp only [HEIGHT, WIDTH, List.getD_eq_getElem?_getD, List.getElem?_map, List.getElem?_range hr,
    List.getElem?_range hc, Option.map_some', Option.getD_some, hbit, shl64_one _ h64,
    and_two_pow_ne_zero_iff]

/-- C11: for a position `P` satisfying the invariants, rebuilding from
    `positionToVector(P)` with side 1 when `nbMoves` is even and 2 otherwise, on a
    position `Q` that has the blocked cells of `P`, gives `P` back: the same
    `current_position`, `mask` and `nbMoves` (and blocked cells). -/
theorem reconstruct_positionToVector (P Q : Position) (hinv : P.Inv)
    (hQ : Q.blocked_cells = P.blocked_cells) :
    (Q.reconstructBoardState (positionToVector P)
        (if P.nbMoves % 2 = 0 then 1 else 2)).current_position = P.current_position ∧
    (Q.reconstructBoardState (positionToVector P)
        (if P.nbMoves % 2 = 0 then 1 else 2)).mask = P.mask ∧
    (Q.reconstructBoardState (positionToVector P)
        (if P.nbMoves % 2 = 0 then 1 else 2)).nbMoves = P.nbMoves ∧
    Q.reconstructBoardState (positionToVector P) (if P.nbMoves % 2 = 0 then 1 else 2) = P := by
  obtain ⟨hdis, hmoves, hsub, hcur, hmask, _⟩ := hinv
  have hdis2 := (and_eq_zero_iff_testBit _ _).1 hdis
  have hsub2 := (and_eq_left_iff_testBit _ _).1 hsub
  have hsmall : P.moves_ < 2 ^ 31 := by
    have : popcount P.mask ≤ 64 := popcountBelow_le _ _
    omega
  have hnb : P.nbMoves = (P.moves_ : Int) := nbMoves_of_small hsmall
  have hpar : (P.nbMoves.tmod 2 = 0) ↔ (P.nbMoves % 2 = 0) := by
    rw [hnb, Int.tmod_eq_emod (by omega) (by norm_num)]
  -- how a cell of the grid relates to the bits of `P`
  have hcell : ∀ r c, r < 6 → c < 7 →
      (((gridCell (positionToVector P) r c = 1 ∨ gridCell (positionToVector P) r c = 2) ↔
          P.mask.testBit (c * 7 + (5 - r)) = true) ∧
        (((gridCell (positionToVector P) r c = 1 ∨ gridCell (positionToVector P) r c = 2) ∧
            gridCell (positionToVector P) r c = (if P.nbMoves % 2 = 0 then 1 else 2)) ↔
          P.current_position.testBit (c * 7 + (5 - r)) = true)) := by
    intro r c hr hc
    rw [positionToVector_cell P r c hr hc]
    have hd := hdis2 (c * 7 + (5 - r))
    have hs := hsub2 (c * 7 + (5 - r))
    by_cases hev : P.nbMoves % 2 = 0
    · have hev2 := hpar.2 hev
      simp only [if_pos hev, if_pos hev2, Nat.testBit_xor]
      cases hB : P.blocked_cells.testBit (c * 7 + (5 - r)) <;>
        cases hM : P.mask.testBit (c * 7 + (5 - r)) <;>
        cases hC : P.current_position.testBit (c * 7 + (5 - r)) <;>
        simp_all
    · have hev2 : ¬ P.nbMoves.tmod 2 = 0 := fun h => hev (hpar.1 h)
      simp only [if_neg hev, if_neg hev2, Nat.testBit_xor]
      cases hB : P.blocked_cells.testBit (c * 7 + (5 - r)) <;>
        cases hM : P.mask.testBit (c * 7 + (5 - r)) <;>
        cases hC : P.current_position.testBit (c * 7 + (5 - r)) <;>
        simp_all
  -- every cell `i` is `c*7 + (5 - r)` for one `(r, c)`
  have hdecomp : ∀ i, isCell i → ∃ r c, r < 6 ∧ c < 7 ∧ i = c * 7 + (5 - r) := by
    intro i hi
    have := (isCell_iff i).1 hi
    exact ⟨5 - i % 7, i / 7, by omega, by omega, by omega⟩
  have hM : (Q.reconstructBoardState (positionToVector P)
      (if P.nbMoves % 2 = 0 then 1 else 2)).mask = P.mask := by
    apply Nat.eq_of_testBit_eq
    intro i
    rw [Bool.eq_iff_iff, reconstruct_mask_testBit]
    constructor
    · rintro ⟨r, c, hr, hc, hi, htok⟩
      rw [hi]; exact ((hcell r c hr hc).1).1 htok
    · intro hi
      obtain ⟨r, c, hr, hc, hrc⟩ := hdecomp i (hmask i hi)
      refine ⟨r, c, hr, hc, hrc, ((hcell r c hr hc).1).2 ?_⟩
      rw [← hrc]; exact hi
  have hC : (Q.reconstructBoardState (positionToVector P)
      (if P.nbMoves % 2 = 0 then 1 else 2)).current_position = P.current_position := by
    apply Nat.eq_of_testBit_eq
    intro i
    rw [Bool.eq_iff_iff, reconstruct_current_testBit]
    constructor
    · rintro ⟨r, c, hr, hc, hi, htok⟩
      rw [hi]; exact ((hcell r c hr hc).2).1 htok
    · intro hi
      obtain ⟨r, c, hr, hc, hrc⟩ := hdecomp i (hcur i hi)
      refine ⟨r, c, hr, hc, hrc, ((hcell r c hr hc).2).2 ?_⟩
      rw [← hrc]; exact hi
  have hmv : (Q.reconstructBoardState (positionToVector P)
      (if P.nbMoves % 2 = 0 then 1 else 2)).moves_ = P.moves_ := by
    rw [(reconstruct_moves Q _ _).2, hM, hmoves]
  refine ⟨hC, hM, ?_, ?_⟩
  · exact congrArg toInt32 hmv
  · have hB : (Q.reconstructBoardState (positionToVector P)
        (if P.nbMoves % 2 = 0 then 1 else 2)).blocked_cells = P.blocked_cells := hQ
    exact position_eq_of_fields hC hM hB hmv

/-- Witness for `reconstruct_positionToVector`: the position after columns 3, 2, 3 on the
    board with holes at (row 2, col 2) and (row 3, col 4), rebuilt on the empty board with
    the same holes. -/
theorem reconstruct_positionToVector_witness :
    (Position.new4 2 2 3 4).reconstructBoardState
        (positionToVector ⟨16384, 6307840, 1073872896, 3⟩)
        (if (⟨16384, 6307840, 1073872896, 3⟩ : Position).nbMoves % 2 = 0 then 1 else 2) =
      ⟨16384, 6307840, 1073872896, 3⟩ :=
  (reconstruct_positionToVector ⟨16384, 6307840, 1073872896, 3⟩ (Position.new4 2 2 3 4)
    ⟨by decide, by decide, by decide, onBoard_of_bounded _ (by decide) (by decide),
      onBoard_of_bounded _ (by decide) (by decide),
      onBoard_of_bounded _ (by decide) (by decide)⟩
    (by decide)).2.2.2

/-! ## The engine returns -/

theorem put_bytes (T : TranspositionTable) (key : Nat) (value : Int) (h : T.bytes) :
    (T.put key value).bytes := by
  intro i
  simp only [TranspositionTable.put]
  split_ifs
  · omega
  · exact h i

theorem get_lt_of_bytes (T : TranspositionTable) (key : Nat) (h : T.bytes) : T.get key < 256 := by
  simp only [TranspositionTable.get]
  split_ifs
  · exact h _
  · norm_num

/-- The `while` loop of `negamax` runs to its end when the recursive calls it makes do,
    and keeps its result within `[-199, 199]` when they do. -/
theorem expandMoves_ok
    (recurse : Solver → Position → Int → Int → Except Abort (Int × Solver))
    (P : Position) (key : Nat) (beta mn : Int) (G : Prop)
    (hrec : ∀ S m a b, a < b → (P.play m).canWinNext = false →
      ∃ v S2, recurse S (P.play m) a b = Except.ok (v, S2) ∧
        (G → S.transTable.bytes → S2.transTable.bytes ∧ -199 ≤ v ∧ v ≤ 199)) :
    ∀ (moves : List (Nat × Int)) (S : Solver) (alpha best found : Int),
      alpha < beta → 0 ≤ found → (found = 0 → best = INT_MIN) →
      ∃ v S2, expandMoves recurse P key beta mn moves S alpha best found = Except.ok (v, S2) ∧
        (G → S.transTable.bytes → (-199 ≤ mn ∧ mn ≤ 199) →
          (∀ m, -199 ≤ (7 * 6 - 2 + 1 - (P.play m).nbMoves).tdiv 2 ∧
            (7 * 6 - 2 + 1 - (P.play m).nbMoves).tdiv 2 ≤ 199) →
          (found ≠ 0 → -199 ≤ best ∧ best ≤ 199) →
          S2.transTable.bytes ∧ -199 ≤ v ∧ v ≤ 199) := by
  intro moves
  induction moves with
  | nil =>
    intro S alpha best found _ _ _
    simp only [expandMoves]
    by_cases hf : found = 0
    · rw [if_pos hf]
      exact ⟨_, _, rfl, fun _ hS hmn _ _ => ⟨hS, hmn⟩⟩
    · rw [if_neg hf]
      exact ⟨_, _, rfl, fun _ hS _ _ hb => ⟨put_bytes _ _ _ hS, hb hf⟩⟩
  | cons mv rest ih =>
    intro S alpha best found hab hfound hbest0
    obtain ⟨m, sc⟩ := mv
    simp only [expandMoves]
    by_cases hm0 : m = 0
    · rw [if_pos hm0]
      by_cases hf : found = 0
      · rw [if_pos hf]
        exact ⟨_, _, rfl, fun _ hS hmn _ _ => ⟨hS, hmn⟩⟩
      · rw [if_neg hf]
        exact ⟨_, _, rfl, fun _ hS _ _ hb => ⟨put_bytes _ _ _ hS, hb hf⟩⟩
    · rw [if_neg hm0]
      -- the value of the move and the solver after evaluating it
      have heval : ∃ s S1,
          (if (P.play m).canWinNext = true then
              (Except.ok (-((7 * 6 - 2 + 1 - (P.play m).nbMoves).tdiv 2), S) :
                Except Abort (Int × Solver))
            else
              match recurse S (P.play m) (-beta) (-alpha) with
              | Except.ok (v, S2) => Except.ok (-v, S2)
              | Except.error e => Except.error e) = Except.ok (s, S1) ∧
          (G → S.transTable.bytes →
            (∀ m, -199 ≤ (7 * 6 - 2 + 1 - (P.play m).nbMoves).tdiv 2 ∧
              (7 * 6 - 2 + 1 - (P.play m).nbMoves).tdiv 2 ≤ 199) →
            S1.transTable.bytes ∧ -199 ≤ s ∧ s ≤ 199) := by
        by_cases hwin : (P.play m).canWinNext = true
        · rw [if_pos hwin]
          refine ⟨_, _, rfl, fun _ hS hl => ⟨hS, ?_, ?_⟩⟩
          · have := hl m; omega
          · have := hl m; omega
        · rw [if_neg hwin]
          obtain ⟨v, S2, hv, hprop⟩ := hrec S m (-beta) (-alpha) (by omega) (by simpa using hwin)
          rw [hv]
          refine ⟨-v, S2, rfl, fun hG hS _ => ?_⟩
          have := hprop hG hS
          exact ⟨this.1, by omega, by omega⟩
      obtain ⟨s, S1, hs, hsprop⟩ := heval
      rw [hs]
      simp only []
      by_cases hcut : s ≥ beta
      · rw [if_pos hcut]
        refine ⟨_, _, rfl, fun hG hS _ hl hb => ?_⟩
        have hs1 := hsprop hG hS hl
        refine ⟨put_bytes _ _ _ hs1.1, ?_⟩
        by_cases hf : found = 0
        · rw [if_pos (Or.inl (hbest0 hf))]; exact hs1.2
        · split_ifs
          · exact hs1.2
          · exact hb hf
      · rw [if_neg hcut]
        obtain ⟨v, S2, hv, hvprop⟩ := ih S1 (if s > alpha then s else alpha)
          (if best = INT_MIN ∨ s > best then s else best) (found + 1)
          (by split_ifs <;> omega) (by omega) (by intro h; omega)
        refine ⟨v, S2, hv, fun hG hS hmn hl hb => ?_⟩
        have hs1 := hsprop hG hS hl
        apply hvprop hG hs1.1 hmn hl
        intro _
        by_cases hf : found = 0
        · rw [if_pos (Or.inl (hbest0 hf))]; exact hs1.2
        · split_ifs
          · exact hs1.2
          · exact hb hf

theorem MIN_SCORE_eq : MIN_SCORE = -18 := by decide

theorem MAX_SCORE_eq : MAX_SCORE = 18 := by decide

/-- The table probe of `negamax` and the search behind it run to their end when the
    recursive calls do. -/
theorem negamaxProbe_ok
    (recurse : Solver → Position → Int → Int → Except Abort (Int × Solver))
    (S : Solver) (P : Position) (key : Nat) (mn alpha beta : Int) (G : Prop)
    (hrec : ∀ S m a b, a < b → (P.play m).canWinNext = false →
      ∃ v S2, recurse S (P.play m) a b = Except.ok (v, S2) ∧
        (G → S.transTable.bytes → S2.transTable.bytes ∧ -199 ≤ v ∧ v ≤ 199))
    (hab : alpha < beta) :
    ∃ v S2, negamaxProbe recurse S P key mn alpha beta = Except.ok (v, S2) ∧
      (G → S.transTable.bytes → (-199 ≤ mn ∧ mn ≤ 199) →
        (∀ m, -199 ≤ (7 * 6 - 2 + 1 - (P.play m).nbMoves).tdiv 2 ∧
          (7 * 6 - 2 + 1 - (P.play m).nbMoves).tdiv 2 ≤ 199) →
        S2.transTable.bytes ∧ -199 ≤ v ∧ v ≤ 199) := by
  have hsearch : ∀ a b : Int, a < b →
      ∃ v S2, expandMoves recurse P key b mn
          (fillSorter P P.getNonLosingPlayableCols S.columnOrder MoveSorter.empty).entries
          S a INT_MIN 0 = Except.ok (v, S2) ∧
        (G → S.transTable.bytes → (-199 ≤ mn ∧ mn ≤ 199) →
          (∀ m, -199 ≤ (7 * 6 - 2 + 1 - (P.play m).nbMoves).tdiv 2 ∧
            (7 * 6 - 2 + 1 - (P.play m).nbMoves).tdiv 2 ≤ 199) →
          S2.transTable.bytes ∧ -199 ≤ v ∧ v ≤ 199) := by
    intro a b hab2
    obtain ⟨v, S2, hv, hp⟩ := expandMoves_ok recurse P key b mn G hrec _ S a INT_MIN 0 hab2
      (le_refl _) (fun _ => rfl)
    exact ⟨v, S2, hv, fun hG hS hmn hl => hp hG hS hmn hl (fun h => absurd rfl h)⟩
  simp only [negamaxProbe, MIN_SCORE_eq, MAX_SCORE_eq]
  by_cases hval : ((S.transTable.get key : Nat) : Int) ≠ 0
  · rw [if_pos hval]
    by_cases hlow : ((S.transTable.get key : Nat) : Int) > 18 - -18 + 1
    · rw [if_pos hlow]
      by_cases h1 : alpha < ((S.transTable.get key : Nat) : Int) + 2 * -18 - 18 - 2
      · rw [if_pos h1]
        by_cases h2 : ((S.transTable.get key : Nat) : Int) + 2 * -18 - 18 - 2 ≥ beta
        · rw [if_pos h2]
          refine ⟨_, _, rfl, fun _ hS _ _ => ⟨hS, ?_, ?_⟩⟩
          · omega
          · have := get_lt_of_bytes _ key hS; omega
        · rw [if_neg h2]
          exact hsearch _ _ (by omega)
      · rw [if_neg h1]
        exact hsearch _ _ hab
    · rw [if_neg hlow]
      by_cases h1 : beta > ((S.transTable.get key : Nat) : Int) + -18 - 1
      · rw [if_pos h1]
        by_cases h2 : alpha ≥ ((S.transTable.get key : Nat) : Int) + -18 - 1
        · rw [if_pos h2]
          refine ⟨_, _, rfl, fun _ hS _ _ => ⟨hS, ?_, ?_⟩⟩
          · omega
          · omega
        · rw [if_neg h2]
          exact hsearch _ _ (by omega)
      · rw [if_neg h1]
        exact hsearch _ _ hab
  · rw [if_neg hval]
    exact hsearch _ _ hab

theorem nbMoves_play (P : Position) (m : Nat) (h : P.nbMoves < 2147483647) :
    (P.play m).nbMoves = P.nbMoves + 1 := by
  unfold Position.nbMoves Position.play toInt32 at *
  simp only at *
  have h1 : P.moves_ % 2 ^ 32 < 2 ^ 32 := Nat.mod_lt _ (by norm_num)
  by_cases h2 : P.moves_ % 2 ^ 32 < 2 ^ 31
  · rw [if_pos h2] at h ⊢
    have h3 : (P.moves_ + 1) % 2 ^ 32 % 2 ^ 32 = P.moves_ % 2 ^ 32 + 1 := by omega
    rw [h3, if_pos (by omega)]
    push_cast; ring
  · rw [if_neg h2] at h ⊢
    by_cases h4 : P.moves_ % 2 ^ 32 = 2 ^ 32 - 1
    · have h3 : (P.moves_ + 1) % 2 ^ 32 % 2 ^ 32 = 0 := by omega
      rw [h3, h4]; norm_num
    · have h3 : (P.moves_ + 1) % 2 ^ 32 % 2 ^ 32 = P.moves_ % 2 ^ 32 + 1 := by omega
      rw [h3, if_neg (by omega)]
      push_cast; ring

/-- A call of `negamax` that satisfies its two assertions returns a value, given the
    depth budget `negamaxFuel`; on a position with a non-negative counter and a table of
    bytes the value lies in `[-199, 199]` and the table is still one of bytes. -/
theorem negamax_ok :
    ∀ (fuel : Nat) (S : Solver) (P : Position) (alpha beta : Int),
      alpha < beta → P.canWinNext = false → negamaxFuel P ≤ fuel →
      ∃ v S2, Solver.negamax fuel S P alpha beta = Except.ok (v, S2) ∧
        (S.transTable.bytes → 0 ≤ P.nbMoves →
          S2.transTable.bytes ∧ -199 ≤ v ∧ v ≤ 199) := by
  intro fuel
  induction fuel with
  | zero =>
    intro S P alpha beta _ _ hfuel
    unfold negamaxFuel at hfuel
    omega
  | succ fuel ih =>
    intro S P alpha beta hab hwin hfuel
    by_cases hfull : 40 ≤ P.nbMoves
    · rw [negamax_full fuel S P alpha beta hab hwin hfull]
      exact ⟨_, _, rfl, fun hS _ => ⟨hS, by norm_num, by norm_num⟩⟩
    · have hn : P.nbMoves < 40 := by omega
      have hrec : ∀ S m a b, a < b → (P.play m).canWinNext = false →
          ∃ v S2, Solver.negamax fuel S (P.play m) a b = Except.ok (v, S2) ∧
            (S.transTable.bytes → 0 ≤ P.nbMoves → S2.transTable.bytes ∧ -199 ≤ v ∧ v ≤ 199) := by
        intro S1 m a b hab1 hwin1
        have hf : negamaxFuel (P.play m) ≤ fuel := by
          unfold negamaxFuel at hfuel ⊢
          rw [nbMoves_play P m (by omega)]
          omega
        obtain ⟨v, S2, hv, hp⟩ := ih S1 (P.play m) a b hab1 hwin1 hf
        exact ⟨v, S2, hv, fun hS hP => hp hS (by rw [nbMoves_play P m (by omega)]; omega)⟩
      have hmn : 0 ≤ P.nbMoves → (-199 ≤ (-(7 * 6 - 2 - P.nbMoves)).tdiv 2 ∧
          (-(7 * 6 - 2 - P.nbMoves)).tdiv 2 ≤ 199) := by
        intro h0
        have e : (-(7 * 6 - 2 - P.nbMoves)).tdiv 2 = -((7 * 6 - 2 - P.nbMoves) / 2) := by
          rw [Int.neg_tdiv, Int.tdiv_eq_ediv (by omega) (by norm_num)]
        rw [e]; omega
      have hmx : 0 ≤ P.nbMoves → (-199 ≤ (7 * 6 - 2 + 1 - P.nbMoves).tdiv 2 ∧
          (7 * 6 - 2 + 1 - P.nbMoves).tdiv 2 ≤ 199) := by
        intro h0
        rw [Int.tdiv_eq_ediv (by omega) (by norm_num)]; omega
      have hl : 0 ≤ P.nbMoves → ∀ m, -199 ≤ (7 * 6 - 2 + 1 - (P.play m).nbMoves).tdiv 2 ∧
          (7 * 6 - 2 + 1 - (P.play m).nbMoves).tdiv 2 ≤ 199 := by
        intro h0 m
        rw [nbMoves_play P m (by omega), Int.tdiv_eq_ediv (by omega) (by norm_num)]; omega
      have hprobe : ∀ a b : Int, a < b →
          ∃ v S2, negamaxProbe (Solver.negamax fuel)
              { S with nodeCount := (S.nodeCount + 1) % 2 ^ 64 } P P.key
              ((-(7 * 6 - 2 - P.nbMoves)).tdiv 2) a b = Except.ok (v, S2) ∧
            (S.transTable.bytes → 0 ≤ P.nbMoves →
              S2.transTable.bytes ∧ -199 ≤ v ∧ v ≤ 199) := by
        intro a b hab2
        obtain ⟨v, S2, hv, hp⟩ := negamaxProbe_ok (Solver.negamax fuel)
          { S with nodeCount := (S.nodeCount + 1) % 2 ^ 64 } P P.key
          ((-(7 * 6 - 2 - P.nbMoves)).tdiv 2) a b (0 ≤ P.nbMoves)
          (fun S1 m a1 b1 h1 h2 => by
            obtain ⟨v1, S3, hv1, hp1⟩ := hrec S1 m a1 b1 h1 h2
            exact ⟨v1, S3, hv1, fun hG hS => hp1 hS hG⟩) hab2
        exact ⟨v, S2, hv, fun hS h0 => hp h0 hS (hmn h0) (hl h0)⟩
      unfold Solver.negamax
      have h1 : ¬ ¬ (alpha < beta) := by simpa using hab
      have h2 : ¬ (P.nbMoves ≥ 7 * 6 - 2) := by norm_num; exact hn
      rw [if_neg h1]
      simp only [hwin, Bool.false_eq_true, if_false, if_neg h2]
      by_cases c1 : alpha < (-(7 * 6 - 2 - P.nbMoves)).tdiv 2
      · rw [if_pos c1]
        by_cases c2 : (-(7 * 6 - 2 - P.nbMoves)).tdiv 2 ≥ beta
        · rw [if_pos c2]
          exact ⟨_, _, rfl, fun hS h0 => ⟨hS, hmn h0⟩⟩
        · rw [if_neg c2]
          by_cases c3 : beta > (7 * 6 - 2 + 1 - P.nbMoves).tdiv 2
          · rw [if_pos c3]
            by_cases c4 : (-(7 * 6 - 2 - P.nbMoves)).tdiv 2 ≥ (7 * 6 - 2 + 1 - P.nbMoves).tdiv 2
            · rw [if_pos c4]
              exact ⟨_, _, rfl, fun hS h0 => ⟨hS, hmx h0⟩⟩
            · rw [if_neg c4]
              exact hprobe _ _ (by omega)
          · rw [if_neg c3]
            exact hprobe _ _ (by omega)
      · rw [if_neg c1]
        by_cases c3 : beta > (7 * 6 - 2 + 1 - P.nbMoves).tdiv 2
        · rw [if_pos c3]
          by_cases c4 : alpha ≥ (7 * 6 - 2 + 1 - P.nbMoves).tdiv 2
          · rw [if_pos c4]
            exact ⟨_, _, rfl, fun hS h0 => ⟨hS, hmx h0⟩⟩
          · rw [if_neg c4]
            exact hprobe _ _ (by omega)
        · rw [if_neg c3]
          exact hprobe _ _ hab

theorem tdiv_two_bound (x : Int) (h1 : -200 ≤ x) (h2 : x ≤ 200) :
    -199 ≤ x.tdiv 2 ∧ x.tdiv 2 ≤ 199 := by
  by_cases hx : 0 ≤ x
  · rw [Int.tdiv_eq_ediv hx (by norm_num)]; omega
  · have e : x.tdiv 2 = -((-x).tdiv 2) := by rw [Int.neg_tdiv]; ring
    rw [e, Int.tdiv_eq_ediv (by omega) (by norm_num)]; omega

/-- The loop of `solve` ends within its budget, with a value that is at least the lower
    end of the window it started from. -/
theorem solveLoop_ok (P : Position) (hwin : P.canWinNext = false) :
    ∀ (fuel : Nat) (S : Solver) (a b : Int), (b - a).toNat ≤ fuel →
      ∃ v S2, solveLoop P fuel S a b = Except.ok (v, S2) ∧ a ≤ v ∧
        (S.transTable.bytes → 0 ≤ P.nbMoves →
          S2.transTable.bytes ∧ (v = a ∨ (-199 ≤ v ∧ v ≤ 199))) := by
  intro fuel
  induction fuel with
  | zero =>
    intro S a b hfuel
    have hab : ¬ a < b := by omega
    rw [solveLoop_done P 0 S a b hab]
    exact ⟨_, _, rfl, le_refl _, fun hS _ => ⟨hS, Or.inl rfl⟩⟩
  | succ fuel ih =>
    intro S a b hfuel
    by_cases hab : a < b
    · obtain ⟨hm1, hm2⟩ := solveMed_in_window a b hab
      obtain ⟨r, S1, hr, hrp⟩ := negamax_ok (negamaxFuel P) S P (solveMed a b)
        (solveMed a b + 1) (by omega) hwin (le_refl _)
      rw [solveLoop_succ P fuel S a b hab, hr]
      simp only []
      by_cases hle : r ≤ solveMed a b
      · rw [if_pos hle]
        obtain ⟨v, S2, hv, hav, hvp⟩ := ih S1 a r (by omega)
        refine ⟨v, S2, hv, hav, fun hS h0 => ?_⟩
        exact hvp (hrp hS h0).1 h0
      · rw [if_neg hle]
        obtain ⟨v, S2, hv, hav, hvp⟩ := ih S1 r b (by omega)
        refine ⟨v, S2, hv, by omega, fun hS h0 => ?_⟩
        have h1 := hrp hS h0
        have h2 := hvp h1.1 h0
        refine ⟨h2.1, ?_⟩
        rcases h2.2 with h | h
        · right; rw [h]; exact h1.2
        · right; exact h
    · rw [solveLoop_done P _ S a b hab]
      exact ⟨_, _, rfl, le_refl _, fun hS _ => ⟨hS, Or.inl rfl⟩⟩

/-- `solve` returns on every position and every solver state; on a table of bytes and a
    counter between 0 and 100 its value lies in `[-199, 199]`; in weak mode without an
    immediate win it is at least `-1`. -/
theorem solve_ok (S : Solver) (P : Position) (weak : Bool) :
    ∃ v S2, S.solve P weak = Except.ok (v, S2) ∧
      (P.canWinNext = true → v = (41 - P.nbMoves).tdiv 2 ∧ S2 = S) ∧
      (P.canWinNext = false → weak = true → -1 ≤ v) ∧
      (S.transTable.bytes → 0 ≤ P.nbMoves → P.nbMoves ≤ 100 →
        S2.transTable.bytes ∧ -199 ≤ v ∧ v ≤ 199) := by
  by_cases hwin : P.canWinNext = true
  · refine ⟨_, _, solve_immediate_win_eq S P weak hwin, fun _ => ⟨rfl, rfl⟩,
      fun h => ?_, fun hS h0 h1 => ⟨hS, ?_⟩⟩
    · rw [hwin] at h; exact Bool.noConfusion h
    · exact tdiv_two_bound _ (by omega) (by omega)
  · have hw : P.canWinNext = false := by simpa using hwin
    unfold Solver.solve
    rw [if_neg hwin]
    obtain ⟨v, S2, hv, hav, hvp⟩ := solveLoop_ok P hw
      ((if weak = true then (1 : Int) else (7 * 6 - 2 + 1 - P.nbMoves).tdiv 2) -
        (if weak = true then (-1 : Int) else (-(7 * 6 - 2 - P.nbMoves)).tdiv 2)).toNat S
      (if weak = true then (-1 : Int) else (-(7 * 6 - 2 - P.nbMoves)).tdiv 2)
      (if weak = true then (1 : Int) else (7 * 6 - 2 + 1 - P.nbMoves).tdiv 2) (le_refl _)
    refine ⟨v, S2, hv, fun h => absurd h hwin, fun _ hweak => ?_, fun hS h0 h1 => ?_⟩
    · rw [if_pos hweak] at hav; exact hav
    · have h2 := hvp hS h0
      refine ⟨h2.1, ?_⟩
      rcases h2.2 with h | h
      · rw [h]
        by_cases hweak : weak = true
        · rw [if_pos hweak]; omega
        · rw [if_neg hweak]
          exact tdiv_two_bound _ (by omega) (by omega)
      · exact h

/-! ## `analyze` -/

/-- One iteration of the loop of `analyze`: it always completes, and this is what it
    writes. -/
theorem analyzeCols_step (P : Position) (weak : Bool) (c : Nat) (S : Solver)
    (sc : List Int) :
    ∃ sc1 S1, (∀ cols, analyzeCols P weak (c :: cols) S sc = analyzeCols P weak cols S1 sc1) ∧
      (P.canPlay (c : Int) = false → sc1 = sc ∧ S1 = S) ∧
      (P.canPlay (c : Int) = true → P.isWinningMove (c : Int) = true →
        sc1 = sc.set c ((41 - P.nbMoves).tdiv 2) ∧ S1 = S) ∧
      (P.canPlay (c : Int) = true → P.isWinningMove (c : Int) = false →
        ∃ P2 v, P.playCol (c : Int) = Except.ok P2 ∧ S.solve P2 weak = Except.ok (v, S1) ∧
          sc1 = sc.set c (-v)) := by
  by_cases hplay : P.canPlay (c : Int) = true
  · by_cases hwin : P.isWinningMove (c : Int) = true
    · refine ⟨sc.set c ((41 - P.nbMoves).tdiv 2), S, fun cols => ?_, ?_, ?_, ?_⟩
      · simp only [analyzeCols, if_pos hplay, if_pos hwin]
        norm_num
      · intro h; rw [hplay] at h; exact Bool.noConfusion h
      · exact fun _ _ => ⟨rfl, rfl⟩
      · intro _ h; rw [hwin] at h; exact Bool.noConfusion h
    · obtain ⟨P2, hP2⟩ : ∃ P2, P.playCol (c : Int) = Except.ok P2 := by
        cases hpc : P.playCol (c : Int) with
        | ok Q => exact ⟨Q, rfl⟩
        | error E =>
          have := (playCol_error_iff P (c : Int)).1 ⟨E, hpc⟩
          rw [hplay] at this; exact Bool.noConfusion this
      obtain ⟨v, S2, hv, _⟩ := solve_ok S P2 weak
      refine ⟨sc.set c (-v), S2, fun cols => ?_, ?_, ?_, ?_⟩
      · simp only [analyzeCols, if_pos hplay, if_neg hwin, hP2, hv]
      · intro h; rw [hplay] at h; exact Bool.noConfusion h
      · intro _ h; exact absurd h hwin
      · exact fun _ _ => ⟨P2, v, hP2, hv, rfl⟩
  · refine ⟨sc, S, fun cols => ?_, fun _ => ⟨rfl, rfl⟩, fun h => absurd h hplay,
      fun h => absurd h hplay⟩
    simp only [analyzeCols, if_neg hplay]

/-- The counter after a successful `playCol`. -/
theorem nbMoves_playCol {P P2 : Position} {col : Int} (h : P.playCol col = Except.ok P2)
    (hn : P.nbMoves < 2147483647) : P2.nbMoves = P.nbMoves + 1 := by
  obtain ⟨c, r, _, _, _, _, hQ, _⟩ := playCol_ok h
  rw [hQ]
  exact nbMoves_play P _ hn

/-- The loop of `analyze` over any list of columns: it completes, can be cut at any
    point, keeps the length of `scores`, never writes an entry whose column is absent or
    not playable, and writes values in `[-199, 199]` for the playable ones when the table
    holds bytes and the counter is between 0 and 99. -/
theorem analyzeCols_ok (P : Position) (weak : Bool) :
    ∀ (cols : List Nat) (S : Solver) (sc : List Int),
      ∃ sc2 S2, analyzeCols P weak cols S sc = Except.ok (sc2, S2) ∧
        (∀ rest, analyzeCols P weak (cols ++ rest) S sc = analyzeCols P weak rest S2 sc2) ∧
        sc2.length = sc.length ∧
        (∀ c, (c ∉ cols ∨ P.canPlay (c : Int) = false) → sc2[c]? = sc[c]?) ∧
        (S.transTable.bytes → 0 ≤ P.nbMoves → P.nbMoves ≤ 99 →
          S2.transTable.bytes ∧
          (∀ c, c ∈ cols → P.canPlay (c : Int) = true → c < sc.length →
            ∃ x, sc2[c]? = some x ∧ -199 ≤ x ∧ x ≤ 199)) := by
  intro cols
  induction cols with
  | nil =>
    intro S sc
    refine ⟨sc, S, rfl, fun rest => rfl, rfl, fun _ _ => rfl, fun hS _ _ => ⟨hS, ?_⟩⟩
    intro c hc
    exact absurd hc (List.not_mem_nil c)
  | cons c cols ih =>
    intro S sc
    obtain ⟨sc1, S1, hstep, hno, hwin, hsolve⟩ := analyzeCols_step P weak c S sc
    obtain ⟨sc2, S2, hrun, hcut, hlen, hkeep, hval⟩ := ih S1 sc1
    have hlen1 : sc1.length = sc.length := by
      by_cases hplay : P.canPlay (c : Int) = true
      · by_cases hw : P.isWinningMove (c : Int) = true
        · rw [(hwin hplay hw).1, List.length_set]
        · obtain ⟨P2, v, _, _, h3⟩ := hsolve hplay (by simpa using hw)
          rw [h3, List.length_set]
      · rw [(hno (by simpa using hplay)).1]
    -- the entry of column `c` after its own step, and the other entries
    have hother : ∀ d, d ≠ c → sc1[d]? = sc[d]? := by
      intro d hd
      by_cases hplay : P.canPlay (c : Int) = true
      · by_cases hw : P.isWinningMove (c : Int) = true
        · rw [(hwin hplay hw).1, List.getElem?_set_ne (Ne.symm hd)]
        · obtain ⟨P2, v, _, _, h3⟩ := hsolve hplay (by simpa using hw)
          rw [h3, List.getElem?_set_ne (Ne.symm hd)]
      · rw [(hno (by simpa using hplay)).1]
    refine ⟨sc2, S2, ?_, ?_, ?_, ?_, ?_⟩
    · rw [hstep]; exact hrun
    · intro rest
      rw [List.cons_append, hstep]; exact hcut rest
    · rw [hlen, hlen1]
    · intro d hd
      rcases hd with hd | hd
      · have hdc : d ≠ c := fun h => hd (h ▸ List.mem_cons_self _ _)
        have hdcols : d ∉ cols := fun h => hd (List.mem_cons_of_mem _ h)
        rw [hkeep d (Or.inl hdcols), hother d hdc]
      · rw [hkeep d (Or.inr hd)]
        by_cases hdc : d = c
        · subst hdc
          rw [(hno hd).1]
        · exact hother d hdc
    · intro hS h0 h99
      -- the solver and the entry after the step of column `c`
      have hstepval : S1.transTable.bytes ∧
          (P.canPlay (c : Int) = true → c < sc.length →
            ∃ x, sc1[c]? = some x ∧ -199 ≤ x ∧ x ≤ 199) := by
        by_cases hplay : P.canPlay (c : Int) = true
        · by_cases hw : P.isWinningMove (c : Int) = true
          · obtain ⟨e1, e2⟩ := hwin hplay hw
            refine ⟨by rw [e2]; exact hS, fun _ hc =>
              ⟨(41 - P.nbMoves).tdiv 2, ?_, tdiv_two_bound _ (by omega) (by omega)⟩⟩
            rw [e1, List.getElem?_set_self hc]
          · obtain ⟨P2, v, hP2, hv, h3⟩ := hsolve hplay (by simpa using hw)
            obtain ⟨v', S', hv', _, _, hb⟩ := solve_ok S P2 weak
            rw [hv] at hv'
            have e1 : v = v' := congrArg Prod.fst (Except.ok.inj hv')
            have e2 : S1 = S' := congrArg Prod.snd (Except.ok.inj hv')
            have hn2 := nbMoves_playCol hP2 (by omega)
            have := hb hS (by omega) (by omega)
            rw [← e1, ← e2] at this
            refine ⟨this.1, fun _ hc => ⟨-v, ?_, by omega, by omega⟩⟩
            rw [h3, List.getElem?_set_self hc]
        · have := hno (by simpa using hplay)
          exact ⟨by rw [this.2]; exact hS, fun h => absurd h hplay⟩
      obtain ⟨hS2, hvals⟩ := hval hstepval.1 h0 h99
      refine ⟨hS2, fun d hd hplay hdlen => ?_⟩
      by_cases hdcols : d ∈ cols
      · exact hvals d hdcols hplay (by rw [hlen1]; exact hdlen)
      · have hdc : d = c := by
          rcases List.mem_cons.1 hd with h | h
          · exact h
          · exact absurd h hdcols
        subst hdc
        rw [hkeep d (Or.inl hdcols)]
        exact hstepval.2 hplay hdlen

theorem range_seven_split (c : Nat) (hc : c < 7) :
    ∃ post, List.range 7 = List.range c ++ c :: post ∧ c ∉ post := by
  interval_cases c
  · exact ⟨[1, 2, 3, 4, 5, 6], by decide, by decide⟩
  · exact ⟨[2, 3, 4, 5, 6], by decide, by decide⟩
  · exact ⟨[3, 4, 5, 6], by decide, by decide⟩
  · exact ⟨[4, 5, 6], by decide, by decide⟩
  · exact ⟨[5, 6], by decide, by decide⟩
  · exact ⟨[6], by decide, by decide⟩
  · exact ⟨[], by decide, by decide⟩

/-- C14: on a position whose counter is its number of tokens and a table of bytes, for
    either weak flag, `analyze(P, weak)` returns a vector of exactly 7 scores, and
    `scores[c]` is `INVALID_MOVE` (-1000) if and only if `canPlay(c)` is false. -/
theorem analyze_invalid_iff (S : Solver) (P : Position) (weak : Bool)
    (hS : S.transTable.bytes) (hP : P.moves_ = popcount P.mask) :
    ∃ scores S2, S.analyze P weak = Except.ok (scores, S2) ∧ scores.length = 7 ∧
      ∀ c : Nat, c < 7 → (scores[c]? = some INVALID_MOVE ↔ P.canPlay (c : Int) = false) := by
  have hle : popcount P.mask ≤ 64 := popcountBelow_le _ _
  have hnb : P.nbMoves = (P.moves_ : Int) := nbMoves_of_small (by omega)
  obtain ⟨sc2, S2, hrun, _, hlen, hkeep, hval⟩ :=
    analyzeCols_ok P weak (List.range WIDTH) S (List.replicate WIDTH INVALID_MOVE)
  have hinit : ∀ c, c < 7 → (List.replicate WIDTH INVALID_MOVE)[c]? = some INVALID_MOVE := by
    intro c hc
    interval_cases c <;> rfl
  refine ⟨sc2, S2, hrun, by rw [hlen]; simp [WIDTH], fun c hc => ?_⟩
  by_cases hplay : P.canPlay (c : Int) = true
  · obtain ⟨x, hx, hx1, hx2⟩ := (hval hS (by omega) (by omega)).2 c
      (by simp [WIDTH, hc]) hplay (by simp [WIDTH, hc])
    rw [hx, hplay]
    constructor
    · intro h
      have : x = INVALID_MOVE := Option.some.inj h
      unfold INVALID_MOVE at this
      omega
    · intro h; exact Bool.noConfusion h
  · have hf : P.canPlay (c : Int) = false := by simpa using hplay
    rw [hkeep c (Or.inr hf), hinit c hc]
    exact ⟨fun _ => hf, fun _ => rfl⟩

/-- Witness for `analyze_invalid_iff`: the empty board and the freshly built solver. -/
theorem analyze_invalid_iff_witness :
    ∃ scores S2, Solver.new.analyze Position.new0 true = Except.ok (scores, S2) ∧
      scores.length = 7 ∧
      ∀ c : Nat, c < 7 →
        (scores[c]? = some INVALID_MOVE ↔ Position.new0.canPlay (c : Int) = false) :=
  analyze_invalid_iff Solver.new Position.new0 true (fun i => by show (0 : Nat) < 256; decide)
    (by decide)

/-- C15: for every position `P`, solver state and playable column `c`, `analyze`
    returns, and: if `isWinningMove(c)` then `scores[c] == (41 - nbMoves(P))/2`;
    otherwise `scores[c] == -solve(P2, weak)` where `P2` is `P` after `playCol(c)` and
    `solve` runs in the solver state (table and node count) left by the columns
    `0..c-1` of the same `analyze` call. -/
theorem analyze_column_score (S : Solver) (P : Position) (weak : Bool) (c : Nat)
    (hc : c < 7) (hplay : P.canPlay (c : Int) = true) :
    ∃ scores S2 scp Sp, S.analyze P weak = Except.ok (scores, S2) ∧
      analyzeCols P weak (List.range c) S (List.replicate WIDTH INVALID_MOVE) =
        Except.ok (scp, Sp) ∧
      (P.isWinningMove (c : Int) = true → scores[c]? = some ((41 - P.nbMoves).tdiv 2)) ∧
      (P.isWinningMove (c : Int) = false →
        ∃ P2 v S3, P.playCol (c : Int) = Except.ok P2 ∧
          Sp.solve P2 weak = Except.ok (v, S3) ∧ scores[c]? = some (-v)) := by
  obtain ⟨post, hsplit, hpost⟩ := range_seven_split c hc
  obtain ⟨scp, Sp, hpre, hcut, hlenp, _, _⟩ :=
    analyzeCols_ok P weak (List.range c) S (List.replicate WIDTH INVALID_MOVE)
  obtain ⟨sc1, S1, hstep, _, hwin, hsolve⟩ := analyzeCols_step P weak c Sp scp
  obtain ⟨sc2, S2, hrun, _, _, hkeep, _⟩ := analyzeCols_ok P weak post S1 sc1
  have hclen : c < scp.length := by rw [hlenp]; simp [WIDTH, hc]
  refine ⟨sc2, S2, scp, Sp, ?_, hpre, ?_, ?_⟩
  · unfold Solver.analyze
    have : List.range WIDTH = List.range c ++ c :: post := hsplit
    rw [this, hcut, hstep]
    exact hrun
  · intro hw
    rw [hkeep c (Or.inl hpost), (hwin hplay hw).1, List.getElem?_set_self hclen]
  · intro hw
    obtain ⟨P2, v, hP2, hv, hsc⟩ := hsolve hplay hw
    refine ⟨P2, v, S1, hP2, hv, ?_⟩
    rw [hkeep c (Or.inl hpost), hsc, List.getElem?_set_self hclen]

/-- Witness for `analyze_column_score`: column 3 of the empty board. -/
theorem analyze_column_score_witness :
    ∃ scores S2 scp Sp, Solver.new.analyze Position.new0 true = Except.ok (scores, S2) ∧
      analyzeCols Position.new0 true (List.range 3) Solver.new
        (List.replicate WIDTH INVALID_MOVE) = Except.ok (scp, Sp) ∧
      (Position.new0.isWinningMove ((3 : Nat) : Int) = true →
        scores[3]? = some ((41 - Position.new0.nbMoves).tdiv 2)) ∧
      (Position.new0.isWinningMove ((3 : Nat) : Int) = false →
        ∃ P2 v S3, Position.new0.playCol ((3 : Nat) : Int) = Except.ok P2 ∧
          Sp.solve P2 true = Except.ok (v, S3) ∧ scores[3]? = some (-v)) :=
  analyze_column_score Solver.new Position.new0 true 3 (by decide) (by decide)

/-- C18, as stated, fails: `solve(P, weak=true)` returns 17 on a position whose mover
    has three tokens stacked in column 3 (immediate win), and returns 2 on a 34-move
    position without an immediate win. -/
theorem weak_solve_exceeds_one :
    (match Solver.new.reset.solve ⟨14680064, 14794752, 1073872896, 6⟩ true with
      | Except.ok (v, _) => some v
      | Except.error _ => none) = some 17 ∧
    (Position.new4 0 1 3 0).playCols
        [4, 5, 4, 5, 6, 6, 2, 5, 1, 1, 4, 4, 4, 6, 5, 2, 0, 6, 5, 2, 0, 3, 0, 1, 1, 4, 2, 2,
          2, 1, 6, 3, 6, 5] =
      Except.ok ⟨216335087453323, 279258512478091, 4100, 34⟩ ∧
    (⟨216335087453323, 279258512478091, 4100, 34⟩ : Position).canWinNext = false ∧
    (match Solver.new.reset.solve ⟨216335087453323, 279258512478091, 4100, 34⟩ true with
      | Except.ok (v, _) => some v
      | Except.error _ => none) = some 2 := by
  refine ⟨by decide!, rfl, by decide!, by decide!⟩

/-- C18, amended: for every position and solver state, `solve(P, weak=true)` returns;
    its value is `(41 - nbMoves)/2` when `canWinNext()` holds, and otherwise a value that
    is at least `-1` (the lower end of the weak window; values returned by the probes
    are passed on unclamped). -/
theorem solve_weak_value (S : Solver) (P : Position) :
    ∃ v S2, S.solve P true = Except.ok (v, S2) ∧
      (P.canWinNext = true → v = (41 - P.nbMoves).tdiv 2) ∧
      (P.canWinNext = false → -1 ≤ v) := by
  obtain ⟨v, S2, hv, h1, h2, _⟩ := solve_ok S P true
  exact ⟨v, S2, hv, fun h => (h1 h).1, fun h => h2 h rfl⟩

/-- C19 fails on the code.  `X` and `P` are reached from `Position(0, 1, 0, 6)` by legal
    moves (the 35 moves below followed by columns 3, 6, respectively by column 2).  On a
    freshly reset solver `analyze(P, weak=false)` returns the scores
    `2, -1000, -1000, -2, -1000, -1000, -1`; on the table left by `solve(X, weak=false)`
    it returns `1` instead of `-1` for column 6. -/
theorem analyze_depends_on_table :
    (Position.new4 0 1 0 6).playCols
        [1, 4, 0, 4, 6, 5, 1, 2, 3, 2, 2, 4, 6, 5, 2, 5, 5, 1, 5, 0, 4, 0, 3, 4, 2, 4, 3, 5,
          1, 3, 0, 6, 1, 0, 6, 3, 6] =
      Except.ok ⟨18947030172182, 138521082318751, 140737488359424, 37⟩ ∧
    (Position.new4 0 1 0 6).playCols
        [1, 4, 0, 4, 6, 5, 1, 2, 3, 2, 2, 4, 6, 5, 2, 5, 5, 1, 5, 0, 4, 0, 3, 4, 2, 4, 3, 5,
          1, 3, 0, 6, 1, 0, 6, 2] =
      Except.ok ⟨49205307968905, 68152305110943, 140737488359424, 36⟩ ∧
    (match Solver.new.reset.analyze ⟨49205307968905, 68152305110943, 140737488359424, 36⟩
        false with
      | Except.ok (scores, _) => some scores
      | Except.error _ => none) = some [2, -1000, -1000, -2, -1000, -1000, -1] ∧
    (match Solver.new.reset.solve ⟨18947030172182, 138521082318751, 140737488359424, 37⟩
        false with
      | Except.ok (_, T) =>
        (match T.analyze ⟨49205307968905, 68152305110943, 140737488359424, 36⟩ false with
          | Except.ok (scores, _) => some scores
          | Except.error _ => none)
      | Except.error _ => none) = some [2, -1000, -1000, -2, -1000, -1000, 1] := by
  refine ⟨rfl, rfl, by decide!, by decide!⟩

/-! ## Column order, score constants and the table's value encoding -/

/-- C24: after construction, `getColumnOrderAt(i)` returns 3, 2, 4, 1, 5, 0, 6 for
    `i = 0..6`, which is a permutation of the columns `0..6`, and returns `-1` for every
    `i < 0` and every `i >= 7`. -/
theorem getColumnOrderAt_spec :
    (List.range 7).map (fun i => Solver.new.getColumnOrderAt (i : Int)) = [3, 2, 4, 1, 5, 0, 6] ∧
    ((List.range 7).map fun i => Solver.new.getColumnOrderAt (i : Int)).Perm
      ((List.range 7).map fun c => (c : Int)) ∧
    (∀ i : Int, i < 0 ∨ i ≥ 7 → Solver.new.getColumnOrderAt i = -1) := by
  refine ⟨by decide, by decide, ?_⟩
  intro i hi
  unfold Solver.getColumnOrderAt
  rw [if_neg (by omega)]

/-- C25, the claim as stated fails: `MAX_SCORE` is not 19. -/
theorem max_score_ne_19 : ¬ (MIN_SCORE = -18 ∧ MAX_SCORE = 19) := by decide

/-- C25 as amended: `MIN_SCORE == -18` and `MAX_SCORE == 18`; the integer division
    `(7*6+1)/2` gives 21. -/
theorem score_constants : MIN_SCORE = -18 ∧ MAX_SCORE = 18 := by decide

/-- C26: for `MIN_SCORE <= v <= MAX_SCORE`, the upper-bound code `v - MIN_SCORE + 1` lies
    in `[1, MAX_SCORE - MIN_SCORE + 1]` and the lower-bound code
    `v + MAX_SCORE - 2*MIN_SCORE + 2` in `[MAX_SCORE - MIN_SCORE + 2,
    2*(MAX_SCORE - MIN_SCORE) + 2]`; both are non-zero and below 256, so `put` followed by
    `get` on the same key hands the code back unchanged; and the decoder of `negamax`
    reads an upper code as the upper bound `v` (it returns `v` when the window lies at or
    above `v`) and a lower code as the lower bound `v` (it returns `v` when the window lies
    at or below `v`). -/
theorem table_codes_roundtrip (v : Int) (hlo : MIN_SCORE ≤ v) (hhi : v ≤ MAX_SCORE) :
    (1 ≤ v - MIN_SCORE + 1 ∧ v - MIN_SCORE + 1 ≤ MAX_SCORE - MIN_SCORE + 1) ∧
    (MAX_SCORE - MIN_SCORE + 2 ≤ v + MAX_SCORE - 2 * MIN_SCORE + 2 ∧
      v + MAX_SCORE - 2 * MIN_SCORE + 2 ≤ 2 * (MAX_SCORE - MIN_SCORE) + 2) ∧
    (v - MIN_SCORE + 1 ≠ 0 ∧ v - MIN_SCORE + 1 < 256 ∧
      v + MAX_SCORE - 2 * MIN_SCORE + 2 ≠ 0 ∧ v + MAX_SCORE - 2 * MIN_SCORE + 2 < 256) ∧
    (∀ (T : TranspositionTable) (key : Nat),
      ((T.put key (v - MIN_SCORE + 1)).get key : Int) = v - MIN_SCORE + 1 ∧
      ((T.put key (v + MAX_SCORE - 2 * MIN_SCORE + 2)).get key : Int) =
        v + MAX_SCORE - 2 * MIN_SCORE + 2) ∧
    (¬ (v - MIN_SCORE + 1 > MAX_SCORE - MIN_SCORE + 1) ∧
      (v - MIN_SCORE + 1) + MIN_SCORE - 1 = v) ∧
    (v + MAX_SCORE - 2 * MIN_SCORE + 2 > MAX_SCORE - MIN_SCORE + 1 ∧
      (v + MAX_SCORE - 2 * MIN_SCORE + 2) + 2 * MIN_SCORE - MAX_SCORE - 2 = v) ∧
    (∀ (recurse : Solver → Position → Int → Int → Except Abort (Int × Solver))
        (S : Solver) (P : Position) (key : Nat) (mn alpha beta : Int),
      ((S.transTable.get key : Nat) : Int) = v - MIN_SCORE + 1 → v < beta → v ≤ alpha →
        negamaxProbe recurse S P key mn alpha beta = Except.ok (v, S)) ∧
    (∀ (recurse : Solver → Position → Int → Int → Except Abort (Int × Solver))
        (S : Solver) (P : Position) (key : Nat) (mn alpha beta : Int),
      ((S.transTable.get key : Nat) : Int) = v + MAX_SCORE - 2 * MIN_SCORE + 2 →
        alpha < v → beta ≤ v →
        negamaxProbe recurse S P key mn alpha beta = Except.ok (v, S)) := by
  rw [MIN_SCORE_eq] at hlo ⊢
  rw [MAX_SCORE_eq] at hhi ⊢
  refine ⟨by omega, by omega, by omega, ?_, by omega, by omega, ?_, ?_⟩
  · intro T key
    simp only [TranspositionTable.put, TranspositionTable.get, if_true]
    constructor
    · rw [Int.toNat_of_nonneg (Int.emod_nonneg _ (by norm_num))]
      exact Int.emod_eq_of_lt (by omega) (by omega)
    · rw [Int.toNat_of_nonneg (Int.emod_nonneg _ (by norm_num))]
      exact Int.emod_eq_of_lt (by omega) (by omega)
  · intro recurse S P key mn alpha beta hget hb ha
    unfold negamaxProbe
    simp only [MIN_SCORE_eq, MAX_SCORE_eq, hget]
    rw [if_pos (by omega), if_neg (by omega), if_pos (by omega), if_pos (by omega)]
    congr 2
    omega
  · intro recurse S P key mn alpha beta hget ha hb
    unfold negamaxProbe
    simp only [MIN_SCORE_eq, MAX_SCORE_eq, hget]
    rw [if_pos (by omega), if_pos (by omega), if_pos (by omega), if_pos (by omega)]
    congr 2
    omega

/-- Witness for `table_codes_roundtrip`: the value 0. -/
theorem table_codes_roundtrip_witness :
    (MIN_SCORE ≤ 0 ∧ 0 ≤ MAX_SCORE) ∧
    (1 ≤ (0 : Int) - MIN_SCORE + 1 ∧ (0 : Int) - MIN_SCORE + 1 ≤ MAX_SCORE - MIN_SCORE + 1) :=
  ⟨by decide, (table_codes_roundtrip 0 (by decide) (by decide)).1⟩

/-! ## Partial keys identify the key -/

/-- Two keys below `2^49` with the same slot and the same low 32 bits are equal: the
    table size is odd and `tableSize * 2^32` exceeds `2^49`. -/
theorem key_of_slot_and_partial (k1 k2 : Nat) (h1 : k1 < 2 ^ 49) (h2 : k2 < 2 ^ 49)
    (hs : TranspositionTable.index k1 = TranspositionTable.index k2)
    (hp : k1 % 2 ^ 32 = k2 % 2 ^ 32) : k1 = k2 := by
  have hco : Nat.Coprime tableSize (2 ^ 32) := by
    unfold tableSize; norm_num
  have hmod : k1 ≡ k2 [MOD tableSize * 2 ^ 32] :=
    (Nat.modEq_and_modEq_iff_modEq_mul hco).1 ⟨hs, hp⟩
  have hbig : 2 ^ 49 < tableSize * 2 ^ 32 := by unfold tableSize; norm_num
  exact Nat.ModEq.eq_of_lt_of_lt hmod (by omega) (by omega)

/-- What a slot holds after a sequence of `put` calls: zeros if no call wrote into it,
    otherwise the partial key and the byte of the most recent call that did. -/
theorem afterPuts_slot (puts : List (Nat × Int)) (pos : Nat) :
    (lastPutInto pos puts = none ∧ (TranspositionTable.afterPuts puts).V pos = 0) ∨
    (∃ k v, lastPutInto pos puts = some (k, v) ∧ TranspositionTable.index k = pos ∧
      k ∈ puts.map Prod.fst ∧
      (TranspositionTable.afterPuts puts).K pos = k % 2 ^ 32 ∧
      (TranspositionTable.afterPuts puts).V pos = (v % 256).toNat) := by
  induction puts with
  | nil => exact Or.inl ⟨rfl, rfl⟩
  | cons p older ih =>
    by_cases hp : TranspositionTable.index p.1 = pos
    · refine Or.inr ⟨p.1, p.2, ?_, hp, by simp, ?_, ?_⟩
      · simp only [lastPutInto, if_pos hp]
      · simp only [TranspositionTable.afterPuts, TranspositionTable.put, hp, if_true]
      · simp only [TranspositionTable.afterPuts, TranspositionTable.put, hp, if_true]
    · have hne : ¬ pos = TranspositionTable.index p.1 := fun h => hp h.symm
      rcases ih with ⟨hn, hv⟩ | ⟨k, v, hl, hi, hmem, hK, hV⟩
      · refine Or.inl ⟨?_, ?_⟩
        · simp only [lastPutInto, if_neg hp, hn]
        · simp only [TranspositionTable.afterPuts, TranspositionTable.put, if_neg hne, hv]
      · refine Or.inr ⟨k, v, ?_, hi, ?_, ?_, ?_⟩
        · simp only [lastPutInto, if_neg hp, hl]
        · simp only [List.map_cons, List.mem_cons]; exact Or.inr hmem
        · simp only [TranspositionTable.afterPuts, TranspositionTable.put, if_neg hne, hK]
        · simp only [TranspositionTable.afterPuts, TranspositionTable.put, if_neg hne, hV]

/-- C21: two keys below `2^49` that share the slot `key % size` and the stored partial key
    (the low 32 bits) are equal; hence in a table reached from `reset()` by `put` calls
    with keys below `2^49`, a `get(k)` with `k < 2^49` that returns a non-zero value
    returns the byte of the most recent `put` into the slot of `k`, and that call was made
    with the key `k` itself. -/
theorem get_returns_own_key :
    (∀ k1 k2 : Nat, k1 < 2 ^ 49 → k2 < 2 ^ 49 →
      k1 % tableSize = k2 % tableSize → k1 % 2 ^ 32 = k2 % 2 ^ 32 → k1 = k2) ∧
    (∀ (puts : List (Nat × Int)) (k : Nat), (∀ p ∈ puts, p.1 < 2 ^ 49) → k < 2 ^ 49 →
      (TranspositionTable.afterPuts puts).get k ≠ 0 →
      ∃ v, lastPutInto (TranspositionTable.index k) puts = some (k, v) ∧
        (TranspositionTable.afterPuts puts).get k = (v % 256).toNat) := by
  refine ⟨fun k1 k2 h1 h2 hs hp => key_of_slot_and_partial k1 k2 h1 h2 hs hp, ?_⟩
  intro puts k hkeys hk hget
  simp only [TranspositionTable.get] at hget ⊢
  by_cases hK : (TranspositionTable.afterPuts puts).K (TranspositionTable.index k) = k % 2 ^ 32
  · rw [if_pos hK] at hget ⊢
    rcases afterPuts_slot puts (TranspositionTable.index k) with ⟨_, hv⟩ | ⟨k2, v, hl, hi, hmem, hK2, hV⟩
    · exact absurd hv hget
    · obtain ⟨p, hp, hpk⟩ := List.mem_map.1 hmem
      have hk2 : k2 < 2 ^ 49 := hpk ▸ hkeys p hp
      have : k2 = k := key_of_slot_and_partial k2 k hk2 hk hi (by rw [← hK2, hK])
      subst this
      exact ⟨v, hl, hV⟩
  · rw [if_neg hK] at hget
    exact absurd rfl hget

/-! ## MoveSorter: insertion sort and pops -/

theorem insert_perm (move : Nat) (score : Int) (l : List (Nat × Int)) :
    (MoveSorter.insert move score l).Perm ((move, score) :: l) := by
  induction l with
  | nil => exact List.Perm.refl _
  | cons e rest ih =>
    unfold MoveSorter.insert
    split
    · exact (List.Perm.cons e ih).trans (List.Perm.swap _ _ _)
    · exact List.Perm.refl _

theorem insert_sorted (move : Nat) (score : Int) (l : List (Nat × Int))
    (h : l.Pairwise fun a b => a.2 ≥ b.2) :
    (MoveSorter.insert move score l).Pairwise fun a b => a.2 ≥ b.2 := by
  induction l with
  | nil => exact List.pairwise_singleton _ _
  | cons e rest ih =>
    obtain ⟨he, hrest⟩ := List.pairwise_cons.1 h
    unfold MoveSorter.insert
    split
    · rename_i hgt
      refine List.pairwise_cons.2 ⟨?_, ih hrest⟩
      intro x hx
      rcases List.mem_cons.1 ((insert_perm move score rest).mem_iff.1 hx) with hx | hx
      · subst hx; exact le_of_lt hgt
      · exact he x hx
    · rename_i hle
      have hse : score ≥ e.2 := not_lt.1 hle
      refine List.pairwise_cons.2 ⟨?_, h⟩
      intro x hx
      rcases List.mem_cons.1 hx with hx | hx
      · subst hx; exact hse
      · exact le_trans (he x hx) hse

theorem foldl_add_entries (adds : List (Nat × Int)) :
    ∀ M : MoveSorter, (M.entries.Pairwise fun a b => a.2 ≥ b.2) →
      ((adds.foldl (fun M a => M.add a.1 a.2) M).entries.Pairwise fun a b => a.2 ≥ b.2) ∧
      (adds.foldl (fun M a => M.add a.1 a.2) M).entries.Perm (adds ++ M.entries) := by
  induction adds with
  | nil => intro M h; exact ⟨h, List.Perm.refl _⟩
  | cons a adds ih =>
    intro M h
    have hs : (M.add a.1 a.2).entries.Pairwise fun a b => a.2 ≥ b.2 :=
      insert_sorted a.1 a.2 M.entries h
    obtain ⟨h1, h2⟩ := ih (M.add a.1 a.2) hs
    refine ⟨h1, h2.trans ?_⟩
    have hp : (M.add a.1 a.2).entries.Perm (a :: M.entries) := insert_perm a.1 a.2 M.entries
    exact (List.Perm.append_left adds hp).trans List.perm_middle

theorem nthNext_eq (k : Nat) :
    ∀ M : MoveSorter, MoveSorter.nthNext k M = (M.entries.map Prod.fst).getD k 0 := by
  induction k with
  | zero =>
    intro M
    rcases M with ⟨_ | ⟨e, rest⟩⟩ <;> rfl
  | succ k ih =>
    intro M
    rcases M with ⟨_ | ⟨e, rest⟩⟩
    · show MoveSorter.nthNext k ⟨[]⟩ = _
      rw [ih]; rfl
    · show MoveSorter.nthNext k ⟨rest⟩ = _
      rw [ih]; rfl

/-- C23: after at most 7 calls `add(move_i, score_i)` with non-zero moves on an empty
    sorter, the successive `getNext` calls return the moves of a rearrangement `out` of
    the added pairs whose scores never increase (so each added move comes out exactly
    once, a move of maximal score first), none of these returned values is 0, every later
    `getNext` returns 0, and after `reset()` `getNext` returns 0. -/
theorem moveSorter_pops_sorted (adds : List (Nat × Int)) (_hlen : adds.length ≤ 7)
    (hnz : ∀ a ∈ adds, a.1 ≠ 0) :
    ∃ out : List (Nat × Int), out.Perm adds ∧ (out.Pairwise fun a b => a.2 ≥ b.2) ∧
      (∀ k, k < adds.length →
        MoveSorter.nthNext k (MoveSorter.addAll adds) = (out.map Prod.fst).getD k 0 ∧
        MoveSorter.nthNext k (MoveSorter.addAll adds) ≠ 0) ∧
      (∀ k, adds.length ≤ k → MoveSorter.nthNext k (MoveSorter.addAll adds) = 0) ∧
      (MoveSorter.addAll adds).reset.getNext.1 = 0 := by
  obtain ⟨hs, hp⟩ := foldl_add_entries adds MoveSorter.empty List.Pairwise.nil
  have hp2 : (MoveSorter.addAll adds).entries.Perm adds := by
    have := hp
    rw [show MoveSorter.empty.entries = [] from rfl, List.append_nil] at this
    exact this
  have hlen : (MoveSorter.addAll adds).entries.length = adds.length := hp2.length_eq
  refine ⟨(MoveSorter.addAll adds).entries, hp2, hs, ?_, ?_, rfl⟩
  · intro k hk
    refine ⟨nthNext_eq k _, ?_⟩
    rw [nthNext_eq]
    have hk2 : k < ((MoveSorter.addAll adds).entries.map Prod.fst).length := by
      rw [List.length_map, hlen]; exact hk
    rw [List.getD_eq_getElem _ _ hk2, List.getElem_map]
    exact hnz _ (hp2.mem_iff.1 (List.getElem_mem _))
  · intro k hk
    rw [nthNext_eq]
    exact List.getD_eq_default _ _ (by rw [List.length_map, hlen]; exact hk)

/-- Witness for `moveSorter_pops_sorted`: three adds, two of them with the same score. -/
theorem moveSorter_pops_sorted_witness :
    ∃ out : List (Nat × Int), out.Perm [(8, 5), (1, 20), (64, 5)] ∧
      (out.Pairwise fun a b => a.2 ≥ b.2) ∧
      (∀ k, k < 3 →
        MoveSorter.nthNext k (MoveSorter.addAll [(8, 5), (1, 20), (64, 5)]) =
          (out.map Prod.fst).getD k 0 ∧
        MoveSorter.nthNext k (MoveSorter.addAll [(8, 5), (1, 20), (64, 5)]) ≠ 0) ∧
      (∀ k, 3 ≤ k → MoveSorter.nthNext k (MoveSorter.addAll [(8, 5), (1, 20), (64, 5)]) = 0) ∧
      (MoveSorter.addAll [(8, 5), (1, 20), (64, 5)]).reset.getNext.1 = 0 :=
  moveSorter_pops_sorted [(8, 5), (1, 20), (64, 5)] (by decide) (by decide)

/-! ## Tokens of the side to move -/

theorem popcountBelow_xor_subset (c m : Nat)
    (hsub : ∀ i, c.testBit i = true → m.testBit i = true) (n : Nat) :
    popcountBelow (c ^^^ m) n + popcountBelow c n = popcountBelow m n := by
  induction n with
  | zero => rfl
  | succ n ih =>
    simp only [popcountBelow, Nat.testBit_xor]
    have hn := hsub n
    cases hc : c.testBit n <;> cases hm : m.testBit n <;> simp [hc, hm] at hn ⊢ <;> omega

theorem popcount_xor_subset (c m : Nat) (h : c &&& m = c) :
    popcount (c ^^^ m) + popcount c = popcount m :=
  popcountBelow_xor_subset c m ((and_eq_left_iff_testBit c m).1 h) 64

/-- One `play` on a free cell keeps "the side to move owns half of the tokens, rounded
    down". -/
theorem half_play {P : Position} (hP : P.Inv)
    (hhalf : popcount P.current_position = popcount P.mask / 2) {b : Nat} (hcell : isCell b)
    (hm : P.mask.testBit b = false) :
    popcount (P.play (2 ^ b)).current_position = popcount (P.play (2 ^ b)).mask / 2 := by
  have hx := popcount_xor_subset P.current_position P.mask hP.2.2.1
  have ho := popcount_or_two_pow P.mask b hm (isCell_lt_64 hcell)
  show popcount (P.current_position ^^^ P.mask) = popcount (P.mask ||| 2 ^ b) / 2
  omega

theorem half_playCols (cols : List Int) :
    ∀ {P Q : Position}, P.Inv → popcount P.current_position = popcount P.mask / 2 →
      P.playCols cols = Except.ok Q →
      popcount Q.current_position = popcount Q.mask / 2 := by
  induction cols with
  | nil =>
    intro P Q _ hh h
    simp only [Position.playCols] at h
    exact (Except.ok.inj h) ▸ hh
  | cons col cols ih =>
    intro P Q hP hh h
    simp only [Position.playCols] at h
    cases h1 : P.playCol col with
    | error S => rw [h1] at h; exact Except.noConfusion h
    | ok R =>
      rw [h1] at h
      obtain ⟨c, r, hc, hr, _, _, hR, hm, hb, _⟩ := playCol_ok h1
      have hinv : R.Inv := inv_playCol hP h1
      refine ih hinv ?_ h
      rw [hR]
      exact half_play hP hh ⟨c, hc, r, hr, rfl⟩ hm

/-- C28: in every position reached from a constructed position, `Position()` or
    `Position(row1, col1, row2, col2)`, by successful `playCol` calls,
    `popcount(current_position)` equals `nbMoves() / 2` (integer division), which is
    `popcount(mask) / 2`, one of the two values `popcount(mask)/2`,
    `(popcount(mask)+1)/2`. -/
theorem current_holds_half (start : Position) (row1 col1 row2 col2 : Int)
    (hstart : start = Position.new0 ∨ start = Position.new4 row1 col1 row2 col2)
    (cols : List Int) (P : Position) (h : start.playCols cols = Except.ok P) :
    (popcount P.current_position : Int) = P.nbMoves.tdiv 2 ∧
    (popcount P.current_position = popcount P.mask / 2 ∨
      popcount P.current_position = (popcount P.mask + 1) / 2) := by
  have hinv0 : start.Inv := by
    rcases hstart with hs | hs
    · rw [hs]; exact inv_new4 (-1) (-1) (-1) (-1)
    · rw [hs]; exact inv_new4 row1 col1 row2 col2
  have hh0 : popcount start.current_position = popcount start.mask / 2 := by
    rcases hstart with hs | hs
    · rw [hs]; rfl
    · rw [hs]
      show popcount 0 = popcount 0 / 2
      rw [popcount_zero]
  have hinv : P.Inv := inv_playCols cols hinv0 h
  have hh := half_playCols cols hinv0 hh0 h
  have hle : popcount P.mask ≤ 64 := popcountBelow_le _ _
  have hnb : P.nbMoves = (popcount P.mask : Int) := by
    rw [nbMoves_of_small (by rw [hinv.2.1]; omega), hinv.2.1]
  refine ⟨?_, Or.inl hh⟩
  rw [hnb, hh, Int.tdiv_eq_ediv (by omega) (by norm_num)]
  omega

/-- Witness for `current_holds_half`: three moves on `Position(2, 2, 3, 4)`. -/
theorem current_holds_half_witness :
    (Position.new4 2 2 3 4).playCols [3, 2, 3] = Except.ok ⟨16384, 6307840, 1073872896, 3⟩ ∧
    (popcount 16384 : Int) = (3 : Int).tdiv 2 :=
  ⟨rfl, (current_holds_half (Position.new4 2 2 3 4) 2 2 3 4 (Or.inr rfl) [3, 2, 3]
    ⟨16384, 6307840, 1073872896, 3⟩ rfl).1⟩

/-! ## The region kept by compute_winning_position -/

/-- A bit of `compute_winning_position(P, M)` is below 60 and free in `M`, when `M` is
    confined to the 42 cells. -/
theorem compute_winning_position_bit (P M : Nat) (hM : onBoard M) (i : Nat)
    (h : (compute_winning_position P M).testBit i = true) :
    i < 60 ∧ M.testBit i = false := by
  have hx : (actual_board_cells_mask.testBit i ^^ M.testBit i) = true := by
    simp only [compute_winning_position, Nat.testBit_and, Nat.testBit_xor,
      Bool.and_eq_true] at h
    exact h.2
  rw [actual_board_cells_mask_testBit] at hx
  cases hm : M.testBit i
  · rw [hm] at hx
    simpa using hx
  · have := (isCell_iff i).1 (hM i hm)
    rw [hm] at hx
    have : i < 60 := by omega
    simp [this] at hx

/-- C27: for `M` confined to the 42 cells, `compute_winning_position(P, M)` has no bit in
    common with `M` and no bit at 60 or above; but it can hold a sentinel bit: in the
    position reached from `Position()` by `playCol` on columns 0,0,0,0,1,0,1,0,2 the side
    to move owns the cells 3, 4, 5 of column 0 (`current_position = 58`,
    `mask = 16831`), and the result is 64, the sentinel bit 6 above column 0, which is
    none of the 42 cells. -/
theorem compute_winning_position_keeps_sentinel :
    (∀ P M : Nat, onBoard M →
      compute_winning_position P M &&& M = 0 ∧ compute_winning_position P M < 2 ^ 60) ∧
    Position.new0.playCols [0, 0, 0, 0, 1, 0, 1, 0, 2] = Except.ok ⟨58, 16831, 0, 9⟩ ∧
    58 &&& 16831 = 58 ∧ onBoard 16831 ∧
    compute_winning_position 58 16831 = 64 ∧
    (compute_winning_position 58 16831).testBit (0 * 7 + 6) = true ∧ ¬ isCell (0 * 7 + 6) := by
  refine ⟨fun P M hM => ⟨?_, ?_⟩, rfl, by decide, ?_, by decide, by decide, by decide⟩
  · rw [and_eq_zero_iff_testBit]
    rintro i ⟨h1, h2⟩
    rw [(compute_winning_position_bit P M hM i h1).2] at h2
    exact Bool.noConfusion h2
  · apply Nat.lt_pow_two_of_testBit
    intro i hi
    by_contra hne
    have := (compute_winning_position_bit P M hM i (by simpa using hne)).1
    omega
  · exact onBoard_of_bounded 16831 (by norm_num) (by decide)

/-! ## The move-ordering heuristic -/

theorem shiftRight_and_one_ne_zero (m k : Nat) : (m >>> k) &&& 1 ≠ 0 ↔ m.testBit k = true := by
  unfold Nat.testBit
  rw [Nat.and_comm]
  simp

theorem ctzLoop_two_pow (b : Nat) :
    ∀ fuel k, k ≤ b → b < k + fuel → ctzLoop (2 ^ b) fuel k = b := by
  intro fuel
  induction fuel with
  | zero => intro k h1 h2; omega
  | succ fuel ih =>
    intro k h1 h2
    unfold ctzLoop
    by_cases hk : k = b
    · subst hk
      rw [if_pos ((shiftRight_and_one_ne_zero _ _).2 (by simp [Nat.testBit_two_pow]))]
    · rw [if_neg (fun h => hk (by
        have := (shiftRight_and_one_ne_zero _ _).1 h
        rw [Nat.testBit_two_pow] at this
        exact (by simpa using this : b = k).symm))]
      exact ih (k + 1) (by omega) (by omega)

/-- Method `moveScore` on a single-bit mask `2^b`: the three-way case distinction of the
    source with the landing column `b / 7`. -/
theorem moveScore_two_pow (P : Position) (b : Nat) (hb : b < 64) :
    P.moveScore (2 ^ b) =
      if P.winning_position &&& 2 ^ b ≠ 0 then 20000
      else if (P.play (2 ^ b)).canWinNext = true then -19000
      else
        (if P.opponent_winning_position &&& 2 ^ b ≠ 0 then 18000 else 0) +
        (if popcount (P.play (2 ^ b)).opponent_winning_position ≥ 2 then 1500
          else if popcount (P.play (2 ^ b)).opponent_winning_position = 1 then 500 else 0) +
        (3 - |((b / 7 : Nat) : Int) - 3|) * 5 := by
  have hne : (2 : Nat) ^ b ≠ 0 := by positivity
  have hctz : ctzLoop (2 ^ b) 64 0 = b := ctzLoop_two_pow b 64 0 (by omega) (by omega)
  have h3 : (7 : Int).tdiv 2 = 3 := by decide
  have hcol : ((b / 7 : Nat) : Int) ≠ -1 := by omega
  have hthreat : compute_winning_position
        ((P.play (2 ^ b)).mask ^^^ (P.play (2 ^ b)).current_position) (P.play (2 ^ b)).mask =
      (P.play (2 ^ b)).opponent_winning_position := by
    unfold Position.opponent_winning_position
    rw [Nat.xor_comm]
  unfold Position.moveScore
  simp only [if_neg hne, hctz, shl64_one b hb, not_true_eq_false, if_false, HEIGHT, h3,
    hthreat, Int.natCast_natAbs]
  rw [show compute_winning_position P.current_position P.mask = P.winning_position from rfl,
    show compute_winning_position (P.current_position ^^^ P.mask) P.mask =
      P.opponent_winning_position from rfl]
  split
  · rfl
  · split
    · rfl
    · rw [show (6 + 1 : Nat) = 7 from rfl]
      split_ifs <;> ring

theorem inv_new0 : Position.new0.Inv := by
  have h := inv_new4 (-1) (-1) (-1) (-1)
  exact h

/-- C29: for a position satisfying the invariants and the landing mask
    `m = 1 << getLowestAvailableBitIndex(c)` of a playable column `c`, `moveScore(m)` is
    20000 if `m` is in the winning-spot mask of the side to move; otherwise -19000 if the
    position after `play(m)` has `canWinNext()`; otherwise `B + T + (3 - |c - 3|) * 5`,
    with `B` = 18000 if `m` is in the opponent's winning-spot mask and 0 otherwise, and `T`
    = 1500, 500 or 0 as the mover's winning-spot mask after the move has at least two
    bits, one bit or none. -/
theorem moveScore_cases (P : Position) (_hP : P.Inv) (col : Int)
    (hcan : P.canPlay col = true) :
    P.moveScore (P.landingMask col) =
      if P.winning_position &&& P.landingMask col ≠ 0 then 20000
      else if (P.play (P.landingMask col)).canWinNext = true then -19000
      else
        (if P.opponent_winning_position &&& P.landingMask col ≠ 0 then 18000 else 0) +
        (if popcount (P.play (P.landingMask col)).opponent_winning_position ≥ 2 then 1500
          else if popcount (P.play (P.landingMask col)).opponent_winning_position = 1 then 500
          else 0) +
        (3 - |col - 3|) * 5 := by
  obtain ⟨c, r, hc, hr, hcol, hb, _⟩ := canPlay_landing P col hcan
  have hm : P.landingMask col = 2 ^ (c * 7 + r) := by
    unfold Position.landingMask
    rw [hb, Int.toNat_ofNat]
    exact shl64_one _ (by omega)
  have hdiv : (c * 7 + r) / 7 = c := by omega
  rw [hm, moveScore_two_pow P (c * 7 + r) (by omega), hdiv, hcol]

/-- Witness for `moveScore_cases`: the centre column of the empty board scores 15. -/
theorem moveScore_cases_witness :
    Position.new0.canPlay 3 = true ∧
    Position.new0.moveScore (Position.new0.landingMask 3) = 15 :=
  ⟨by decide,
    (moveScore_cases Position.new0 inv_new0 3 (by decide)).trans
      (by decide)⟩

/-- C30: on every position, for a single-bit mask `m = 2^b` with `b < 49` (every landing
    mask is one), `moveScore(m)` is 20000, or -19000, or the sum of a tactical part from
    0, 500, 1500, 18000, 18500, 19500 and a centrality part in `[0, 15]`, hence in
    `[0, 19515]`; a move into a winning spot scores strictly higher than one that is not;
    a move that is not winning and lets the opponent win at once scores strictly lower
    than every move that is winning or does not let the opponent win at once. -/
theorem moveScore_range (P : Position) (b : Nat) (hb : b < 49) :
    (P.moveScore (2 ^ b) = 20000 ∨ P.moveScore (2 ^ b) = -19000 ∨
      ∃ t p : Int, (t = 0 ∨ t = 500 ∨ t = 1500 ∨ t = 18000 ∨ t = 18500 ∨ t = 19500) ∧
        0 ≤ p ∧ p ≤ 15 ∧ P.moveScore (2 ^ b) = t + p ∧
        0 ≤ P.moveScore (2 ^ b) ∧ P.moveScore (2 ^ b) ≤ 19515) ∧
    (∀ b2, b2 < 49 → P.winning_position &&& 2 ^ b ≠ 0 → P.winning_position &&& 2 ^ b2 = 0 →
      P.moveScore (2 ^ b2) < P.moveScore (2 ^ b)) ∧
    (∀ b2, b2 < 49 → P.winning_position &&& 2 ^ b = 0 →
      (P.play (2 ^ b)).canWinNext = true →
      (P.winning_position &&& 2 ^ b2 ≠ 0 ∨ (P.play (2 ^ b2)).canWinNext = false) →
      P.moveScore (2 ^ b) < P.moveScore (2 ^ b2)) := by
  have key : ∀ b, b < 49 →
      (P.winning_position &&& 2 ^ b ≠ 0 ∧ P.moveScore (2 ^ b) = 20000) ∨
      (P.winning_position &&& 2 ^ b = 0 ∧ (P.play (2 ^ b)).canWinNext = true ∧
        P.moveScore (2 ^ b) = -19000) ∨
      (P.winning_position &&& 2 ^ b = 0 ∧ (P.play (2 ^ b)).canWinNext = false ∧
        ∃ t p : Int, (t = 0 ∨ t = 500 ∨ t = 1500 ∨ t = 18000 ∨ t = 18500 ∨ t = 19500) ∧
          0 ≤ p ∧ p ≤ 15 ∧ P.moveScore (2 ^ b) = t + p) := by
    intro b hb
    rw [moveScore_two_pow P b (by omega)]
    by_cases hw : P.winning_position &&& 2 ^ b ≠ 0
    · exact Or.inl ⟨hw, if_pos hw⟩
    · rw [if_neg hw]
      by_cases hl : (P.play (2 ^ b)).canWinNext = true
      · exact Or.inr (Or.inl ⟨not_not.1 hw, hl, if_pos hl⟩)
      · rw [if_neg hl]
        refine Or.inr (Or.inr ⟨not_not.1 hw, by simpa using hl, _, (3 - |((b / 7 : Nat) : Int) - 3|) * 5, ?_, ?_, ?_, rfl⟩)
        · split_ifs <;> simp
        · have h6 : b / 7 ≤ 6 := by omega
          have habs : |((b / 7 : Nat) : Int) - 3| ≤ 3 := abs_le.2 ⟨by omega, by omega⟩
          linarith
        · have habs : 0 ≤ |((b / 7 : Nat) : Int) - 3| := abs_nonneg _
          linarith
  refine ⟨?_, ?_, ?_⟩
  · rcases key b hb with ⟨_, h⟩ | ⟨_, _, h⟩ | ⟨_, _, t, p, ht, hp0, hp1, h⟩
    · exact Or.inl h
    · exact Or.inr (Or.inl h)
    · refine Or.inr (Or.inr ⟨t, p, ht, hp0, hp1, h, ?_, ?_⟩) <;>
        rcases ht with ht | ht | ht | ht | ht | ht <;> omega
  · intro b2 hb2 hw hw2
    rcases key b hb with ⟨_, h⟩ | ⟨h0, _⟩ | ⟨h0, _⟩
    · rcases key b2 hb2 with ⟨h1, _⟩ | ⟨_, _, h2⟩ | ⟨_, _, t, p, ht, hp0, hp1, h2⟩
      · exact absurd hw2 h1
      · omega
      · rcases ht with ht | ht | ht | ht | ht | ht <;> omega
    · exact absurd h0 hw
    · exact absurd h0 hw
  · intro b2 hb2 hw hl hother
    rcases key b hb with ⟨h0, _⟩ | ⟨_, _, h⟩ | ⟨_, h0, _⟩
    · exact absurd hw h0
    · rcases key b2 hb2 with ⟨_, h2⟩ | ⟨h1, h3, _⟩ | ⟨_, _, t, p, ht, hp0, hp1, h2⟩
      · omega
      · rcases hother with ho | ho
        · exact absurd h1 ho
        · rw [h3] at ho; exact Bool.noConfusion ho
      · rcases ht with ht | ht | ht | ht | ht | ht <;> omega
    · rw [hl] at h0; exact Bool.noConfusion h0

/-- Witness for `moveScore_range`: bit 21, the bottom cell of the centre column, on the
    empty board. -/
theorem moveScore_range_witness :
    (21 < 49) ∧
    (Position.new0.moveScore (2 ^ 21) = 20000 ∨ Position.new0.moveScore (2 ^ 21) = -19000 ∨
      ∃ t p : Int, (t = 0 ∨ t = 500 ∨ t = 1500 ∨ t = 18000 ∨ t = 18500 ∨ t = 19500) ∧
        0 ≤ p ∧ p ≤ 15 ∧ Position.new0.moveScore (2 ^ 21) = t + p ∧
        0 ≤ Position.new0.moveScore (2 ^ 21) ∧ Position.new0.moveScore (2 ^ 21) ≤ 19515) :=
  ⟨by decide, (moveScore_range Position.new0 21 (by decide)).1⟩

/-- Outside the board the centrality term of `moveScore` is negative: bit 49 would be
    column 7. -/
theorem moveScore_bit_49 : Position.new0.moveScore (2 ^ 49) = -5 := by decide

/-! ## has_factor and next_prime -/

/-- A result of `has_factor` other than "out of budget" is not changed by a larger
    budget. -/
theorem has_factor_fuel_succ :
    ∀ (fuel n min max : Nat) (r : Except Fault Bool), has_factor fuel n min max = r →
      r ≠ Except.error Fault.outOfFuel → has_factor (fuel + 1) n min max = r := by
  intro fuel
  induction fuel with
  | zero =>
    intro n min max r h hr
    exact absurd h.symm hr
  | succ fuel ih =>
    intro n min max r h hr
    rw [has_factor] at h ⊢
    by_cases h1 : (min * min) % 2 ^ 64 > n
    · rw [if_pos h1] at h ⊢; exact h
    · rw [if_neg h1] at h ⊢
      by_cases h2 : (min + 1) % 2 ^ 64 ≥ max
      · rw [if_pos h2] at h ⊢; exact h
      · rw [if_neg h2] at h ⊢
        cases hl : has_factor fuel n min (med min max) with
        | error e =>
          rw [hl] at h
          have he : e ≠ Fault.outOfFuel := by
            intro he; subst he; exact hr h.symm
          rw [ih n min (med min max) _ hl (by intro hc; exact he (Except.error.inj hc))]
          exact h
        | ok b =>
          rw [hl] at h
          rw [ih n min (med min max) _ hl (by intro hc; exact Except.noConfusion hc)]
          cases b with
          | true => exact h
          | false => exact ih n (med min max) max r h hr

theorem has_factor_fuel_le (fuel fuel2 n min max : Nat) (r : Except Fault Bool)
    (h : has_factor fuel n min max = r) (hr : r ≠ Except.error Fault.outOfFuel)
    (hle : fuel ≤ fuel2) : has_factor fuel2 n min max = r := by
  induction fuel2 with
  | zero =>
    have : fuel = 0 := by omega
    subst this; exact h
  | succ k ih =>
    by_cases hk : fuel = k + 1
    · subst hk; exact h
    · exact has_factor_fuel_succ k n min max r (ih (by omega)) hr

/-- Method `has_factor` on a non-empty range `[min, max)` below `2^63` with room for
    `k` halvings: it returns; `true` only if the range holds a divisor of `n`, and `true`
    whenever the range holds a divisor whose square is at most `n`. -/
theorem has_factor_range :
    ∀ (k n min max : Nat), n < 2 ^ 63 → 1 ≤ min → min < max → max ≤ n →
      max - min ≤ 2 ^ k →
      ∃ b, has_factor (k + 1) n min max = Except.ok b ∧
        (b = true → ∃ d, min ≤ d ∧ d < max ∧ d ∣ n) ∧
        ((∃ d, min ≤ d ∧ d < max ∧ d ∣ n ∧ d * d ≤ n) → b = true) := by
  intro k
  induction k with
  | zero =>
    intro n min max hn h1 hlt hmax hsize
    have hmax1 : max = min + 1 := by
      have : (2 : Nat) ^ 0 = 1 := rfl
      omega
    rw [has_factor]
    by_cases hp : (min * min) % 2 ^ 64 > n
    · rw [if_pos hp]
      refine ⟨false, rfl, fun h => Bool.noConfusion h, ?_⟩
      rintro ⟨d, hd1, _, _, hd4⟩
      have : min * min ≤ d * d := Nat.mul_le_mul hd1 hd1
      have : (min * min) % 2 ^ 64 ≤ min * min := Nat.mod_le _ _
      omega
    · rw [if_neg hp, if_pos (by rw [Nat.mod_eq_of_lt (by omega)]; omega), if_neg (by omega)]
      refine ⟨_, rfl, ?_, ?_⟩
      · intro h
        exact ⟨min, le_refl _, hlt, Nat.dvd_of_mod_eq_zero (of_decide_eq_true h)⟩
      · rintro ⟨d, hd1, hd2, hd3, _⟩
        have : d = min := by omega
        subst this
        exact decide_eq_true (Nat.mod_eq_zero_of_dvd hd3)
  | succ k ih =>
    intro n min max hn h1 hlt hmax hsize
    have hpow : (2 : Nat) ^ (k + 1) = 2 * 2 ^ k := by ring
    rw [has_factor]
    by_cases hp : (min * min) % 2 ^ 64 > n
    · rw [if_pos hp]
      refine ⟨false, rfl, fun h => Bool.noConfusion h, ?_⟩
      rintro ⟨d, hd1, _, _, hd4⟩
      have : min * min ≤ d * d := Nat.mul_le_mul hd1 hd1
      have : (min * min) % 2 ^ 64 ≤ min * min := Nat.mod_le _ _
      omega
    · rw [if_neg hp]
      by_cases hb : (min + 1) % 2 ^ 64 ≥ max
      · rw [Nat.mod_eq_of_lt (by omega)] at hb
        have hmax1 : max = min + 1 := by omega
        rw [if_pos (by rw [Nat.mod_eq_of_lt (by omega)]; omega), if_neg (by omega)]
        refine ⟨_, rfl, ?_, ?_⟩
        · intro h
          exact ⟨min, le_refl _, hlt, Nat.dvd_of_mod_eq_zero (of_decide_eq_true h)⟩
        · rintro ⟨d, hd1, hd2, hd3, _⟩
          have : d = min := by omega
          subst this
          exact decide_eq_true (Nat.mod_eq_zero_of_dvd hd3)
      · rw [if_neg hb]
        rw [Nat.mod_eq_of_lt (by omega)] at hb
        have hmed : med min max = (min + max) / 2 := by
          unfold med
          rw [Nat.mod_eq_of_lt (by omega)]
        rw [hmed]
        obtain ⟨bl, hl, hl1, hl2⟩ :=
          ih n min ((min + max) / 2) hn h1 (by omega) (by omega) (by omega)
        obtain ⟨br, hr, hr1, hr2⟩ :=
          ih n ((min + max) / 2) max hn (by omega) (by omega) hmax (by omega)
        rw [hl]
        cases bl with
        | true =>
          refine ⟨true, rfl, ?_, fun _ => rfl⟩
          intro _
          obtain ⟨d, hd1, hd2, hd3⟩ := hl1 rfl
          exact ⟨d, hd1, by omega, hd3⟩
        | false =>
          refine ⟨br, hr, ?_, ?_⟩
          · intro h
            obtain ⟨d, hd1, hd2, hd3⟩ := hr1 h
            exact ⟨d, by omega, hd2, hd3⟩
          · rintro ⟨d, hd1, hd2, hd3, hd4⟩
            by_cases hd : d < (min + max) / 2
            · exact Bool.noConfusion (hl2 ⟨d, hd1, hd, hd3, hd4⟩)
            · exact hr2 ⟨d, by omega, hd2, hd3, hd4⟩

/-- Method `has_factor(n, 2, n)` for `2 <= n < 2^63`: with a budget of 65 or more it
    returns, and the result says whether `n` has a divisor strictly between 1 and `n`. -/
theorem has_factor_top (n : Nat) (h2 : 2 ≤ n) (hn : n < 2 ^ 63) :
    ∃ b, (∀ fuel, 65 ≤ fuel → has_factor fuel n 2 n = Except.ok b) ∧
      (b = true ↔ ∃ d, 1 < d ∧ d < n ∧ d ∣ n) ∧ (b = true ↔ ¬ Nat.Prime n) := by
  by_cases hn2 : n = 2
  · subst hn2
    refine ⟨false, ?_, ?_, ?_⟩
    · intro fuel hf
      obtain ⟨f, rfl⟩ : ∃ f, fuel = f + 1 := ⟨fuel - 1, by omega⟩
      rw [has_factor, if_pos (by norm_num)]
    · constructor
      · intro h; exact Bool.noConfusion h
      · rintro ⟨d, hd1, hd2, _⟩; omega
    · constructor
      · intro h; exact Bool.noConfusion h
      · intro h; exact absurd Nat.prime_two h
  · obtain ⟨b, hb, hb1, hb2⟩ :=
      has_factor_range 64 n 2 n hn (by norm_num) (by omega) (le_refl _) (by omega)
    have hdiv : b = true ↔ ∃ d, 1 < d ∧ d < n ∧ d ∣ n := by
      constructor
      · intro h
        obtain ⟨d, hd1, hd2, hd3⟩ := hb1 h
        exact ⟨d, by omega, hd2, hd3⟩
      · rintro ⟨d, hd1, hd2, hd3⟩
        have hnp : ¬ Nat.Prime n := by
          intro hp
          rcases (Nat.dvd_prime hp).1 hd3 with h | h <;> omega
        have hm1 : (Nat.minFac n) ^ 2 ≤ n := Nat.minFac_sq_le_self (by omega) hnp
        have hm2 : 2 ≤ Nat.minFac n := (Nat.minFac_prime (by omega)).two_le
        have hm3 : Nat.minFac n < n := (Nat.not_prime_iff_minFac_lt h2).1 hnp
        exact hb2 ⟨Nat.minFac n, hm2, hm3, Nat.minFac_dvd n, by rw [← sq]; exact hm1⟩
    refine ⟨b, ?_, hdiv, ?_⟩
    · intro fuel hf
      exact has_factor_fuel_le 65 fuel n 2 n _ hb (by intro hc; exact Except.noConfusion hc) hf
    · rw [hdiv]
      constructor
      · rintro ⟨d, hd1, hd2, hd3⟩ hp
        rcases (Nat.dvd_prime hp).1 hd3 with h | h <;> omega
      · intro hnp
        exact ⟨Nat.minFac n, (Nat.minFac_prime (by omega)).one_lt,
          (Nat.not_prime_iff_minFac_lt h2).1 hnp, Nat.minFac_dvd n⟩

/-- Method `next_prime(n)` walks up to the first prime `p = n + j`. -/
theorem next_prime_steps :
    ∀ (j n p fuel : Nat), p = n + j → 2 ≤ n → p < 2 ^ 63 → Nat.Prime p →
      (∀ q, n ≤ q → q < p → ¬ Nat.Prime q) → j + 66 ≤ fuel →
      next_prime fuel n = Except.ok p := by
  intro j
  induction j with
  | zero =>
    intro n p fuel hp h2 hlt hprime _ hf
    obtain ⟨f, rfl⟩ : ∃ f, fuel = f + 1 := ⟨fuel - 1, by omega⟩
    have hpn : p = n := by omega
    subst hpn
    obtain ⟨b, hb, _, hb2⟩ := has_factor_top p h2 hlt
    have hbf : b = false := by
      cases b with
      | false => rfl
      | true => exact absurd hprime (hb2.1 rfl)
    rw [next_prime, hb f (by omega), hbf]
  | succ j ih =>
    intro n p fuel hp h2 hlt hprime hmin hf
    obtain ⟨f, rfl⟩ : ∃ f, fuel = f + 1 := ⟨fuel - 1, by omega⟩
    obtain ⟨b, hb, _, hb2⟩ := has_factor_top n h2 (by omega)
    have hbt : b = true := hb2.2 (hmin n (le_refl _) (by omega))
    rw [next_prime, hb f (by omega), hbt]
    show next_prime f ((n + 1) % 2 ^ 64) = Except.ok p
    rw [Nat.mod_eq_of_lt (by omega)]
    exact ih (n + 1) p f (by omega) (by omega) hlt hprime
      (fun q hq1 hq2 => hmin q (by omega) hq2) (by omega)

theorem tableSize_prime : Nat.Prime tableSize := by
  unfold tableSize; norm_num

theorem tableSize_least (q : Nat) (h1 : 2 ^ 24 ≤ q) (h2 : q < tableSize) : ¬ Nat.Prime q := by
  unfold tableSize at h2
  interval_cases q <;> norm_num

/-- C22, the claim as stated fails at the top of the `uint64_t` range: `2^64 - 1` is
    composite (3 divides it), but `has_factor(n, 2, n)` returns no value there, whatever
    the budget: `med(2, n)` wraps to 0, the search enters the range `[0, n)` and ends in
    `n % 0`; `next_prime(n)` then returns no value either. -/
theorem has_factor_faults_at_max :
    3 ∣ 2 ^ 64 - 1 ∧
    has_factor 65 (2 ^ 64 - 1) 2 (2 ^ 64 - 1) = Except.error Fault.divisionByZero ∧
    (¬ ∃ fuel b, has_factor fuel (2 ^ 64 - 1) 2 (2 ^ 64 - 1) = Except.ok b) ∧
    (¬ ∃ fuel p, next_prime fuel (2 ^ 64 - 1) = Except.ok p) := by
  have h65 : has_factor 65 (2 ^ 64 - 1) 2 (2 ^ 64 - 1) = Except.error Fault.divisionByZero := by
    have hb : (match has_factor 65 (2 ^ 64 - 1) 2 (2 ^ 64 - 1) with
        | Except.error Fault.divisionByZero => true
        | _ => false) = true := by decide!
    revert hb
    cases has_factor 65 (2 ^ 64 - 1) 2 (2 ^ 64 - 1) with
    | ok b => intro hb; exact Bool.noConfusion hb
    | error e =>
      cases e with
      | divisionByZero => intro _; rfl
      | outOfFuel => intro hb; exact Bool.noConfusion hb
  have hno : ¬ ∃ fuel b, has_factor fuel (2 ^ 64 - 1) 2 (2 ^ 64 - 1) = Except.ok b := by
    rintro ⟨fuel, b, h⟩
    by_cases hf : fuel ≤ 65
    · have := has_factor_fuel_le fuel 65 _ _ _ _ h (by intro hc; exact Except.noConfusion hc) hf
      rw [h65] at this
      exact Except.noConfusion this
    · have := has_factor_fuel_le 65 fuel _ _ _ _ h65
        (by intro hc; exact Fault.noConfusion (Except.error.inj hc)) (by omega)
      rw [h] at this
      exact Except.noConfusion this
  refine ⟨by norm_num, h65, hno, ?_⟩
  rintro ⟨fuel, p, h⟩
  cases fuel with
  | zero => exact Except.noConfusion h
  | succ f =>
    rw [next_prime] at h
    cases hr : has_factor f (2 ^ 64 - 1) 2 (2 ^ 64 - 1) with
    | ok b => exact hno ⟨f, b, hr⟩
    | error e =>
      rw [hr] at h
      exact Except.noConfusion h

/-- C22 as amended: for `2 <= n < 2^62`, `has_factor(n, 2, n)` returns (a recursion depth
    of 65 is enough) and is true exactly when `n` has a divisor strictly between 1 and
    `n`, that is when `n` is composite; `next_prime(n)` returns the smallest prime
    `p >= n` (a recursion depth of `p - n + 66` is enough); and `next_prime(2^24)`, the
    table size, is 16777259, the smallest prime `>= 2^24`. -/
theorem next_prime_spec (n : Nat) (h2 : 2 ≤ n) (hn : n < 2 ^ 62) :
    (∃ b, (∀ fuel, 65 ≤ fuel → has_factor fuel n 2 n = Except.ok b) ∧
      (b = true ↔ ∃ d, 1 < d ∧ d < n ∧ d ∣ n) ∧ (b = true ↔ ¬ Nat.Prime n)) ∧
    (∃ p, Nat.Prime p ∧ n ≤ p ∧ (∀ q, Nat.Prime q → n ≤ q → p ≤ q) ∧
      ∀ fuel, p - n + 66 ≤ fuel → next_prime fuel n = Except.ok p) ∧
    ((∀ fuel, 109 ≤ fuel → next_prime fuel (2 ^ 24) = Except.ok tableSize) ∧
      Nat.Prime tableSize ∧ ∀ q, Nat.Prime q → 2 ^ 24 ≤ q → tableSize ≤ q) := by
  refine ⟨has_factor_top n h2 (by omega), ?_, ?_, tableSize_prime, ?_⟩
  · obtain ⟨p0, hp0, hlt0, hle0⟩ := Nat.exists_prime_lt_and_le_two_mul n (by omega)
    have hex : ∃ p, Nat.Prime p ∧ n ≤ p := ⟨p0, hp0, le_of_lt hlt0⟩
    have hspec := Nat.find_spec hex
    have hmin : ∀ q, Nat.Prime q → n ≤ q → Nat.find hex ≤ q :=
      fun q hq hnq => Nat.find_min' hex ⟨hq, hnq⟩
    have hple : Nat.find hex ≤ p0 := hmin p0 hp0 (le_of_lt hlt0)
    refine ⟨Nat.find hex, hspec.1, hspec.2, hmin, ?_⟩
    intro fuel hf
    refine next_prime_steps (Nat.find hex - n) n (Nat.find hex) fuel (by omega) h2 (by omega)
      hspec.1 ?_ hf
    intro q hq1 hq2 hq
    have := hmin q hq hq1
    omega
  · intro fuel hf
    refine next_prime_steps 43 (2 ^ 24) tableSize fuel (by unfold tableSize; norm_num)
      (by norm_num) (by unfold tableSize; norm_num) tableSize_prime ?_ (by omega)
    intro q hq1 hq2
    exact tableSize_least q hq1 hq2
  · intro q hq hle
    by_contra hlt
    exact tableSize_least q hle (not_le.1 hlt) hq

/-- Witness for `next_prime_spec`: `n = 10`. -/
theorem next_prime_spec_witness :
    (2 ≤ 10 ∧ 10 < 2 ^ 62) ∧
    (∃ p, Nat.Prime p ∧ 10 ≤ p ∧ (∀ q, Nat.Prime q → 10 ≤ q → p ≤ q) ∧
      ∀ fuel, p - 10 + 66 ≤ fuel → next_prime fuel 10 = Except.ok p) :=
  ⟨by decide, (next_prime_spec 10 (by decide) (by decide)).2.1⟩

/-! ## Depth bounds against the score constants -/

/-- C39, the claim as stated fails for small move counts: at `m = 0` the depth bounds are
    `-20` and `20`, outside `[MIN_SCORE, MAX_SCORE] = [-18, 18]`; and `negamax` hands such
    a bound out: on the empty board with the window `(-30, -25)` it returns `-20`. -/
theorem depth_bounds_exceed_score_range :
    (-(40 - 0 : Int)).tdiv 2 = -20 ∧ (-(40 - 0 : Int)).tdiv 2 < MIN_SCORE ∧
    (41 - 0 : Int).tdiv 2 = 20 ∧ MAX_SCORE < (41 - 0 : Int).tdiv 2 ∧
    (match Solver.negamax 1 Solver.new Position.new0 (-30) (-25) with
      | Except.ok (v, _) => some v
      | Except.error _ => none) = some (-20) := by
  refine ⟨by decide, by decide, by decide, by decide, by decide!⟩

/-- C39 as amended: for every move count `m` with `4 <= m < 40` the depth bounds
    `-(40 - m)/2` and `(41 - m)/2` (truncating division) lie in `[MIN_SCORE, MAX_SCORE]`;
    more precisely, for `0 <= m < 40` the lower bound is at least `MIN_SCORE` exactly when
    `m >= 3` and the upper bound at most `MAX_SCORE` exactly when `m >= 4`. -/
theorem depth_bounds_in_score_range (m : Int) (h0 : 0 ≤ m) (h40 : m < 40) :
    (4 ≤ m → MIN_SCORE ≤ (-(40 - m)).tdiv 2 ∧ (41 - m).tdiv 2 ≤ MAX_SCORE) ∧
    (MIN_SCORE ≤ (-(40 - m)).tdiv 2 ↔ 3 ≤ m) ∧
    ((41 - m).tdiv 2 ≤ MAX_SCORE ↔ 4 ≤ m) := by
  have e1 : (-(40 - m)).tdiv 2 = -((40 - m) / 2) := by
    rw [Int.neg_tdiv, Int.tdiv_eq_ediv (by omega) (by norm_num)]
  have e2 : (41 - m).tdiv 2 = (41 - m) / 2 := Int.tdiv_eq_ediv (by omega) (by norm_num)
  rw [e1, e2, MIN_SCORE_eq, MAX_SCORE_eq]
  refine ⟨fun h => ⟨by omega, by omega⟩, ⟨fun h => by omega, fun h => by omega⟩,
    ⟨fun h => by omega, fun h => by omega⟩⟩

/-- Witness for `depth_bounds_in_score_range`: `m = 4`, where both bounds are attained. -/
theorem depth_bounds_in_score_range_witness :
    ((0 : Int) ≤ 4 ∧ (4 : Int) < 40) ∧
    (MIN_SCORE ≤ (-(40 - 4 : Int)).tdiv 2 ∧ (41 - 4 : Int).tdiv 2 ≤ MAX_SCORE) :=
  ⟨by decide, (depth_bounds_in_score_range 4 (by decide) (by decide)).1 (by decide)⟩

/-! ## The sorter of a node -/

/-- The first loop of `negamax` is the sequence of `add` calls listed by
    `candidateMoves`. -/
theorem fillSorter_eq_adds (P : Position) (pot : List Int) :
    ∀ (order : List Int) (M : MoveSorter),
      fillSorter P pot order M =
        (candidateMoves P pot order).foldl (fun M a => M.add a.1 a.2) M := by
  intro order
  induction order with
  | nil => intro M; rfl
  | cons col order ih =>
    intro M
    unfold fillSorter candidateMoves
    by_cases h1 : (pot.any fun p_col => decide (p_col = col)) = true
    · by_cases h2 : P.getLowestAvailableBitIndex col ≠ -1
      · simp only [h1, h2, if_true, List.filterMap_cons, ne_eq, not_false_eq_true, and_self,
          List.foldl_cons]
        rw [ih]
        rfl
      · simp only [h1, h2, if_true, if_false, List.filterMap_cons, and_false]
        rw [ih]
        rfl
    · simp only [h1, if_false, List.filterMap_cons, false_and, Bool.false_eq_true]
      rw [ih]
      rfl

theorem foldl_add_length (adds : List (Nat × Int)) :
    ∀ M : MoveSorter,
      (adds.foldl (fun M a => M.add a.1 a.2) M).entries.length =
        M.entries.length + adds.length := by
  induction adds with
  | nil => intro M; rfl
  | cons a adds ih =>
    intro M
    rw [List.foldl_cons, ih, List.length_cons]
    have : (M.add a.1 a.2).entries.length = M.entries.length + 1 := by
      have := (insert_perm a.1 a.2 M.entries).length_eq
      rw [List.length_cons] at this
      exact this
    omega

theorem candidateMoves_length (P : Position) (pot order : List Int) :
    (candidateMoves P pot order).length ≤ order.length :=
  List.length_filterMap_le _ _

theorem candidateMoves_append (P : Position) (pot pre post : List Int) :
    candidateMoves P pot (pre ++ post) = candidateMoves P pot pre ++ candidateMoves P pot post :=
  List.filterMap_append _ _ _

/-! ## Ties in the sorter -/

/-- Inserting an entry puts it in front of the entries of the same score and leaves the
    entries of every other score as they were. -/
theorem insert_filter_score (move : Nat) (score s : Int) (l : List (Nat × Int)) :
    (MoveSorter.insert move score l).filter (fun e => decide (e.2 = s)) =
      if score = s then (move, score) :: l.filter (fun e => decide (e.2 = s))
      else l.filter (fun e => decide (e.2 = s)) := by
  induction l with
  | nil =>
    unfold MoveSorter.insert
    by_cases h : score = s <;> simp [h]
  | cons e rest ih =>
    unfold MoveSorter.insert
    by_cases hgt : e.2 > score
    · rw [if_pos hgt, List.filter_cons, ih]
      by_cases h : score = s
      · have he : ¬ e.2 = s := by omega
        simp [h, he]
      · simp [h, List.filter_cons]
    · rw [if_neg hgt]
      by_cases h : score = s <;> simp [h, List.filter_cons]

theorem foldl_add_filter_score (s : Int) (adds : List (Nat × Int)) :
    ∀ M : MoveSorter,
      (adds.foldl (fun M a => M.add a.1 a.2) M).entries.filter (fun e => decide (e.2 = s)) =
        (adds.filter (fun e => decide (e.2 = s))).reverse ++
          M.entries.filter (fun e => decide (e.2 = s)) := by
  induction adds with
  | nil => intro M; simp
  | cons a adds ih =>
    intro M
    obtain ⟨m, sc⟩ := a
    rw [List.foldl_cons, ih]
    show _ ++ (MoveSorter.insert m sc M.entries).filter _ = _
    rw [insert_filter_score]
    by_cases h : sc = s
    · simp [h, List.filter_cons]
    · simp [h, List.filter_cons]

/-- C40: after any sequence of `add` calls on an empty sorter, the entries of one score
    come out of `getNext` in the reverse of the order in which they were added (`out` is
    the order of the pops); so in `negamax`, where the candidates are added in the order
    of `columnOrder` = 3, 2, 4, 1, 5, 0, 6, the candidates of one score are expanded in
    the reverse of that order, 6, 0, 5, 1, 4, 2, 3, from the outermost column inwards; on
    the empty board, where the scores are 15, 10, 10, 5, 5, 0, 0, the columns are expanded
    in the order 3, 4, 2, 5, 1, 6, 0. -/
theorem ties_pop_in_reverse (adds : List (Nat × Int)) (s : Int) :
    (∃ out : List (Nat × Int), out.Perm adds ∧ (out.Pairwise fun a b => a.2 ≥ b.2) ∧
      (∀ k, MoveSorter.nthNext k (MoveSorter.addAll adds) = (out.map Prod.fst).getD k 0) ∧
      out.filter (fun e => decide (e.2 = s)) =
        (adds.filter (fun e => decide (e.2 = s))).reverse) ∧
    (∀ P : Position,
      (fillSorter P P.getNonLosingPlayableCols Solver.new.columnOrder
          MoveSorter.empty).entries.filter (fun e => decide (e.2 = s)) =
        ((candidateMoves P P.getNonLosingPlayableCols [3, 2, 4, 1, 5, 0, 6]).filter
          (fun e => decide (e.2 = s))).reverse) ∧
    (fillSorter Position.new0 Position.new0.getNonLosingPlayableCols Solver.new.columnOrder
        MoveSorter.empty).entries.map Prod.fst =
      [3, 4, 2, 5, 1, 6, 0].map fun c : Int => Position.new0.landingMask c := by
  refine ⟨⟨(MoveSorter.addAll adds).entries, ?_, ?_, fun k => nthNext_eq k _, ?_⟩, ?_, by decide⟩
  · have := (foldl_add_entries adds MoveSorter.empty List.Pairwise.nil).2
    rw [show MoveSorter.empty.entries = [] from rfl, List.append_nil] at this
    exact this
  · exact (foldl_add_entries adds MoveSorter.empty List.Pairwise.nil).1
  · have := foldl_add_filter_score s adds MoveSorter.empty
    rw [show MoveSorter.empty.entries = [] from rfl, List.filter_nil, List.append_nil] at this
    exact this
  · intro P
    rw [fillSorter_eq_adds, foldl_add_filter_score]
    rw [show MoveSorter.empty.entries = [] from rfl, List.filter_nil, List.append_nil]
    rfl

/-! ## getNonLosingPlayableCols -/

/-- The loop of `getNonLosingPlayableCols` appends to its two vectors the safe and the
    playable columns among the `fuel` columns from `col` on. -/
theorem nonLosingLoop_spec (P : Position) :
    ∀ (fuel col : Nat) (nl all : List Int),
      P.nonLosingLoop fuel col nl all =
        (nl ++ (((List.range' col fuel).filter fun (c : Nat) =>
            P.canPlay (c : Int) && P.safeAfter (c : Int)).map fun (c : Nat) => (c : Int)),
          all ++ (((List.range' col fuel).filter fun (c : Nat) => P.canPlay (c : Int)).map
            fun (c : Nat) => (c : Int))) := by
  intro fuel
  induction fuel with
  | zero => intro col nl all; simp [Position.nonLosingLoop]
  | succ fuel ih =>
    intro col nl all
    rw [Position.nonLosingLoop, List.range'_succ]
    by_cases hcan : P.canPlay (col : Int) = true
    · rw [if_pos hcan]
      cases hplay : P.playCol (col : Int) with
      | error E =>
        have hs : P.safeAfter (col : Int) = false := by
          unfold Position.safeAfter; rw [hplay]
        simp only [ih, List.filter_cons, hcan, hs, Bool.and_false, Bool.false_eq_true,
          if_false, if_true, List.map_cons, List.append_assoc, List.singleton_append]
      | ok Q =>
        have hs : P.safeAfter (col : Int) = !Q.canWinNext := by
          unfold Position.safeAfter; rw [hplay]
        cases hq : Q.canWinNext with
        | true =>
          rw [hq] at hs
          simp only [ih, List.filter_cons, hcan, hs, hq, Bool.not_true, Bool.and_false,
            Bool.false_eq_true, if_false, if_true, List.map_cons, List.append_assoc,
            List.singleton_append]
        | false =>
          rw [hq] at hs
          simp only [ih, List.filter_cons, hcan, hs, hq, Bool.not_false, Bool.and_true,
            if_true, List.map_cons, List.append_assoc, List.singleton_append]
    · have hcf : P.canPlay (col : Int) = false := by simpa using hcan
      rw [if_neg hcan]
      simp only [ih, List.filter_cons, hcf, Bool.false_and, Bool.false_eq_true, if_false]

theorem safeCols_eq (P : Position) :
    P.safeCols = ((List.range 7).filter fun (c : Nat) =>
      P.canPlay (c : Int) && P.safeAfter (c : Int)).map fun (c : Nat) => (c : Int) := by
  unfold Position.safeCols Position.playableCols
  rw [List.filter_map, List.filter_filter]
  congr 1
  apply List.filter_congr
  intro c _
  simp [Bool.and_comm]

/-- The vectors that the loop of `getNonLosingPlayableCols` has built when it ends. -/
theorem nonLosingLoop_result (P : Position) :
    P.nonLosingLoop WIDTH 0 [] [] = (P.safeCols, P.playableCols) := by
  rw [nonLosingLoop_spec, safeCols_eq, List.nil_append, List.nil_append,
    show WIDTH = 7 from rfl, ← List.range_eq_range']
  rfl

theorem getNonLosingPlayableCols_eq (P : Position) :
    P.getNonLosingPlayableCols = (if P.safeCols ≠ [] then P.safeCols else P.playableCols) := by
  unfold Position.getNonLosingPlayableCols
  simp only [nonLosingLoop_result]
  by_cases hN : P.safeCols = []
  · by_cases hL : P.playableCols = []
    · simp [hN, hL]
    · simp [hN, hL]
  · simp [hN]

theorem playableCols_nil_iff (P : Position) :
    P.playableCols = [] ↔ ∀ c : Nat, c < 7 → P.canPlay (c : Int) = false := by
  unfold Position.playableCols
  rw [List.map_eq_nil_iff, List.filter_eq_nil_iff]
  constructor
  · intro h c hc
    have := h c (List.mem_range.2 hc)
    simpa using this
  · intro h c hc
    rw [h c (List.mem_range.1 hc)]
    exact Bool.false_ne_true

theorem getNonLosingPlayableCols_nil_iff (P : Position) :
    P.getNonLosingPlayableCols = [] ↔ ∀ c : Nat, c < 7 → P.canPlay (c : Int) = false := by
  have hsub : P.playableCols = [] → P.safeCols = [] := by
    intro h; unfold Position.safeCols; rw [h]; rfl
  rw [getNonLosingPlayableCols_eq, ← playableCols_nil_iff]
  by_cases hN : P.safeCols = []
  · simp [hN]
  · simp only [ne_eq, hN, not_false_eq_true, if_true, false_iff]
    exact fun h => hN (hsub h)

/-- C31: with `L` the playable columns in ascending order and `N` the columns of `L`
    after which the opponent has no immediate win, `getNonLosingPlayableCols()` returns
    `N` when `N` is non-empty and `L` otherwise; it returns the empty list exactly when no
    column is playable. -/
theorem getNonLosingPlayableCols_spec (P : Position) :
    P.getNonLosingPlayableCols = (if P.safeCols ≠ [] then P.safeCols else P.playableCols) ∧
    (P.getNonLosingPlayableCols = [] ↔ ∀ c : Nat, c < 7 → P.canPlay (c : Int) = false) :=
  ⟨getNonLosingPlayableCols_eq P, getNonLosingPlayableCols_nil_iff P⟩

/-! ## Full boards -/

theorem cellsMask_testBit (i : Nat) : cellsMask.testBit i = true ↔ isCell i := by
  by_cases h : i < 49
  · revert i
    decide
  · have hlt : cellsMask < 2 ^ i :=
      lt_of_lt_of_le (by unfold cellsMask; norm_num : cellsMask < 2 ^ 49)
        (Nat.pow_le_pow_right (by norm_num) (by omega))
    rw [Nat.testBit_lt_two_pow hlt, isCell_iff]
    constructor
    · intro hc; exact Bool.noConfusion hc
    · intro hc; omega

theorem popcountBelow_or_disjoint (a b : Nat)
    (h : ∀ i, ¬ (a.testBit i = true ∧ b.testBit i = true)) (n : Nat) :
    popcountBelow (a ||| b) n = popcountBelow a n + popcountBelow b n := by
  induction n with
  | zero => rfl
  | succ n ih =>
    simp only [popcountBelow, ih, Nat.testBit_or]
    have hn := h n
    cases ha : a.testBit n <;> cases hb : b.testBit n <;> simp [ha, hb] at hn ⊢ <;> omega

theorem popcountBelow_subset (a b : Nat)
    (h : ∀ i, a.testBit i = true → b.testBit i = true) (n : Nat) :
    popcountBelow a n ≤ popcountBelow b n ∧
    (popcountBelow a n = popcountBelow b n → ∀ i, i < n → a.testBit i = b.testBit i) := by
  induction n with
  | zero => exact ⟨le_refl _, fun _ i hi => absurd hi (Nat.not_lt_zero i)⟩
  | succ n ih =>
    simp only [popcountBelow]
    have hn := h n
    obtain ⟨ih1, ih2⟩ := ih
    cases ha : a.testBit n <;> cases hb : b.testBit n <;> simp [ha, hb] at hn ⊢
    · refine ⟨ih1, fun he i hi => ?_⟩
      by_cases hin : i = n
      · rw [hin, ha, hb]
      · exact ih2 he i (by omega)
    · exact ⟨by omega, fun he => by omega⟩
    · refine ⟨ih1, fun he i hi => ?_⟩
      by_cases hin : i = n
      · rw [hin, ha, hb]
      · exact ih2 he i (by omega)

/-- On a position that satisfies the invariants, the tokens and the blocked cells
    together number at most 42, and exactly 42 when every cell is taken. -/
theorem taken_cells_count {P : Position} (hP : P.Inv) :
    popcount P.mask + popcount P.blocked_cells ≤ 42 ∧
    (popcount P.mask + popcount P.blocked_cells = 42 ↔
      ∀ i, isCell i → (P.mask.testBit i = true ∨ P.blocked_cells.testBit i = true)) := by
  obtain ⟨h1, _, _, _, h5, h6⟩ := hP
  have hdis := (and_eq_zero_iff_testBit _ _).1 h1
  have hsum : popcount (P.mask ||| P.blocked_cells) =
      popcount P.mask + popcount P.blocked_cells := popcountBelow_or_disjoint _ _ hdis 64
  have hsub : ∀ i, (P.mask ||| P.blocked_cells).testBit i = true → cellsMask.testBit i = true := by
    intro i hi
    exact (cellsMask_testBit i).2 (onBoard_or h5 h6 i hi)
  obtain ⟨hle, heq⟩ := popcountBelow_subset _ _ hsub 64
  have h42 : popcountBelow cellsMask 64 = 42 := by decide
  rw [← hsum]
  refine ⟨by unfold popcount; omega, ?_, ?_⟩
  · intro he i hi
    have := heq (by unfold popcount at he; omega) i (isCell_lt_64 hi)
    rw [(cellsMask_testBit i).2 hi, Nat.testBit_or] at this
    simpa using this
  · intro hall
    have hsame : P.mask ||| P.blocked_cells = cellsMask := by
      apply Nat.eq_of_testBit_eq
      intro i
      by_cases hi : isCell i
      · rw [(cellsMask_testBit i).2 hi, Nat.testBit_or]
        simpa using hall i hi
      · have h1 : cellsMask.testBit i = false := by
          cases hc : cellsMask.testBit i
          · rfl
          · exact absurd ((cellsMask_testBit i).1 hc) hi
        have h2 : (P.mask ||| P.blocked_cells).testBit i = false := by
          cases hc : (P.mask ||| P.blocked_cells).testBit i
          · rfl
          · exact absurd (onBoard_or h5 h6 i hc) hi
        rw [h1, h2]
    unfold popcount
    rw [hsame, h42]

theorem no_column_playable_iff (P : Position) :
    (∀ c : Nat, c < 7 → P.canPlay (c : Int) = false) ↔
      ∀ i, isCell i → (P.mask.testBit i = true ∨ P.blocked_cells.testBit i = true) := by
  constructor
  · rintro h i ⟨c, hc, r, hr, rfl⟩
    rcases (canPlay_false_iff P (c : Int)).1 (h c hc) with h1 | h1 | h1
    · omega
    · omega
    · have := h1 r hr
      rwa [Int.toNat_ofNat] at this
  · intro h c hc
    refine (canPlay_false_iff P (c : Int)).2 (Or.inr (Or.inr fun r hr => ?_))
    rw [Int.toNat_ofNat]
    exact h _ ⟨c, hc, r, hr, rfl⟩

theorem mem_playableCols {P : Position} {col : Int} (h : col ∈ P.playableCols) :
    ∃ c : Nat, c < 7 ∧ col = (c : Int) ∧ P.canPlay (c : Int) = true := by
  unfold Position.playableCols at h
  obtain ⟨c, hc, rfl⟩ := List.mem_map.1 h
  obtain ⟨hr, hcan⟩ := List.mem_filter.1 hc
  exact ⟨c, List.mem_range.1 hr, rfl, hcan⟩

theorem mem_getNonLosingPlayableCols {P : Position} {col : Int}
    (h : col ∈ P.getNonLosingPlayableCols) :
    ∃ c : Nat, c < 7 ∧ col = (c : Int) ∧ P.canPlay (c : Int) = true := by
  rw [getNonLosingPlayableCols_eq] at h
  by_cases hN : P.safeCols = []
  · rw [if_neg (by simpa using hN)] at h
    exact mem_playableCols h
  · rw [if_pos hN] at h
    exact mem_playableCols (List.mem_filter.1 h).1

theorem landingMask_ne_zero {P : Position} {col : Int} (h : P.canPlay col = true) :
    P.landingMask col ≠ 0 := by
  obtain ⟨c, r, hc, hr, _, hb, _⟩ := canPlay_landing P col h
  unfold Position.landingMask
  rw [hb, Int.toNat_ofNat, shl64_one _ (by omega)]
  positivity

theorem candidateMoves_ne_zero (P : Position) (pot order : List Int) :
    ∀ e ∈ candidateMoves P pot order, e.1 ≠ 0 := by
  intro e he
  unfold candidateMoves at he
  obtain ⟨col, _, hcol⟩ := List.mem_filterMap.1 he
  by_cases hc : (pot.any fun p_col => decide (p_col = col)) = true ∧
      P.getLowestAvailableBitIndex col ≠ -1
  · rw [if_pos hc] at hcol
    have := Option.some.inj hcol
    rw [← this]
    exact landingMask_ne_zero (by unfold Position.canPlay; simpa using hc.2)
  · rw [if_neg hc] at hcol
    exact Option.noConfusion hcol

theorem candidateMoves_ne_nil (P : Position) (pot order : List Int) (col : Int)
    (hpot : col ∈ pot) (hord : col ∈ order) (hcan : P.canPlay col = true) :
    candidateMoves P pot order ≠ [] := by
  intro hnil
  have hmem : (P.landingMask col, P.moveScore (P.landingMask col)) ∈
      candidateMoves P pot order := by
    unfold candidateMoves
    refine List.mem_filterMap.2 ⟨col, hord, ?_⟩
    rw [if_pos]
    refine ⟨?_, ?_⟩
    · rw [List.any_eq_true]
      exact ⟨col, hpot, by simp⟩
    · unfold Position.canPlay at hcan
      simpa using hcan
  rw [hnil] at hmem
  exact List.not_mem_nil _ hmem

theorem columnOrder_new : Solver.new.columnOrder = [3, 2, 4, 1, 5, 0, 6] := by decide

/-- C38: on a position that satisfies the invariants and has exactly two blocked cells,
    no column is playable if and only if `nbMoves() == 40`; `nbMoves()` never exceeds 40,
    so the terminal test `nbMoves >= 40` of `negamax` fires exactly on full boards; and
    below 40 the sorter that `negamax` fills holds at least one entry, all of them with a
    non-zero move, so the loop body runs and the zero-candidates branch
    (`found_moves_count == 0`) is not taken. -/
theorem full_board_iff_forty (P : Position) (hP : P.Inv) (h2 : popcount P.blocked_cells = 2) :
    ((∀ c : Nat, c < 7 → P.canPlay (c : Int) = false) ↔ P.nbMoves = 40) ∧
    P.nbMoves ≤ 40 ∧
    (P.nbMoves ≥ 7 * 6 - 2 ↔ ∀ c : Nat, c < 7 → P.canPlay (c : Int) = false) ∧
    (P.nbMoves < 40 →
      (fillSorter P P.getNonLosingPlayableCols Solver.new.columnOrder
        MoveSorter.empty).entries ≠ [] ∧
      ∀ e ∈ (fillSorter P P.getNonLosingPlayableCols Solver.new.columnOrder
        MoveSorter.empty).entries, e.1 ≠ 0) := by
  obtain ⟨hle, hfull⟩ := taken_cells_count hP
  have hnb : P.nbMoves = (popcount P.mask : Int) := by
    rw [nbMoves_of_small (by rw [hP.2.1]; omega), hP.2.1]
  have hiff : (∀ c : Nat, c < 7 → P.canPlay (c : Int) = false) ↔ P.nbMoves = 40 := by
    rw [no_column_playable_iff, ← hfull, hnb]
    omega
  refine ⟨hiff, by omega, ?_, ?_⟩
  · rw [hiff]; omega
  · intro hlt
    have hsome : ¬ ∀ c : Nat, c < 7 → P.canPlay (c : Int) = false := by
      rw [hiff]; omega
    have hne : P.getNonLosingPlayableCols ≠ [] :=
      fun h => hsome ((getNonLosingPlayableCols_nil_iff P).1 h)
    obtain ⟨col, hcol⟩ := List.exists_mem_of_ne_nil _ hne
    obtain ⟨c, hc, hcc, hcan⟩ := mem_getNonLosingPlayableCols hcol
    have hord : col ∈ Solver.new.columnOrder := by
      rw [columnOrder_new, hcc]
      interval_cases c <;> decide
    have hcand := candidateMoves_ne_nil P P.getNonLosingPlayableCols Solver.new.columnOrder col
      hcol hord (hcc ▸ hcan)
    have hperm := (foldl_add_entries
      (candidateMoves P P.getNonLosingPlayableCols Solver.new.columnOrder)
      MoveSorter.empty List.Pairwise.nil).2
    rw [show MoveSorter.empty.entries = [] from rfl, List.append_nil,
      ← fillSorter_eq_adds] at hperm
    refine ⟨fun hnil => hcand ?_, fun e he => ?_⟩
    · rw [hnil] at hperm
      exact List.Perm.nil_eq hperm |>.symm
    · exact candidateMoves_ne_zero P _ _ e (hperm.mem_iff.1 he)

/-- Witness for `full_board_iff_forty`: `Position(2, 2, 3, 4)` before any move. -/
theorem full_board_iff_forty_witness :
    popcount (Position.new4 2 2 3 4).blocked_cells = 2 ∧
    (Position.new4 2 2 3 4).nbMoves ≤ 40 :=
  ⟨by decide,
    (full_board_iff_forty (Position.new4 2 2 3 4) (inv_new4 2 2 3 4) (by decide)).2.1⟩

/-! ## Winning spots and blocked cells -/

/-- C37, the claim as stated fails: with the cell at the bottom of column 3 blocked
    (`Position(5, 3, -1, -1)`) and the moves 0,0,1,1,2,2 the side to move owns the bottom
    cells of columns 0, 1, 2, and `winning_position()` is the blocked cell, bit 21; one
    move earlier the same bit is in `opponent_winning_position()`. -/
theorem winning_spot_on_blocked_cell :
    (Position.new4 5 3 (-1) (-1)).playCols [0, 0, 1, 1, 2, 2] =
      Except.ok ⟨16513, 49539, 2097152, 6⟩ ∧
    (⟨16513, 49539, 2097152, 6⟩ : Position).winning_position &&&
      (⟨16513, 49539, 2097152, 6⟩ : Position).blocked_cells = 2 ^ 21 ∧
    (Position.new4 5 3 (-1) (-1)).playCols [0, 0, 1, 1, 2] =
      Except.ok ⟨258, 16771, 2097152, 5⟩ ∧
    (⟨258, 16771, 2097152, 5⟩ : Position).opponent_winning_position &&&
      (⟨258, 16771, 2097152, 5⟩ : Position).blocked_cells = 2 ^ 21 := by
  refine ⟨rfl, by decide, rfl, by decide⟩

/-- C37 as amended: on a position that satisfies the invariants, `winning_position()` and
    `opponent_winning_position()` hold no occupied cell (no bit of `mask`); a blocked cell
    can be among their bits, but the landing bit of a playable column, which is what
    `canWinNext` and `isWinningMove` look up in them, is never blocked nor occupied. -/
theorem winning_spots_unoccupied (P : Position) (hP : P.Inv) :
    P.winning_position &&& P.mask = 0 ∧ P.opponent_winning_position &&& P.mask = 0 ∧
    (∀ col : Int, P.canPlay col = true →
      P.landingMask col &&& P.blocked_cells = 0 ∧ P.landingMask col &&& P.mask = 0) := by
  have hM : onBoard P.mask := hP.2.2.2.2.1
  have hfree : ∀ B : Nat, compute_winning_position B P.mask &&& P.mask = 0 := by
    intro B
    rw [and_eq_zero_iff_testBit]
    rintro i ⟨h1, h2⟩
    rw [(compute_winning_position_bit B P.mask hM i h1).2] at h2
    exact Bool.noConfusion h2
  refine ⟨hfree _, hfree _, ?_⟩
  intro col hcan
  obtain ⟨c, r, hc, hr, _, hb, hm, hbl, _⟩ := canPlay_landing P col hcan
  have hl : P.landingMask col = 2 ^ (c * 7 + r) := by
    unfold Position.landingMask
    rw [hb, Int.toNat_ofNat]
    exact shl64_one _ (by omega)
  rw [hl, Nat.and_comm, and_two_pow_eq_zero_iff, Nat.and_comm, and_two_pow_eq_zero_iff]
  exact ⟨hbl, hm⟩

/-- Witness for `winning_spots_unoccupied`: the position of `winning_spot_on_blocked_cell`,
    six moves after `Position(5, 3, -1, -1)`. -/
theorem winning_spots_unoccupied_witness :
    (Position.new4 5 3 (-1) (-1)).playCols [0, 0, 1, 1, 2, 2] =
      Except.ok ⟨16513, 49539, 2097152, 6⟩ ∧
    (⟨16513, 49539, 2097152, 6⟩ : Position).winning_position &&& 49539 = 0 :=
  have h : (Position.new4 5 3 (-1) (-1)).playCols [0, 0, 1, 1, 2, 2] =
      Except.ok ⟨16513, 49539, 2097152, 6⟩ := rfl
  ⟨h, (winning_spots_unoccupied ⟨16513, 49539, 2097152, 6⟩
    (inv_playCols [0, 0, 1, 1, 2, 2] (inv_new4 5 3 (-1) (-1)) h)).1⟩

/-! ## The threat bonus of moveScore -/

theorem completesLine_mono {A B : Nat} (h : ∀ i, A.testBit i = true → B.testBit i = true)
    (b s : Nat) (hl : completesLine A b s) : completesLine B b s := by
  obtain ⟨k, hk, hkb, hj⟩ := hl
  exact ⟨k, hk, hkb, fun j hj4 hjk => h _ (hj j hj4 hjk)⟩

/-- C35, the claim as stated fails: seven moves after `Position()` (columns
    1,0,2,1,2,2,1) the side to move owns the diagonal cells 0, 8, 16 and has one winning
    spot, bit 24, which is not playable yet.  The move into column 0 (landing bit 1) is
    neither winning nor losing and leaves the winning spots exactly as they were, so it
    creates no new one; still `moveScore` adds the bonus 500 (the blocking bonus and the
    centrality term are both 0 there). -/
theorem threat_bonus_without_new_spot :
    Position.new0.playCols [1, 0, 2, 1, 2, 2, 1] = Except.ok ⟨65793, 115585, 0, 7⟩ ∧
    (⟨65793, 115585, 0, 7⟩ : Position).canPlay 0 = true ∧
    (⟨65793, 115585, 0, 7⟩ : Position).landingMask 0 = 2 ∧
    (⟨65793, 115585, 0, 7⟩ : Position).winning_position = 2 ^ 24 ∧
    (⟨65793, 115585, 0, 7⟩ : Position).winning_position &&& 2 = 0 ∧
    ((⟨65793, 115585, 0, 7⟩ : Position).play 2).canWinNext = false ∧
    ((⟨65793, 115585, 0, 7⟩ : Position).play 2).opponent_winning_position = 2 ^ 24 ∧
    (⟨65793, 115585, 0, 7⟩ : Position).opponent_winning_position &&& 2 = 0 ∧
    (⟨65793, 115585, 0, 7⟩ : Position).moveScore 2 = 0 + 500 + (3 - |(0 : Int) - 3|) * 5 := by
  refine ⟨rfl, by decide, by decide, by decide, by decide, by decide, by decide, by decide,
    by decide⟩

/-- C35 as amended: on a position that satisfies the invariants, for the landing mask `m`
    of a playable column that is neither immediately winning nor immediately losing, the
    threat bonus inside `moveScore(m)` is 1500, 500 or 0 as the winning-spot mask of the
    mover after the move has at least two bits, exactly one bit, or none; every winning
    spot that the mover had before the move is still one after it, so spots that are not
    new count as well. -/
theorem threat_bonus_counts_all_spots (P : Position) (hP : P.Inv) (col : Int)
    (hcan : P.canPlay col = true) (hnw : P.winning_position &&& P.landingMask col = 0)
    (hnl : (P.play (P.landingMask col)).canWinNext = false) :
    P.moveScore (P.landingMask col) =
      (if P.opponent_winning_position &&& P.landingMask col ≠ 0 then 18000 else 0) +
      (if popcount (P.play (P.landingMask col)).opponent_winning_position ≥ 2 then 1500
        else if popcount (P.play (P.landingMask col)).opponent_winning_position = 1 then 500
        else 0) +
      (3 - |col - 3|) * 5 ∧
    P.winning_position &&& (P.play (P.landingMask col)).opponent_winning_position =
      P.winning_position := by
  obtain ⟨c, r, hc, hr, hcol, hb, hm, _, _⟩ := canPlay_landing P col hcan
  have hl : P.landingMask col = 2 ^ (c * 7 + r) := by
    unfold Position.landingMask
    rw [hb, Int.toNat_ofNat]
    exact shl64_one _ (by omega)
  have hdiv : (c * 7 + r) / 7 = c := by omega
  rw [hl] at hnw hnl ⊢
  constructor
  · rw [moveScore_two_pow P (c * 7 + r) (by omega), if_neg (by simpa using hnw),
      if_neg (by simp [hnl]), hdiv, hcol]
  · rw [and_eq_left_iff_testBit]
    intro i hi
    have hwb : P.winning_position.testBit (c * 7 + r) = false :=
      (and_two_pow_eq_zero_iff _ _).1 hnw
    have hne : i ≠ c * 7 + r := by
      intro h; rw [h, hwb] at hi; exact Bool.noConfusion hi
    obtain ⟨h60, hmi⟩ := compute_winning_position_bit _ _ hP.2.2.2.2.1 i hi
    have hlines := (compute_winning_position_testBit _ _ i h60 hmi).1 hi
    have hsub : ∀ j, P.current_position.testBit j = true →
        ((P.play (2 ^ (c * 7 + r))).current_position ^^^
          (P.play (2 ^ (c * 7 + r))).mask).testBit j = true := by
      intro j hj
      rw [Nat.xor_comm, mover_board_after_play P (c * 7 + r) hP.2.2.1 hm j, hj]
      rfl
    have hmi2 : (P.play (2 ^ (c * 7 + r))).mask.testBit i = false := by
      show (P.mask ||| 2 ^ (c * 7 + r)).testBit i = false
      rw [Nat.testBit_or, hmi, Nat.testBit_two_pow]
      simpa using fun h : c * 7 + r = i => hne h.symm
    unfold Position.opponent_winning_position
    rw [compute_winning_position_testBit _ _ i h60 hmi2]
    rcases hlines with h | h | h | h
    · exact Or.inl (completesLine_mono hsub _ _ h)
    · exact Or.inr (Or.inl (completesLine_mono hsub _ _ h))
    · exact Or.inr (Or.inr (Or.inl (completesLine_mono hsub _ _ h)))
    · exact Or.inr (Or.inr (Or.inr (completesLine_mono hsub _ _ h)))

/-- Witness for `threat_bonus_counts_all_spots`: the position and the move of
    `threat_bonus_without_new_spot`. -/
theorem threat_bonus_counts_all_spots_witness :
    (⟨65793, 115585, 0, 7⟩ : Position).winning_position &&&
        ((⟨65793, 115585, 0, 7⟩ : Position).play
          ((⟨65793, 115585, 0, 7⟩ : Position).landingMask 0)).opponent_winning_position =
      (⟨65793, 115585, 0, 7⟩ : Position).winning_position :=
  have h : Position.new0.playCols [1, 0, 2, 1, 2, 2, 1] = Except.ok ⟨65793, 115585, 0, 7⟩ := rfl
  (threat_bonus_counts_all_spots ⟨65793, 115585, 0, 7⟩
    (inv_playCols [1, 0, 2, 1, 2, 2, 1] inv_new0 h) 0 (by decide) (by decide) (by decide)).2

/-! ## The assertions of negamax -/

/-- The loop of `negamax` trips no assertion when the recursive calls it makes, all on
    positions without an immediate win and with a non-empty window, trip none. -/
theorem expandMoves_no_assert
    (recurse : Solver → Position → Int → Int → Except Abort (Int × Solver))
    (P : Position) (key : Nat) (beta mn : Int)
    (hrec : ∀ S m a b, a < b → (P.play m).canWinNext = false →
      recurse S (P.play m) a b ≠ Except.error Abort.assertion) :
    ∀ (moves : List (Nat × Int)) (S : Solver) (alpha best found : Int), alpha < beta →
      expandMoves recurse P key beta mn moves S alpha best found ≠
        Except.error Abort.assertion := by
  intro moves
  induction moves with
  | nil =>
    intro S alpha best found _
    simp only [expandMoves]
    split <;> exact fun h => Except.noConfusion h
  | cons mv rest ih =>
    intro S alpha best found hab
    obtain ⟨m, sc⟩ := mv
    simp only [expandMoves]
    by_cases hm0 : m = 0
    · rw [if_pos hm0]
      split <;> exact fun h => Except.noConfusion h
    · rw [if_neg hm0]
      by_cases hwin : (P.play m).canWinNext = true
      · rw [if_pos hwin]
        simp only []
        by_cases hcut : -((7 * 6 - 2 + 1 - (P.play m).nbMoves).tdiv 2) ≥ beta
        · rw [if_pos hcut]; exact fun h => Except.noConfusion h
        · rw [if_neg hcut]
          exact ih S _ _ _ (by split_ifs <;> omega)
      · rw [if_neg hwin]
        have hr := hrec S m (-beta) (-alpha) (by omega) (by simpa using hwin)
        cases hres : recurse S (P.play m) (-beta) (-alpha) with
        | error e =>
          rw [hres] at hr
          simp only []
          intro h
          exact hr (by rw [Except.error.inj h])
        | ok p =>
          obtain ⟨v, S2⟩ := p
          simp only []
          by_cases hcut : -v ≥ beta
          · rw [if_pos hcut]; exact fun h => Except.noConfusion h
          · rw [if_neg hcut]
            exact ih S2 _ _ _ (by split_ifs <;> omega)

theorem negamaxProbe_no_assert
    (recurse : Solver → Position → Int → Int → Except Abort (Int × Solver))
    (S : Solver) (P : Position) (key : Nat) (mn alpha beta : Int)
    (hrec : ∀ S m a b, a < b → (P.play m).canWinNext = false →
      recurse S (P.play m) a b ≠ Except.error Abort.assertion)
    (hab : alpha < beta) :
    negamaxProbe recurse S P key mn alpha beta ≠ Except.error Abort.assertion := by
  have hsearch : ∀ a b : Int, a < b →
      expandMoves recurse P key b mn
        (fillSorter P P.getNonLosingPlayableCols S.columnOrder MoveSorter.empty).entries
        S a INT_MIN 0 ≠ Except.error Abort.assertion :=
    fun a b h => expandMoves_no_assert recurse P key b mn hrec _ S a INT_MIN 0 h
  simp only [negamaxProbe, MIN_SCORE_eq, MAX_SCORE_eq]
  split_ifs
  all_goals first
    | exact fun h => Except.noConfusion h
    | exact hsearch _ _ (by omega)

/-- A call of `negamax` that satisfies the two assertions trips no assertion further
    down, whatever the depth budget. -/
theorem negamax_no_assert :
    ∀ (fuel : Nat) (S : Solver) (P : Position) (alpha beta : Int),
      alpha < beta → P.canWinNext = false →
      Solver.negamax fuel S P alpha beta ≠ Except.error Abort.assertion := by
  intro fuel
  induction fuel with
  | zero =>
    intro S P alpha beta _ _ h
    exact Abort.noConfusion (Except.error.inj h)
  | succ fuel ih =>
    intro S P alpha beta hab hwin
    have hprobe : ∀ a b : Int, a < b →
        negamaxProbe (Solver.negamax fuel)
          { S with nodeCount := (S.nodeCount + 1) % 2 ^ 64 } P P.key
          ((-(7 * 6 - 2 - P.nbMoves)).tdiv 2) a b ≠ Except.error Abort.assertion :=
      fun a b h => negamaxProbe_no_assert _ _ P P.key _ a b
        (fun S1 m a1 b1 h1 h2 => ih S1 (P.play m) a1 b1 h1 h2) h
    unfold Solver.negamax
    have h1 : ¬ ¬ (alpha < beta) := by simpa using hab
    rw [if_neg h1]
    simp only [hwin, Bool.false_eq_true, if_false]
    split_ifs
    all_goals first
      | exact fun h => Except.noConfusion h
      | exact hprobe _ _ (by omega)

theorem solveLoop_no_assert (P : Position) (hwin : P.canWinNext = false) :
    ∀ (fuel : Nat) (S : Solver) (a b : Int),
      solveLoop P fuel S a b ≠ Except.error Abort.assertion := by
  intro fuel
  induction fuel with
  | zero =>
    intro S a b
    unfold solveLoop
    split
    · exact fun h => Abort.noConfusion (Except.error.inj h)
    · exact fun h => Except.noConfusion h
  | succ fuel ih =>
    intro S a b
    by_cases hab : a < b
    · rw [solveLoop_succ P fuel S a b hab]
      have hn := negamax_no_assert (negamaxFuel P) S P (solveMed a b) (solveMed a b + 1)
        (by omega) hwin
      cases hres : Solver.negamax (negamaxFuel P) S P (solveMed a b) (solveMed a b + 1) with
      | error e =>
        rw [hres] at hn
        simp only []
        intro h
        exact hn (by rw [Except.error.inj h])
      | ok p =>
        obtain ⟨r, S2⟩ := p
        simp only []
        split
        · exact ih _ _ _
        · exact ih _ _ _
    · rw [solveLoop_done P _ S a b hab]
      exact fun h => Except.noConfusion h

/-- C32: for every position, solver state and weak flag, `solve` trips no assertion: no
    call of `negamax` made during it, a probe of the loop or a recursive call, fails
    `alpha < beta` or `!canWinNext()`.  The probes are made on a position without an
    immediate win with the window `(med, med + 1)`; a call that satisfies the two
    assertions trips none further down, whatever the depth budget; and the embedded
    `negamax` does check them: a call that violates one stops with the assertion. -/
theorem solve_asserts_hold (S : Solver) (P : Position) (weak : Bool) :
    S.solve P weak ≠ Except.error Abort.assertion ∧
    (∀ (fuel : Nat) (S1 : Solver) (a b : Int), P.canWinNext = false →
      solveLoop P fuel S1 a b ≠ Except.error Abort.assertion) ∧
    (∀ (fuel : Nat) (S1 : Solver) (Q : Position) (alpha beta : Int),
      alpha < beta → Q.canWinNext = false →
      Solver.negamax fuel S1 Q alpha beta ≠ Except.error Abort.assertion) ∧
    (∀ (fuel : Nat) (S1 : Solver) (Q : Position) (alpha beta : Int),
      (¬ alpha < beta ∨ Q.canWinNext = true) →
      Solver.negamax (fuel + 1) S1 Q alpha beta = Except.error Abort.assertion) := by
  refine ⟨?_, fun fuel S1 a b hwin => solveLoop_no_assert P hwin fuel S1 a b,
    fun fuel S1 Q a b hab hwin => negamax_no_assert fuel S1 Q a b hab hwin, ?_⟩
  · by_cases hwin : P.canWinNext = true
    · rw [solve_immediate_win_eq S P weak hwin]
      exact fun h => Except.noConfusion h
    · unfold Solver.solve
      rw [if_neg hwin]
      exact solveLoop_no_assert P (by simpa using hwin) _ _ _ _
  · intro fuel S1 Q alpha beta h
    unfold Solver.negamax
    by_cases hab : alpha < beta
    · rcases h with h | h
      · exact absurd hab h
      · rw [if_neg (by simpa using hab), if_pos h]
    · rw [if_pos hab]

/-- C33: `solve(P, weak)` returns for every position, weak flag and solver state.  A
    call of `negamax` on `P` returns within a recursion depth of `40 - nbMoves(P)` below
    it (a budget of `40 - nbMoves(P) + 1` nested calls): below 40 a move increases
    `nbMoves()` by one, and at 40 or more the call returns 0 at once.  An iteration of the
    loop of `solve` replaces `current_beta` by an `r <= med < current_beta` or
    `current_alpha` by an `r > med >= current_alpha`, so the width of the window strictly
    decreases, and the loop ends within `current_beta - current_alpha` iterations. -/
theorem solve_terminates (S : Solver) (P : Position) (weak : Bool) :
    (∃ v S2, S.solve P weak = Except.ok (v, S2)) ∧
    (∀ (fuel : Nat) (S1 : Solver) (alpha beta : Int), alpha < beta → P.canWinNext = false →
      (40 - P.nbMoves).toNat + 1 ≤ fuel →
      ∃ v S2, Solver.negamax fuel S1 P alpha beta = Except.ok (v, S2)) ∧
    (P.nbMoves < 40 → ∀ m, (P.play m).nbMoves = P.nbMoves + 1) ∧
    (∀ (fuel : Nat) (S1 : Solver) (alpha beta : Int), alpha < beta → P.canWinNext = false →
      40 ≤ P.nbMoves → ∃ S2, Solver.negamax (fuel + 1) S1 P alpha beta = Except.ok (0, S2)) ∧
    (∀ a b r : Int, a < b →
      (r ≤ solveMed a b → r - a < b - a) ∧ (solveMed a b < r → b - r < b - a)) ∧
    (∀ (fuel : Nat) (S1 : Solver) (a b : Int), P.canWinNext = false → (b - a).toNat ≤ fuel →
      ∃ v S2, solveLoop P fuel S1 a b = Except.ok (v, S2)) := by
  refine ⟨?_, ?_, ?_, ?_, ?_, ?_⟩
  · obtain ⟨v, S2, h, _⟩ := solve_ok S P weak
    exact ⟨v, S2, h⟩
  · intro fuel S1 alpha beta hab hwin hfuel
    obtain ⟨v, S2, h, _⟩ := negamax_ok fuel S1 P alpha beta hab hwin
      (by unfold negamaxFuel; omega)
    exact ⟨v, S2, h⟩
  · intro h m
    exact nbMoves_play P m (by omega)
  · intro fuel S1 alpha beta hab hwin h40
    exact ⟨_, negamax_full fuel S1 P alpha beta hab hwin h40⟩
  · intro a b r hab
    obtain ⟨h1, h2⟩ := solveMed_in_window a b hab
    exact ⟨fun h => by omega, fun h => by omega⟩
  · intro fuel S1 a b hwin hfuel
    obtain ⟨v, S2, h, _⟩ := solveLoop_ok P hwin fuel S1 a b hfuel
    exact ⟨v, S2, h⟩

/-! ## The loop of solve with exact probes -/

/-- The loop of `solve` on a window that contains `v` ends with `v` when every probe it
    issues answers on the side of `v`. -/
theorem solveLoop_exact (P : Position) (v lo hi : Int) (I : Solver → Prop)
    (hprobe : ∀ (S1 : Solver) (med : Int), I S1 → lo ≤ med → med < hi →
      ∃ r S2, Solver.negamax (negamaxFuel P) S1 P med (med + 1) = Except.ok (r, S2) ∧ I S2 ∧
        (v ≤ med → v ≤ r ∧ r ≤ med) ∧ (med < v → med < r ∧ r ≤ v)) :
    ∀ (fuel : Nat) (S : Solver) (a b : Int), I S → lo ≤ a → b ≤ hi → a ≤ v → v ≤ b →
      (b - a).toNat ≤ fuel → ∃ S2, solveLoop P fuel S a b = Except.ok (v, S2) ∧ I S2 := by
  intro fuel
  induction fuel with
  | zero =>
    intro S a b hI _ _ hav hvb hfuel
    have hab : ¬ a < b := by omega
    rw [solveLoop_done P 0 S a b hab]
    have : a = v := by omega
    exact ⟨S, by rw [this], hI⟩
  | succ fuel ih =>
    intro S a b hI hlo hhi hav hvb hfuel
    by_cases hab : a < b
    · obtain ⟨hm1, hm2⟩ := solveMed_in_window a b hab
      obtain ⟨r, S1, hr, hI1, hle, hgt⟩ := hprobe S (solveMed a b) hI (by omega) (by omega)
      rw [solveLoop_succ P fuel S a b hab, hr]
      simp only []
      by_cases hv : v ≤ solveMed a b
      · obtain ⟨h1, h2⟩ := hle hv
        rw [if_pos h2]
        exact ih S1 a r hI1 hlo (by omega) hav h1 (by omega)
      · obtain ⟨h1, h2⟩ := hgt (by omega)
        rw [if_neg (by omega)]
        exact ih S1 r b hI1 (by omega) hhi h2 hvb (by omega)
    · rw [solveLoop_done P _ S a b hab]
      have : a = v := by omega
      exact ⟨S, by rw [this], hI⟩

/-- C34: on a position without an immediate win, for `v` between the depth bounds
    `-(40 - nbMoves)/2` and `(41 - nbMoves)/2`: if every probe `negamax(P, med, med+1)`
    that `solve(P, weak=false)` can issue (on the solver states `I` that it goes through)
    returns `r` with `v <= r <= med` when `v <= med` and `med < r <= v` when `v > med`,
    then `solve` returns exactly `v`; and every probe threshold satisfies
    `current_alpha <= med < current_beta`. -/
theorem solve_returns_exact (S : Solver) (P : Position) (v : Int) (I : Solver → Prop)
    (hwin : P.canWinNext = false)
    (hlo : (-(7 * 6 - 2 - P.nbMoves)).tdiv 2 ≤ v)
    (hhi : v ≤ (7 * 6 - 2 + 1 - P.nbMoves).tdiv 2)
    (hI : I S)
    (hprobe : ∀ (S1 : Solver) (med : Int), I S1 →
      (-(7 * 6 - 2 - P.nbMoves)).tdiv 2 ≤ med → med < (7 * 6 - 2 + 1 - P.nbMoves).tdiv 2 →
      ∃ r S2, Solver.negamax (negamaxFuel P) S1 P med (med + 1) = Except.ok (r, S2) ∧ I S2 ∧
        (v ≤ med → v ≤ r ∧ r ≤ med) ∧ (med < v → med < r ∧ r ≤ v)) :
    (∃ S2, S.solve P false = Except.ok (v, S2) ∧ I S2) ∧
    (∀ current_alpha current_beta : Int, current_alpha < current_beta →
      current_alpha ≤ solveMed current_alpha current_beta ∧
      solveMed current_alpha current_beta < current_beta) := by
  refine ⟨?_, fun a b hab => solveMed_in_window a b hab⟩
  unfold Solver.solve
  rw [if_neg (by simp [hwin])]
  simp only [Bool.false_eq_true, if_false]
  exact solveLoop_exact P v _ _ I hprobe _ S _ _ hI (le_refl _) (le_refl _) hlo hhi (le_refl _)

/-- The table probe and the search of `negamax(P, 0, 1)` on `Position.oneCellLeft`
    return 0 from every solver state of `probeState`, and leave such a state. -/
theorem oneCellLeft_search (S1 : Solver) (hI : probeState S1) :
    ∃ S2, negamaxProbe (Solver.negamax 1) S1 Position.oneCellLeft Position.oneCellLeft.key
      0 0 1 = Except.ok (0, S2) ∧ probeState S2 := by
  obtain ⟨hord, hget⟩ := hI
  have hent : (fillSorter Position.oneCellLeft Position.oneCellLeft.getNonLosingPlayableCols
      [3, 2, 4, 1, 5, 0, 6] MoveSorter.empty).entries = [(140737488355328, 1500)] := by decide
  have hc2 : (Position.oneCellLeft.play 140737488355328).canWinNext = false := by decide
  have hn2 : (40 : Int) ≤ (Position.oneCellLeft.play 140737488355328).nbMoves := by decide
  unfold negamaxProbe
  simp only [MIN_SCORE_eq, MAX_SCORE_eq]
  rcases hget with hg | hg
  · rw [hg]
    simp only [Nat.cast_zero, ne_eq, not_true_eq_false, if_false, hord, hent, expandMoves]
    rw [negamax_full 0 S1 _ (-1) (-0) (by norm_num) hc2 hn2]
    simp only [hc2]
    refine ⟨{ transTable := S1.transTable.put Position.oneCellLeft.key 19,
              nodeCount := (S1.nodeCount + 1) % 2 ^ 64,
              columnOrder := S1.columnOrder }, ?_, hord, Or.inr ?_⟩
    · norm_num [MIN_SCORE_eq]
    · simp only [TranspositionTable.put, TranspositionTable.get, if_true]
      decide
  · rw [hg]
    refine ⟨S1, ?_, hord, Or.inr hg⟩
    norm_num

/-- The probe `negamax(P, 0, 1)` that `solve` issues on `Position.oneCellLeft` returns 0
    from every solver state of `probeState`, and leaves such a state. -/
theorem oneCellLeft_probe (S1 : Solver) (hI : probeState S1) :
    ∃ S2, Solver.negamax 2 S1 Position.oneCellLeft 0 (0 + 1) = Except.ok (0, S2) ∧
      probeState S2 := by
  have hc : Position.oneCellLeft.canWinNext = false := by decide
  have hn : Position.oneCellLeft.nbMoves = 39 := by decide
  have d1 : (-(7 * 6 - 2 - 39 : Int)).tdiv 2 = 0 := by decide
  have d2 : (7 * 6 - 2 + 1 - 39 : Int).tdiv 2 = 1 := by decide
  obtain ⟨S2, h, hI2⟩ := oneCellLeft_search
    { S1 with nodeCount := (S1.nodeCount + 1) % 2 ^ 64 } hI
  refine ⟨S2, ?_, hI2⟩
  rw [Solver.negamax]
  simp only [hc, hn, d1, d2]
  norm_num
  exact h

/-- Witness for `solve_returns_exact`: `Position.oneCellLeft` with `v = 0`, solved from a
    freshly constructed solver; the one probe is `negamax(P, 0, 1)`. -/
theorem solve_returns_exact_witness :
    Position.oneCellLeft.canWinNext = false ∧
    ∃ S2, Solver.new.solve Position.oneCellLeft false = Except.ok (0, S2) ∧ probeState S2 :=
  ⟨by decide,
    (solve_returns_exact Solver.new Position.oneCellLeft 0 probeState (by decide) (by decide)
      (by decide) ⟨by decide, Or.inl (by decide)⟩
      (fun S1 med hI hlo hhi => by
        have hn : Position.oneCellLeft.nbMoves = 39 := by decide
        have d1 : (-(7 * 6 - 2 - 39 : Int)).tdiv 2 = 0 := by decide
        have d2 : (7 * 6 - 2 + 1 - 39 : Int).tdiv 2 = 1 := by decide
        have hf : negamaxFuel Position.oneCellLeft = 2 := by decide
        rw [hn, d1] at hlo
        rw [hn, d2] at hhi
        have hmed : med = 0 := by omega
        subst hmed
        obtain ⟨S2, h, hI2⟩ := oneCellLeft_probe S1 hI
        rw [hf]
        exact ⟨0, S2, h, hI2, fun _ => ⟨le_refl _, le_refl _⟩,
          fun h => absurd h (by norm_num)⟩)).1⟩

theorem oneCellLeft_reachable :
    (Position.new4 2 1 4 2).playCols [2, 1, 3, 5, 0, 0, 6, 4, 0, 2, 4, 0, 4, 1, 0, 0, 4, 4, 1,
      2, 1, 5, 4, 1, 2, 3, 2, 6, 6, 5, 3, 6, 3, 3, 5, 5, 3, 5, 6] =
      Except.ok Position.oneCellLeft := by rfl

/-! ## The column order is never written -/

theorem expandMoves_columnOrder
    (recurse : Solver → Position → Int → Int → Except Abort (Int × Solver))
    (P : Position) (key : Nat) (beta mn : Int)
    (hrec : ∀ S Q a b v S2, recurse S Q a b = Except.ok (v, S2) →
      S2.columnOrder = S.columnOrder) :
    ∀ (moves : List (Nat × Int)) (S : Solver) (alpha best found v : Int) (S2 : Solver),
      expandMoves recurse P key beta mn moves S alpha best found = Except.ok (v, S2) →
      S2.columnOrder = S.columnOrder := by
  intro moves
  induction moves with
  | nil =>
    intro S alpha best found v S2 h
    simp only [expandMoves] at h
    split at h <;> · have := (Prod.mk.inj (Except.ok.inj h)).2; rw [← this]
  | cons mv rest ih =>
    intro S alpha best found v S2 h
    obtain ⟨m, sc⟩ := mv
    simp only [expandMoves] at h
    by_cases hm0 : m = 0
    · rw [if_pos hm0] at h
      split at h <;> · have := (Prod.mk.inj (Except.ok.inj h)).2; rw [← this]
    · rw [if_neg hm0] at h
      by_cases hwin : (P.play m).canWinNext = true
      · rw [if_pos hwin] at h
        simp only [] at h
        split at h
        · have := (Prod.mk.inj (Except.ok.inj h)).2; rw [← this]
        · exact ih _ _ _ _ _ _ h
      · rw [if_neg hwin] at h
        cases hres : recurse S (P.play m) (-beta) (-alpha) with
        | error e =>
          rw [hres] at h
          exact Except.noConfusion h
        | ok p =>
          obtain ⟨w, S1⟩ := p
          have h1 := hrec _ _ _ _ _ _ hres
          rw [hres] at h
          simp only [] at h
          split at h
          · have := (Prod.mk.inj (Except.ok.inj h)).2; rw [← this]; exact h1
          · exact (ih _ _ _ _ _ _ h).trans h1

theorem columnOrder_of_ok {v w : Int} {S1 S2 : Solver} {order : List Int}
    (h : (Except.ok (v, S1) : Except Abort (Int × Solver)) = Except.ok (w, S2))
    (hc : S1.columnOrder = order) : S2.columnOrder = order := by
  rw [← (Prod.mk.inj (Except.ok.inj h)).2]
  exact hc

theorem negamax_columnOrder :
    ∀ (fuel : Nat) (S : Solver) (P : Position) (alpha beta v : Int) (S2 : Solver),
      Solver.negamax fuel S P alpha beta = Except.ok (v, S2) →
      S2.columnOrder = S.columnOrder := by
  intro fuel
  induction fuel with
  | zero =>
    intro S P alpha beta v S2 h
    exact Except.noConfusion h
  | succ fuel ih =>
    intro S P alpha beta v S2 h
    have hprobe : ∀ (a b : Int),
        negamaxProbe (Solver.negamax fuel)
          { S with nodeCount := (S.nodeCount + 1) % 2 ^ 64 } P P.key
          ((-(7 * 6 - 2 - P.nbMoves)).tdiv 2) a b = Except.ok (v, S2) →
        S2.columnOrder = S.columnOrder := by
      intro a b hp
      simp only [negamaxProbe] at hp
      split_ifs at hp
      all_goals first
        | exact columnOrder_of_ok hp rfl
        | exact expandMoves_columnOrder _ P P.key _ _ (fun S Q a b v S2 h => ih S Q a b v S2 h)
            _ { S with nodeCount := (S.nodeCount + 1) % 2 ^ 64 } _ _ _ _ _ hp
    unfold Solver.negamax at h
    simp only [] at h
    split_ifs at h
    all_goals first
      | exact Except.noConfusion h
      | exact columnOrder_of_ok h rfl
      | exact hprobe _ _ h

/-- C36: in a `negamax` call of a solver whose `columnOrder` has its 7 entries, the first
    loop starts from a freshly constructed sorter and makes at most one `add` per entry
    of `columnOrder`: before the `add` for the entry at index `i` the sorter holds at most
    `i <= 6` entries, so the `add` writes within `entries[0..6]`; after the loop it holds
    at most 7, so every `getNext` reads within `entries[0..6]`.  The constructor gives
    `columnOrder` its 7 entries, and `reset` and `negamax` leave it as it is, so this
    holds in every call. -/
theorem sorter_within_capacity (S : Solver) (P : Position) (hS : S.columnOrder.length = 7) :
    (∀ pre col post, S.columnOrder = pre ++ col :: post →
      (fillSorter P P.getNonLosingPlayableCols pre MoveSorter.empty).entries.length ≤ pre.length ∧
      pre.length ≤ 6 ∧
      fillSorter P P.getNonLosingPlayableCols S.columnOrder MoveSorter.empty =
        fillSorter P P.getNonLosingPlayableCols (col :: post)
          (fillSorter P P.getNonLosingPlayableCols pre MoveSorter.empty)) ∧
    (fillSorter P P.getNonLosingPlayableCols S.columnOrder MoveSorter.empty).entries.length ≤ 7 ∧
    Solver.new.columnOrder.length = 7 ∧ S.reset.columnOrder.length = 7 ∧
    (∀ (fuel : Nat) (Q : Position) (alpha beta v : Int) (S2 : Solver),
      Solver.negamax fuel S Q alpha beta = Except.ok (v, S2) → S2.columnOrder.length = 7) := by
  have hlen : ∀ order : List Int,
      (fillSorter P P.getNonLosingPlayableCols order MoveSorter.empty).entries.length ≤
        order.length := by
    intro order
    rw [fillSorter_eq_adds, foldl_add_length]
    have := candidateMoves_length P P.getNonLosingPlayableCols order
    show 0 + _ ≤ _
    omega
  refine ⟨?_, ?_, rfl, hS, ?_⟩
  · intro pre col post hsplit
    refine ⟨hlen pre, ?_, ?_⟩
    · have := congrArg List.length hsplit
      rw [hS, List.length_append, List.length_cons] at this
      omega
    · rw [hsplit, fillSorter_eq_adds, fillSorter_eq_adds, fillSorter_eq_adds,
        candidateMoves_append, List.foldl_append]
  · have := hlen S.columnOrder
    omega
  · intro fuel Q alpha beta v S2 h
    rw [negamax_columnOrder fuel S Q alpha beta v S2 h]
    exact hS

/-- Witness for `sorter_within_capacity`: a freshly constructed solver on the empty
    board. -/
theorem sorter_within_capacity_witness :
    (fillSorter Position.new0 Position.new0.getNonLosingPlayableCols Solver.new.columnOrder
      MoveSorter.empty).entries.length ≤ 7 :=
  (sorter_within_capacity Solver.new Position.new0 rfl).2.1

end Connect4
